import Mathlib

/-! KernelCodeGen: the Rewriter primitives

A shallow embedding of the loop-transformation primitives of
`src/src/Optimizer/Rewriter.cc` (`split`, `reorder` and its `swap`, `vectorize`,
`pipeline`, `combineToOneDim`, `combineToTowDim`, `parallel`, `unroll`,
`extract_loop`, `bufferizeLoopCarryVar`, `cache_read`, `cache_write`,
`take_off_true_if`, `delete_false_if`, `detach_last_loop`,
`modifyLoopStepToOne`, `blockLevelOneToTwo`, `change_double_buffer`) and of the
search driver of
`src/src/KernelCodeGen.cc`, together with the part of the affine IR they
manipulate.

Conventions

* an SSA value (`mlir::Value`) and an operation handle are natural numbers; two
  handles are equal exactly when they denote the same value / operation;
* a failed `assert` aborts the process: the embedded function returns `none`;
* `int64_t` quantities are integers; a quantity the code keeps in an `int` is
  reduced to 32 bits (`narrowToInt`) in `split` and in the replacement
  expressions of `combineToOneDim` and `combineToTowDim`;
* MLIR may simplify an affine expression when it builds it (`d0 floordiv 1` is
  `d0`); the embedding keeps the node as written, which has the same value.
-/

namespace KernelCodeGen

/-! ## Affine expressions and maps -/

/-- An SSA value handle (`mlir::Value`). -/
abbrev Value := Nat

/-- The binary node kinds of `mlir::AffineExprKind`. -/
inductive AffineExprKind where
  | Add
  | Mul
  | Mod
  | FloorDiv
  | CeilDiv
  deriving DecidableEq, Repr

/-- An `mlir::AffineExpr`: a dimension, a symbol, a constant or a binary node. -/
inductive AffineExpr where
  | dim (position : Nat)
  | symbol (position : Nat)
  | const (value : Int)
  | binary (kind : AffineExprKind) (lhs rhs : AffineExpr)
  deriving DecidableEq, Repr

/-- An `mlir::AffineMap`: dimension count, symbol count and result expressions. -/
structure AffineMap where
  numDims : Nat
  numSymbols : Nat
  results : List AffineExpr
  deriving DecidableEq, Repr

/-- The value of a binary affine node: `floordiv` rounds toward minus infinity,
`ceildiv` toward plus infinity and `mod` is the remainder of the floor division. -/
def AffineExprKind.apply : AffineExprKind → Int → Int → Int
  | .Add, a, b => a + b
  | .Mul, a, b => a * b
  | .Mod, a, b => Int.fmod a b
  | .FloorDiv, a, b => Int.fdiv a b
  | .CeilDiv, a, b => -(Int.fdiv (-a) b)

/-- The value of an affine expression when dimension `k` has the value `dims[k]`
(`0` outside the list; symbols are valued by `syms` likewise). -/
def AffineExpr.value (dims syms : List Int) : AffineExpr → Int
  | .dim p => dims.getD p 0
  | .symbol p => syms.getD p 0
  | .const c => c
  | .binary k l r => k.apply (l.value dims syms) (r.value dims syms)

/-- The results of an affine map applied to its operands, each operand `v`
holding the run-time value `env v`. The map has no symbol operands here. -/
def AffineMap.valueAt (m : AffineMap) (env : Value → Int) (operands : List Value) : List Int :=
  m.results.map (AffineExpr.value (operands.map env) [])

/-- The test `AffineMap::isConstant()`: every result is a constant expression. -/
def AffineMap.isConstant (m : AffineMap) : Bool :=
  m.results.all fun e => match e with
    | .const _ => true
    | _ => false

/-- The accessor `AffineMap::getSingleConstantResult()`: asserts that the map has
exactly one result and that it is a constant. -/
def AffineMap.getSingleConstantResult (m : AffineMap) : Option Int :=
  match m.results with
  | [.const c] => some c
  | _ => none

/-- The map `() -> (c)` used for a constant loop bound. -/
def AffineMap.constant (c : Int) : AffineMap :=
  { numDims := 0, numSymbols := 0, results := [.const c] }

/-! ## Loops -/

/-- An `affine.for` operation: its bound maps, its step and its induction variable. -/
structure AffineForOp where
  lowerBoundMap : AffineMap
  upperBoundMap : AffineMap
  step : Int
  inductionVar : Value
  deriving DecidableEq, Repr

/-- The accessor `AffineForOp::getConstantLowerBound()`. -/
def AffineForOp.getConstantLowerBound (l : AffineForOp) : Option Int :=
  l.lowerBoundMap.getSingleConstantResult

/-- The accessor `AffineForOp::getConstantUpperBound()`. -/
def AffineForOp.getConstantUpperBound (l : AffineForOp) : Option Int :=
  l.upperBoundMap.getSingleConstantResult

/-- A loop `for iv = lb to ub step s` with constant bounds. -/
def AffineForOp.ofConstants (lb ub step : Int) (iv : Value) : AffineForOp :=
  { lowerBoundMap := AffineMap.constant lb, upperBoundMap := AffineMap.constant ub,
    step := step, inductionVar := iv }

/-- The number of iterations of `for i = lb to ub step s` (`s > 0`):
the values `lb, lb + s, ...` below `ub`. -/
def tripCount (lb ub step : Int) : Int :=
  if ub ≤ lb then 0 else (ub - lb + step - 1) / step

/-- The induction values `lb, lb + s, ...` below `ub`, in execution order. -/
def iterationValues (lb ub step : Int) : List Int :=
  (List.range (tripCount lb ub step).toNat).map fun (k : Nat) => lb + (k : Int) * step

/-! ## `Rewriter::reorder` on a perfectly nested chain

A perfectly nested chain is the list of its loop handles, outermost first: the
body of each loop holds the next loop of the list and nothing else (the innermost
body holds no loop). -/

/-- A loop handle (`mlir::affine::AffineForOp` compared by identity). -/
abbrev LoopId := Nat

/-- The map `loopPriority` filled by
`priority = loops.size(); for (loop : loops) loopPriority[loop] = priority--;`. -/
def assignPriority : List LoopId → Int → (LoopId → Option Int) → LoopId → Option Int
  | [], _, m => m
  | l :: ls, p, m => assignPriority ls (p - 1) (fun x => if x = l then some p else m x)

/-- The priorities `reorder` gives to the loops of `loops`. -/
def loopPriority (loops : List LoopId) : LoopId → Option Int :=
  assignPriority loops loops.length (fun _ => none)

/-- The lookup `loopPriority[loop]` (`std::map::operator[]`, `0` for a missing key). -/
def priorityOf (pri : LoopId → Option Int) (l : LoopId) : Int :=
  (pri l).getD 0

/-- The lambda `findFirstTargetLoop(root)` on a chain: the first loop, in pre-order
from the root, that has a priority; `assert(found)`. -/
def findFirstTargetLoop (pri : LoopId → Option Int) (chain : List LoopId) : Option LoopId :=
  chain.find? fun l => (pri l).isSome

/-- The inner loop of `reorder`,
`while (auto sonLoop = containTargetLoop(parentLoop)) ...`, on the chain
`above ++ parentLoop :: below`. `containTargetLoop(parentLoop)` is the first
`affine.for` with a priority among the operations of the body of `parentLoop`;
in a chain that body holds exactly the next loop, the head of `below`.
`swap(parentLoop, sonLoop)` interchanges the two
adjacent loops (in a perfectly nested chain there is no operation before or after
the inner loop, so no clone is made) and `parentLoop` keeps denoting the same
loop, now one level deeper. Returns the chain and the flag `swapped`. -/
def bubblePass (pri : LoopId → Option Int) :
    List LoopId → LoopId → List LoopId → Bool → List LoopId × Bool
  | above, parentLoop, [], swapped => (above ++ [parentLoop], swapped)
  | above, parentLoop, son :: below, swapped =>
    if (pri son).isSome then
      if priorityOf pri parentLoop < priorityOf pri son then
        bubblePass pri (above ++ [son]) parentLoop below true
      else
        bubblePass pri (above ++ [parentLoop]) son below swapped
    else (above ++ parentLoop :: son :: below, swapped)

/-- The `do ... while (swapped)` loop of `reorder`. Every pass starts again at
the handle `parentLoop_`, computed once before the loop, wherever that loop now
sits in the chain. `none` when the fuel runs out. -/
def bubbleSort (pri : LoopId → Option Int) (parentLoop_ : LoopId) :
    Nat → List LoopId → Option (List LoopId)
  | 0, _ => none
  | fuel + 1, chain =>
    let above := chain.takeWhile fun l => l != parentLoop_
    let below := (chain.dropWhile fun l => l != parentLoop_).tail
    let pass := bubblePass pri above parentLoop_ below false
    if pass.2 then bubbleSort pri parentLoop_ fuel pass.1 else some pass.1

/-- The primitive `Rewriter::reorder(loops)` on the perfectly nested chain `chain`
(outermost first): the nesting order afterwards. `none` when `assert(found)`
fails or the fuel runs out. -/
def reorder (fuel : Nat) (chain : List LoopId) (loops : List LoopId) : Option (List LoopId) :=
  let pri := loopPriority loops
  match findFirstTargetLoop pri chain with
  | none => none
  | some parentLoop_ => bubbleSort pri parentLoop_ fuel chain

/-- Apply a rewriting step that may abort to every element of a list, in order;
the whole loop aborts as soon as one step does. -/
def mapOrAbort {α β : Type} (f : α → Option β) : List α → Option (List β)
  | [] => some []
  | a :: rest =>
    match f a, mapOrAbort f rest with
    | some b, some bs => some (b :: bs)
    | _, _ => none

/-! ## Operations using an induction variable -/

/-- The kinds of operation the primitives distinguish with `dyn_cast`. -/
inductive OpKind where
  | AffineLoadOp
  | AffineStoreOp
  | AffineApplyOp
  | AffineVectorLoadOp
  | AffineVectorStoreOp
  | Other
  deriving DecidableEq, Repr

/-- An operation carrying an affine map: its kind, the memref it addresses
(memory operations), the value it stores (stores), its map and map operands. -/
structure Operation where
  kind : OpKind
  memref : Value
  storedValue : Value
  map : AffineMap
  mapOperands : List Value
  deriving DecidableEq, Repr

/-! ## `Rewriter::split` -/

/-- The helper `shiftAffineExprDim(context, expr, shift)`: every dimension moves up
by `shift`; `assert(constExpr_)` fails on a symbol. -/
def shiftAffineExprDim : AffineExpr → Nat → Option AffineExpr
  | .dim p, shift => some (.dim (p + shift))
  | .binary k l r, shift =>
    match shiftAffineExprDim l shift, shiftAffineExprDim r shift with
    | some l1, some r1 => some (.binary k l1 r1)
    | _, _ => none
  | .const c, _ => some (.const c)
  | .symbol _, _ => none

/-- The helper `getModifiedExpr(context, inExpr, replaceExpr, targetDim,
replaceNumberDims)`: dimension `targetDim` becomes `replaceExpr`, every later
dimension moves up by `replaceNumberDims - 1`, earlier ones stay;
`assert(constExpr_)` fails on a symbol. -/
def getModifiedExpr : AffineExpr → AffineExpr → Nat → Nat → Option AffineExpr
  | .dim p, replaceExpr, targetDim, replaceNumberDims =>
    if p = targetDim then some replaceExpr
    else if p > targetDim then some (.dim (p + replaceNumberDims - 1))
    else some (.dim p)
  | .binary k l r, replaceExpr, targetDim, replaceNumberDims =>
    match getModifiedExpr l replaceExpr targetDim replaceNumberDims,
      getModifiedExpr r replaceExpr targetDim replaceNumberDims with
    | some l1, some r1 => some (.binary k l1 r1)
    | _, _ => none
  | .const c, _, _, _ => some (.const c)
  | .symbol _, _, _, _ => none

/-- The state of the operand scan of `replaceIndexWithExpr`. -/
structure OperandScan where
  targetDim : Int
  found : Bool
  operands : List Value
  deriving DecidableEq, Repr

/-- The operand loop of `replaceIndexWithExpr`:
`if (!found) targetDim += 1; if (item == oldIv) { found = true; push all newIvs }
else push item`. -/
def scanOperands (oldIv : Value) (newIvs : List Value) : List Value → OperandScan → OperandScan
  | [], s => s
  | item :: rest, s =>
    let targetDim := if s.found then s.targetDim else s.targetDim + 1
    if item = oldIv then
      scanOperands oldIv newIvs rest
        { targetDim := targetDim, found := true, operands := s.operands ++ newIvs }
    else
      scanOperands oldIv newIvs rest
        { targetDim := targetDim, found := s.found, operands := s.operands ++ [item] }

/-- The template `replaceIndexWithExpr(oldIv, newIvs, memOp, replaceExpr, exprs,
operands)`: the new result expressions and the new operand list
(`assert(found)` fails when `oldIv` is no map operand). -/
def replaceIndexWithExpr (oldIv : Value) (newIvs : List Value) (memOp : Operation)
    (replaceExpr : AffineExpr) : Option (List AffineExpr × List Value) :=
  let scan := scanOperands oldIv newIvs memOp.mapOperands
    { targetDim := -1, found := false, operands := [] }
  if scan.found then
    match shiftAffineExprDim replaceExpr scan.targetDim.toNat with
    | none => none
    | some shifted =>
      match mapOrAbort
          (fun e => getModifiedExpr e shifted scan.targetDim.toNat newIvs.length)
          memOp.map.results with
      | none => none
      | some exprs => some (exprs, scan.operands)
  else none

/-- The conversion of a 64-bit quantity to `int` (32 bits, two's complement):
the value modulo `2^32`, taken in `[-2^31, 2^31)`. -/
def narrowToInt (x : Int) : Int :=
  (x + 2147483648) % 4294967296 - 2147483648

/-- The precondition checks of `Rewriter::split` (the four `assert`s); the
constant upper bound when they pass. The step is read into an `int`
(`int step = forOp.getStep().getLimitedValue()`) and it is this `int` that is
compared with 1; the bounds are read into `int64_t`. -/
def splitCheck (forOp : AffineForOp) (num_output : Nat) (factors : List Int) : Option Int :=
  if (1 :: factors).length = num_output then
    if forOp.lowerBoundMap.isConstant && forOp.upperBoundMap.isConstant then
      match forOp.lowerBoundMap.getSingleConstantResult,
        forOp.upperBoundMap.getSingleConstantResult with
      | some lb, some ub => if narrowToInt forOp.step = 1 ∧ lb = 0 then some ub else none
      | _, _ => none
    else none
  else none

/-- The loop nest `buildAffineLoopNest(builder, loc, lowerBounds, upperBounds,
steps, ...)` creates, outermost first; the induction variables are the fresh
values `fresh, fresh + 1, ...`. -/
def buildAffineLoopNest : List Int → List Int → List Int → Value → List AffineForOp
  | lb :: lbs, ub :: ubs, st :: sts, fresh =>
    AffineForOp.ofConstants lb ub st fresh :: buildAffineLoopNest lbs ubs sts (fresh + 1)
  | _, _, _, _ => []

/-- The loops `Rewriter::split(forOp, num_output, factors)` creates and returns:
zero lower bounds, upper bounds `reverse (factors ++ [ub])` and steps
`reverse (1 :: factors)`. -/
def splitLoops (forOp : AffineForOp) (num_output : Nat) (factors : List Int) (fresh : Value) :
    Option (List AffineForOp) :=
  match splitCheck forOp num_output factors with
  | none => none
  | some ub =>
    let steps := (1 :: factors).reverse
    let upperBoundsVector := (factors ++ [ub]).reverse
    let lowerBounds := List.replicate num_output (0 : Int)
    some (buildAffineLoopNest lowerBounds upperBoundsVector steps fresh)

/-- The expression `sumExpr` of `split`: `d0`, then `sumExpr + d_i` for each
further new induction variable. -/
def sumExpr (n : Nat) : AffineExpr :=
  (List.range (n - 1)).foldl (fun acc i => .binary .Add acc (.dim (i + 1))) (.dim 0)

/-- The rewriting of one user of the old induction variable in `split`: loads,
stores and applies get the map and operands of `replaceIndexWithExpr`; any other
user hits `assert(false)`. -/
def splitUser (oldIv : Value) (ivsVector : List Value) (user : Operation) : Option Operation :=
  match user.kind with
  | .AffineLoadOp | .AffineStoreOp | .AffineApplyOp =>
    match replaceIndexWithExpr oldIv ivsVector user (sumExpr ivsVector.length) with
    | none => none
    | some (exprs, operands) =>
      some { user with
        map := { numDims := operands.length, numSymbols := 0, results := exprs }
        mapOperands := operands }
  | _ => none

/-- The result of `split`: the returned loops and the rewritten users. -/
structure SplitResult where
  loops : List AffineForOp
  users : List Operation
  deriving DecidableEq, Repr

/-- The primitive `Rewriter::split(forOp, num_output, factors)`; `users` are the
operations using the induction variable of `forOp`, `fresh` the first unused
value handle. -/
def split (forOp : AffineForOp) (num_output : Nat) (factors : List Int) (fresh : Value)
    (users : List Operation) : Option SplitResult :=
  match splitLoops forOp num_output factors fresh with
  | none => none
  | some loops =>
    match mapOrAbort (splitUser forOp.inductionVar (loops.map AffineForOp.inductionVar))
        users with
    | none => none
    | some users1 => some { loops := loops, users := users1 }

/-- The trip count of a loop with constant bounds (`0` otherwise). -/
def AffineForOp.tripCount (l : AffineForOp) : Int :=
  match l.getConstantLowerBound, l.getConstantUpperBound with
  | some lb, some ub => KernelCodeGen.tripCount lb ub l.step
  | _, _ => 0

/-! ## `Rewriter::vectorize` -/

/-- The rewriting of one operation of the loop body by the two walks of
`vectorize`: an `affine.load` becomes an `affine.vector_load`, an `affine.store`
an `affine.vector_store`, with the memref, stored value, map and operands of the
scalar operation; other operations are not visited. -/
def vectorizeOp (op : Operation) : Operation :=
  match op.kind with
  | .AffineLoadOp => { op with kind := .AffineVectorLoadOp }
  | .AffineStoreOp => { op with kind := .AffineVectorStoreOp }
  | _ => op

/-- The primitive `Rewriter::vectorize(readOrWrite, width)` on a loop whose body
holds the operations `body`. The check is
`assert(step = 1 && lb == 0 && ub % width == 0)`: the `=` assigns the value of
the conjunction `1 && lb == 0 && ub % width == 0` to the local `step`, so the
step of the loop is not compared with anything. `%` is the C++ remainder
(a zero `width` traps). On success the step of the loop is set to `width`. -/
def vectorize (readOrWrite : AffineForOp) (width : Int) (body : List Operation) :
    Option (AffineForOp × List Operation) :=
  match readOrWrite.getConstantUpperBound, readOrWrite.getConstantLowerBound with
  | some ub, some lb =>
    if width = 0 then none
    else
      let step : Bool := true && lb == 0 && Int.tmod ub width == 0
      if step then some ({ readOrWrite with step := width }, body.map vectorizeOp)
      else none
  | _, _ => none

/-! ## `Rewriter::pipeline` -/

/-- A `mlir::MemRefType`: shape, element type and memory space. -/
structure MemRefType where
  shape : List Int
  elementType : Nat
  memorySpace : Nat
  deriving DecidableEq, Repr

/-- A `memref.alloc` operation: its result value and the type of the result. -/
structure AllocOp where
  result : Value
  type : MemRefType
  deriving DecidableEq, Repr

/-- The type `newBufferType` of step 1 of `pipeline`: `2` is pushed in front of
the dimensions of the old shape; element type and memory space are kept. -/
def doubleBufferType (bufferType : MemRefType) : MemRefType :=
  { shape := 2 :: bufferType.shape, elementType := bufferType.elementType,
    memorySpace := bufferType.memorySpace }

/-- Step 1 of `pipeline`: `defineBufferOp` is the `memref.alloc` defining
`buffer` (none: the `dyn_cast` is null) and the new allocation, with result
`doubleBuffer`, is created right before it. -/
def insertDoubleBuffer (buffer doubleBuffer : Value) : List AllocOp → Option (List AllocOp)
  | [] => none
  | a :: rest =>
    if a.result = buffer then
      some ({ result := doubleBuffer, type := doubleBufferType a.type } :: a :: rest)
    else
      match insertDoubleBuffer buffer doubleBuffer rest with
      | none => none
      | some rest1 => some (a :: rest1)

/-- The lambda `replaceOperand(body, src, dst)` on one operation: in a vector
load or store every map operand equal to `src` becomes `dst`. -/
def replaceOperand (src dst : Value) (op : Operation) : Operation :=
  match op.kind with
  | .AffineVectorLoadOp | .AffineVectorStoreOp =>
    { op with mapOperands := op.mapOperands.map fun v => if v = src then dst else v }
  | _ => op

/-- The lambda `replaceBufferRef(body, bufferSrc, bufferDst)` on one operation: a
vector load or store of `bufferSrc` now addresses `bufferDst`, with the constant
`0` in front of the old result expressions. -/
def replaceBufferRef (bufferSrc bufferDst : Value) (op : Operation) : Operation :=
  match op.kind with
  | .AffineVectorLoadOp | .AffineVectorStoreOp =>
    if op.memref = bufferSrc then
      { op with
        memref := bufferDst
        map := { numDims := op.map.numDims, numSymbols := 0,
                 results := .const 0 :: op.map.results } }
    else op
  | _ => op

/-- The guard of the prefetch, `ub - 2 * step - dim0` (to be `>= 0`); the integer
`ub - 2 * step` minus an affine expression is the expression times `-1` plus the
integer. -/
def prefetchGuard (ub step : Int) : AffineExpr :=
  .binary .Add (.binary .Mul (.dim 0) (.const (-1))) (.const (ub - 2 * step))

/-- The lambda `replaceAffineExprInLoop(body, src, dstExpr, dimCount)` on one
operation: in a vector load or store having `src` among its operands the
dimension of the first such operand is replaced by `dstExpr` shifted to that
dimension; the operands stay. -/
def replaceAffineExprInLoop (src : Value) (dstExpr : AffineExpr) (dimCount : Nat)
    (op : Operation) : Option Operation :=
  match op.kind with
  | .AffineVectorLoadOp | .AffineVectorStoreOp =>
    if op.mapOperands.contains src then
      let targetDim := op.mapOperands.indexOf src
      match shiftAffineExprDim dstExpr targetDim with
      | none => none
      | some shiftedDstExpr =>
        match mapOrAbort (fun e => getModifiedExpr e shiftedDstExpr targetDim dimCount)
            op.map.results with
        | none => none
        | some exprs =>
          some { op with
            map := { numDims := op.map.numDims + dimCount - 1, numSymbols := 0,
                     results := exprs } }
    else some op
  | _ => some op

/-- The operand bookkeeping shared by `replaceBufferRefInLoop` and the load
replacement of step 4: the dimension `targetDim` of the induction variable of
`compute_at` among the operands and the new operand list; when the induction
variable is missing it is appended and gets the next dimension. -/
def inductionVarDim (iv : Value) (operands : List Value) : Nat × List Value × Nat :=
  if operands.contains iv then (operands.indexOf iv, operands, 0)
  else (operands.length, operands ++ [iv], 1)

/-- The parity slot written by the prefetch: `(dim.floorDiv(step) + 1) % 2`. -/
def prefetchSlotExpr (targetDim : Nat) (step : Int) : AffineExpr :=
  .binary .Mod (.binary .Add (.binary .FloorDiv (.dim targetDim) (.const step)) (.const 1))
    (.const 2)

/-- The parity slot read by the consumer: `dim.floorDiv(step) % 2`. -/
def consumeSlotExpr (targetDim : Nat) (step : Int) : AffineExpr :=
  .binary .Mod (.binary .FloorDiv (.dim targetDim) (.const step)) (.const 2)

/-- The lambda `replaceBufferRefInLoop(body, bufferSrc, bufferDst, compute_at)` on
one operation: a vector load or store of `bufferSrc` now addresses `bufferDst`
with the prefetch slot in front of the old result expressions. -/
def replaceBufferRefInLoop (bufferSrc bufferDst : Value) (compute_at : AffineForOp)
    (op : Operation) : Operation :=
  match op.kind with
  | .AffineVectorLoadOp | .AffineVectorStoreOp =>
    if op.memref = bufferSrc then
      let d := inductionVarDim compute_at.inductionVar op.mapOperands
      { op with
        memref := bufferDst
        map := { numDims := op.map.numDims + d.2.2, numSymbols := 0,
                 results := prefetchSlotExpr d.1 compute_at.step :: op.map.results }
        mapOperands := d.2.1 }
    else op
  | _ => op

/-- Step 4 of `pipeline`, `//4. replace load`, on one operation: a remaining user
of `buffer` must be a vector load or a load and now reads `doubleBuffer` at the
consumer slot; any other user hits `assert(false)`. Operations that do not use
`buffer` are not visited. -/
def replaceLoad (buffer doubleBuffer : Value) (compute_at : AffineForOp) (op : Operation) :
    Option Operation :=
  if op.memref = buffer then
    match op.kind with
    | .AffineVectorLoadOp | .AffineLoadOp =>
      let d := inductionVarDim compute_at.inductionVar op.mapOperands
      some { op with
        memref := doubleBuffer
        map := { numDims := op.map.numDims + d.2.2, numSymbols := 0,
                 results := consumeSlotExpr d.1 compute_at.step :: op.map.results }
        mapOperands := d.2.1 }
    | _ => none
  else some op

/-- The program state `pipeline` leaves behind. `prologue` are the cloned read
bodies placed before `compute_at` (`results[0]`), `readBodys` the read bodies
moved under the guard at the start of the body of `compute_at` (`results[1]`),
`others` the remaining operations of the function. -/
structure PipelineResult where
  allocs : List AllocOp
  buffer : Value
  lbOp : Value × Int
  prologue : List (List Operation)
  guard : AffineExpr
  guardOperands : List Value
  readBodys : List (List Operation)
  others : List Operation
  deriving DecidableEq, Repr

/-- The primitive `Rewriter::pipeline(readBodys, buffer, compute_at)`.
`allocs` are the `memref.alloc` operations of the function, each read body is
the list of the operations nested in it, `others` are the operations outside
the read bodies, and `fresh`, `fresh + 1` are unused value handles (the result of
the new allocation and of the constant `lbOp`). The field `buffer` of the result
is the caller's handle (`mlir::Value& buffer`) on return. -/
def pipeline (allocs : List AllocOp) (readBodys : List (List Operation)) (buffer : Value)
    (compute_at : AffineForOp) (others : List Operation) (fresh : Value) :
    Option PipelineResult :=
  let doubleBuffer := fresh
  match insertDoubleBuffer buffer doubleBuffer allocs with
  | none => none
  | some allocs1 =>
    match compute_at.getConstantLowerBound, compute_at.getConstantUpperBound with
    | some lb, some ub =>
      let lbOp := fresh + 1
      let prologue := readBodys.map fun body =>
        body.map fun op =>
          replaceBufferRef buffer doubleBuffer (replaceOperand compute_at.inductionVar lbOp op)
      let step := compute_at.step
      let moved := mapOrAbort (fun body => mapOrAbort (fun op =>
          (replaceAffineExprInLoop compute_at.inductionVar
            (.binary .Add (.dim 0) (.const step)) 1 op).map
            (replaceBufferRefInLoop buffer doubleBuffer compute_at)) body) readBodys
      match moved with
      | none => none
      | some readBodys1 =>
        let load := replaceLoad buffer doubleBuffer compute_at
        match mapOrAbort (mapOrAbort load) prologue, mapOrAbort (mapOrAbort load) readBodys1,
          mapOrAbort load others with
        | some prologue2, some readBodys2, some others2 =>
          some { allocs := allocs1.filter (fun a => a.result != buffer)
                 buffer := doubleBuffer
                 lbOp := (lbOp, lb)
                 prologue := prologue2
                 guard := prefetchGuard ub step
                 guardOperands := [compute_at.inductionVar]
                 readBodys := readBodys2
                 others := others2 }
        | _, _, _ => none
    | _, _ => none

/-! ## `Rewriter::combineToOneDim` -/

/-- The helper `getAllExprDim(expr)`: the dimensions occurring in `expr`
(the elements of the returned `std::set<int>`, in order of occurrence). -/
def getAllExprDim : AffineExpr → List Nat
  | .dim p => [p]
  | .binary _ l r => getAllExprDim l ++ getAllExprDim r
  | _ => []

/-- The helper `modifyExprDim(context, expr, orgDim, modDim)`: dimension `orgDim`
becomes dimension `modDim`; `assert(constExpr_)` fails on a symbol. -/
def modifyExprDim : AffineExpr → Nat → Nat → Option AffineExpr
  | .dim p, orgDim, modDim => if p = orgDim then some (.dim modDim) else some (.dim p)
  | .binary k l r, orgDim, modDim =>
    match modifyExprDim l orgDim modDim, modifyExprDim r orgDim modDim with
    | some l1, some r1 => some (.binary k l1 r1)
    | _, _ => none
  | .const c, _, _ => some (.const c)
  | .symbol _, _, _ => none

/-- The loop `for (i = 0; i < alldims.size(); i++)` of `orderizeExprs`: when
`alldims[i] != i`, `exprs` is overwritten by `resultExprs` (the copy taken on
entry) with dimension `alldims[i]` renamed to `i`. -/
def orderizeLoop (resultExprs : List AffineExpr) :
    List Nat → Nat → List AffineExpr → Option (List AffineExpr)
  | [], _, exprs => some exprs
  | d :: rest, i, exprs =>
    if d ≠ i then
      match mapOrAbort (fun e => modifyExprDim e d i) resultExprs with
      | none => none
      | some exprs1 => orderizeLoop resultExprs rest (i + 1) exprs1
    else orderizeLoop resultExprs rest (i + 1) exprs

/-- The helper `orderizeExprs(context, exprs)`; `alldims` is the sorted set of the
dimensions used by the expressions. -/
def orderizeExprs (exprs : List AffineExpr) : Option (List AffineExpr) :=
  let alldims := ((exprs.map getAllExprDim).flatten.dedup).insertionSort (fun a b => a ≤ b)
  orderizeLoop exprs alldims 0 exprs

/-- The state of the operand scan of `replaceIndexWithExprMoreToOne`. -/
structure MoreToOneScan where
  indices : List Nat
  targetDims : List Int
  founds : List Bool
  operands : List Value
  deriving DecidableEq, Repr

/-- The operand loop of `replaceIndexWithExprMoreToOne`: every `targetDims[i]` not
yet found is incremented; an operand that is the old induction variable number
`index` is recorded and replaced by `newIv` (pushed once), any other operand is
kept. -/
def scanMoreToOne (oldIvs : List Value) (newIv : Value) :
    List Value → MoreToOneScan → MoreToOneScan
  | [], s => s
  | item :: rest, s =>
    let targetDims := List.zipWith (fun (t : Int) (f : Bool) => if f then t else t + 1)
      s.targetDims s.founds
    if oldIvs.contains item then
      let index := oldIvs.indexOf item
      scanMoreToOne oldIvs newIv rest
        { indices := s.indices ++ [index]
          targetDims := targetDims
          founds := s.founds.set index true
          operands := if s.operands.contains newIv then s.operands else s.operands ++ [newIv] }
    else
      scanMoreToOne oldIvs newIv rest
        { indices := s.indices, targetDims := targetDims, founds := s.founds,
          operands := s.operands ++ [item] }

/-- The loop `for (auto index : indices) replaceExprs[index] =
shiftAffineExprDim(context, replaceExprs[index], *minDim)`. -/
def shiftReplaceExprs (minDim : Nat) : List Nat → List AffineExpr → Option (List AffineExpr)
  | [], replaceExprs => some replaceExprs
  | index :: rest, replaceExprs =>
    match replaceExprs[index]? with
    | none => none
    | some e =>
      match shiftAffineExprDim e minDim with
      | none => none
      | some e1 => shiftReplaceExprs minDim rest (replaceExprs.set index e1)

/-- The loop `for (auto index : indices) expr_ = getModifiedExpr(context, expr_,
replaceExprs[index], targetDims[index], 1)`. -/
def substituteIndices (replaceExprs : List AffineExpr) (targetDims : List Int) :
    List Nat → AffineExpr → Option AffineExpr
  | [], expr_ => some expr_
  | index :: rest, expr_ =>
    match replaceExprs[index]?, targetDims[index]? with
    | some e, some t =>
      match getModifiedExpr expr_ e t.toNat 1 with
      | none => none
      | some expr1 => substituteIndices replaceExprs targetDims rest expr1
    | _, _ => none

/-- The template `replaceIndexWithExprMoreToOne(builder, oldIvs, newIv, memOp,
replaceExprs, exprs, operands)`: the new result expressions and operands. -/
def replaceIndexWithExprMoreToOne (oldIvs : List Value) (newIv : Value) (memOp : Operation)
    (replaceExprs : List AffineExpr) : Option (List AffineExpr × List Value) :=
  let scan := scanMoreToOne oldIvs newIv memOp.mapOperands
    { indices := [], targetDims := List.replicate oldIvs.length (-1),
      founds := List.replicate oldIvs.length false, operands := [] }
  match scan.targetDims.min? with
  | none => none
  | some minDim =>
    match shiftReplaceExprs minDim.toNat scan.indices replaceExprs with
    | none => none
    | some shifted =>
      match mapOrAbort (substituteIndices shifted scan.targetDims scan.indices)
          memOp.map.results with
      | none => none
      | some exprs =>
        match orderizeExprs exprs with
        | none => none
        | some ordered => some (ordered, scan.operands)

/-- The first loop of `combineToOneDim`: every loop must have the lower bound and
the step of the first one (`assert(false)` otherwise) and a constant upper
bound; returns `originUps`. -/
def combineBounds (firstLoopLower firstLoopStep : Int) : List AffineForOp → Option (List Int)
  | [] => some []
  | l :: rest =>
    match l.lowerBoundMap.getSingleConstantResult with
    | none => none
    | some lower =>
      if firstLoopLower ≠ lower ∨ firstLoopStep ≠ l.step then none
      else
        match l.upperBoundMap.getSingleConstantResult, combineBounds firstLoopLower
            firstLoopStep rest with
        | some upperbound, some ups => some (upperbound :: ups)
        | _, _ => none

/-- The loop `auto sum = 1; for (j = i + 1; j < originUps.size(); j++)
sum *= originUps[j];` over the upper bounds after position `i`: `sum` is an
`int`, and every product, formed in 64 bits, is converted back to `int`. -/
def intProduct (ups : List Int) : Int :=
  ups.foldl (fun sum u => narrowToInt (sum * u)) 1

/-- The replacement expressions `exprs_` of `combineToOneDim` from position `i` on:
`d0 floordiv sum` for `i = 0`, `(d0 mod last_sum) floordiv sum` for a middle
position, `d0 mod originUps.back()` for the last one, where the `int` `sum` is
the product of the upper bounds after position `i` as `intProduct` forms it and
`last_sum` is the `sum` of the position before. -/
def combineExprsFrom : Nat → Int → List Int → List AffineExpr
  | _, _, [] => []
  | _, _, [u] => [.binary .Mod (.dim 0) (.const u)]
  | i, last_sum, _ :: u :: rest =>
    let sum := intProduct (u :: rest)
    (if i = 0 then AffineExpr.binary .FloorDiv (.dim 0) (.const sum)
      else .binary .FloorDiv (.binary .Mod (.dim 0) (.const last_sum)) (.const sum))
      :: combineExprsFrom (i + 1) sum (u :: rest)

/-- The check `AffineMap::get(dimCount, 0, results, context)` asserts
(`willBeValidAffineMap`): every dimension a result names lies below `dimCount`.
The results at hand hold no symbol, the helpers that build them accept none. -/
def validResults (dimCount : Nat) (results : List AffineExpr) : Bool :=
  results.all fun e => (getAllExprDim e).all fun p => p < dimCount

/-- The rewriting of one user of the old induction variables in
`combineToOneDim`: loads and stores get the map and operands of
`replaceIndexWithExprMoreToOne`, the map being built by
`AffineMap::get(dimCount, 0, lastExprs, ...)` with `dimCount` the number of
operands, which fails its check when `lastExprs` names a dimension beyond the
operands; any other user hits `assert(false)`. -/
def combineUser (oldIvs : List Value) (combinIv : Value) (exprs_ : List AffineExpr)
    (user : Operation) : Option Operation :=
  match user.kind with
  | .AffineLoadOp | .AffineStoreOp =>
    match replaceIndexWithExprMoreToOne oldIvs combinIv user exprs_ with
    | none => none
    | some (lastExprs, operands) =>
      if validResults operands.length lastExprs then
        some { user with
          map := { numDims := operands.length, numSymbols := 0, results := lastExprs }
          mapOperands := operands }
      else none
  | _ => none

/-- The result of `combineToOneDim`: the returned loop and the rewritten users. -/
structure CombineResult where
  loop : AffineForOp
  users : List Operation
  deriving DecidableEq, Repr

/-- The primitive `Rewriter::combineToOneDim(loops)` for loops without
loop-carried values; `users` are the operations using the induction variables
of `loops`, `fresh` is the induction variable of the new loop. -/
def combineToOneDim (loops : List AffineForOp) (users : List Operation) (fresh : Value) :
    Option CombineResult :=
  match loops with
  | [] => none
  | [l] => some { loop := l, users := users }
  | first :: second :: rest =>
    match first.lowerBoundMap.getSingleConstantResult with
    | none => none
    | some firstLoopLower =>
      match combineBounds firstLoopLower first.step (first :: second :: rest) with
      | none => none
      | some originUps =>
        let newLoop := AffineForOp.ofConstants firstLoopLower originUps.prod first.step fresh
        let oldIvs := (first :: second :: rest).map AffineForOp.inductionVar
        match mapOrAbort (combineUser oldIvs fresh (combineExprsFrom 0 0 originUps)) users with
        | none => none
        | some users1 => some { loop := newLoop, users := users1 }

/-- An affine expression without symbols: the expressions the helpers
`shiftAffineExprDim`, `getModifiedExpr` and `modifyExprDim` accept
("allowed dim, constant, binaryOp"). -/
def AffineExpr.symbolFree : AffineExpr → Bool
  | .dim _ => true
  | .const _ => true
  | .symbol _ => false
  | .binary _ l r => l.symbolFree && r.symbolFree

/-! ## `take_off_true_if` and `delete_false_if` -/

/-- The operation `getMaxValue` / `getMinValue` look at for an operand: the
defining operation of an operation result, the operation owning the block of a
block argument. `dyn_cast` tells an index constant, an `affine.for` and anything
else apart. -/
inductive OperandOwner where
  | constantIndex (value : Int)
  | forOp (loop : AffineForOp)
  | other
  deriving DecidableEq, Repr

/-- The test `AffineForOp::hasConstantBounds()`. -/
def AffineForOp.hasConstantBounds (l : AffineForOp) : Bool :=
  l.getConstantLowerBound.isSome && l.getConstantUpperBound.isSome

/-- The helper `getMaxValue(value)`: the pair `(known, maximum)`; `none` is the
`assert(false)` after "Append new op type here.". The second component is
meaningless when the first is `false`. -/
def getMaxValue : OperandOwner → Option (Bool × Int)
  | .constantIndex c => some (true, c)
  | .forOp l =>
    if l.hasConstantBounds then
      match l.getConstantUpperBound with
      | some ub => some (true, ub - 1)
      | none => none
    else some (false, 0)
  | .other => none

/-- The helper `getMinValue(value)`: the pair `(known, minimum)`; `none` is the
`assert(false)`. -/
def getMinValue : OperandOwner → Option (Bool × Int)
  | .constantIndex c => some (true, c)
  | .forOp l =>
    if l.hasConstantBounds then
      match l.getConstantLowerBound with
      | some lb => some (true, lb)
      | none => none
    else some (false, 0)
  | .other => none

/-- The helper `eval(expr, values)` with the C++ operators: `/` truncates toward
zero and `%` takes the sign of the dividend. `none` when `assert(binaryExpr)`
fails (a symbol), a dimension lies outside `values`, or a divisor is zero. -/
def eval : AffineExpr → List Int → Option Int
  | .dim p, values => values[p]?
  | .const c, _ => some c
  | .symbol _, _ => none
  | .binary k l r, values =>
    match eval l values, eval r values with
    | some lhs, some rhs =>
      match k with
      | .Add => some (lhs + rhs)
      | .CeilDiv => if rhs = 0 then none else some (Int.tdiv (lhs + rhs - 1) rhs)
      | .FloorDiv => if rhs = 0 then none else some (Int.tdiv lhs rhs)
      | .Mod => if rhs = 0 then none else some (Int.tmod lhs rhs)
      | .Mul => some (lhs * rhs)
    | _, _ => none

/-- An `affine.if`: the constraints of its integer set, each an expression with
the flag `isEq` (`expr == 0` when set, `expr >= 0` otherwise), and its operands. -/
structure AffineIfOp where
  constraints : List (AffineExpr × Bool)
  operands : List Value
  deriving DecidableEq, Repr

/-- The operand loop shared by the two passes: the maxima and minima of the
operands in order. `some none` is the early `return` ("can't deduction") at the
first operand without a known bound, `none` an `assert(false)` of
`getMaxValue` / `getMinValue`. -/
def operandRanges (owner : Value → OperandOwner) :
    List Value → List Int → List Int → Option (Option (List Int × List Int))
  | [], maxValues, minValues => some (some (maxValues, minValues))
  | operand :: rest, maxValues, minValues =>
    match getMaxValue (owner operand) with
    | none => none
    | some (false, _) => some none
    | some (true, maxValue) =>
      match getMinValue (owner operand) with
      | none => none
      | some (false, _) => some none
      | some (true, minValue) =>
        operandRanges owner rest (maxValues ++ [maxValue]) (minValues ++ [minValue])

/-- The constraint loop of `TakeOffTrueIf`: `result` stays `true` unless some
equality is non-zero, or some inequality negative, at `maxValues` or at
`minValues` (both are evaluated: the test uses `|`). -/
def takeOffResult : List (AffineExpr × Bool) → List Int → List Int → Option Bool
  | [], _, _ => some true
  | (expr, isEq) :: rest, maxValues, minValues =>
    match eval expr maxValues, eval expr minValues with
    | some atMax, some atMin =>
      if isEq then
        if atMax ≠ 0 ∨ atMin ≠ 0 then some false else takeOffResult rest maxValues minValues
      else
        if atMax < 0 ∨ atMin < 0 then some false else takeOffResult rest maxValues minValues
    | _, _ => none

/-- The constraint loop of `DeleteFalseIf`: `count` is the number of constraints
that fail both at `maxValues` and at `minValues` (the test uses `&&`: the value
at `minValues` is computed only when the constraint fails at `maxValues`). -/
def deleteCount : List (AffineExpr × Bool) → List Int → List Int → Option Nat
  | [], _, _ => some 0
  | (expr, isEq) :: rest, maxValues, minValues =>
    match eval expr maxValues with
    | none => none
    | some atMax =>
      if (if isEq then atMax ≠ 0 else atMax < 0) then
        match eval expr minValues with
        | none => none
        | some atMin =>
          match deleteCount rest maxValues minValues with
          | none => none
          | some count =>
            if (if isEq then atMin ≠ 0 else atMin < 0) then some (count + 1) else some count
      else deleteCount rest maxValues minValues

/-- What a pass does with one conditional: leaves it in place, replaces it by
the operations of its body, or erases it with its body. -/
inductive IfOutcome where
  | kept
  | spliced
  | deleted
  deriving DecidableEq, Repr

/-- The callback of `TakeOffTrueIf::runOnOperation` on one `affine.if`; `owner`
gives the operation behind each operand. `none` when an assertion fails. -/
def takeOffTrueIf (owner : Value → OperandOwner) (ifOp : AffineIfOp) : Option IfOutcome :=
  match operandRanges owner ifOp.operands [] [] with
  | none => none
  | some none => some .kept
  | some (some (maxValues, minValues)) =>
    match takeOffResult ifOp.constraints maxValues minValues with
    | none => none
    | some result => if result then some .spliced else some .kept

/-- The callback of `DeleteFalseIf::runOnOperation` on one `affine.if`: the
conditional is erased when `count == constraintNum`. -/
def deleteFalseIf (owner : Value → OperandOwner) (ifOp : AffineIfOp) : Option IfOutcome :=
  match operandRanges owner ifOp.operands [] [] with
  | none => none
  | some none => some .kept
  | some (some (maxValues, minValues)) =>
    match deleteCount ifOp.constraints maxValues minValues with
    | none => none
    | some count => if count = ifOp.constraints.length then some .deleted else some .kept

/-- The guard of an `affine.if` at run time: every equality is zero and every
inequality non-negative when the operands hold the values `values`. -/
def AffineIfOp.holds (ifOp : AffineIfOp) (values : List Int) : Bool :=
  ifOp.constraints.all fun c =>
    if c.2 then c.1.value values [] == 0 else decide (0 ≤ c.1.value values [])

/-- The static range of an operand: the value of an index constant, the values
from the lower bound to the upper bound minus one for the induction variable of a
loop with constant bounds; no restriction otherwise. -/
def OperandOwner.inRange : OperandOwner → Int → Bool
  | .constantIndex c, x => x == c
  | .forOp l, x =>
    match l.getConstantLowerBound, l.getConstantUpperBound with
    | some lb, some ub => decide (lb ≤ x) && decide (x ≤ ub - 1)
    | _, _ => true
  | .other, _ => true

/-- An assignment of run-time values to the operands within their static ranges. -/
def withinRanges (owner : Value → OperandOwner) : List Value → List Int → Bool
  | [], [] => true
  | operand :: operands, x :: values =>
    (owner operand).inRange x && withinRanges owner operands values
  | _, _ => false

/-- An operand with a statically known range: an index constant or the induction
variable of a loop with constant bounds. -/
def OperandOwner.bounded : OperandOwner → Bool
  | .constantIndex _ => true
  | .forOp l => l.hasConstantBounds
  | .other => false

/-! ## `KernelCodeGenerator::optimize`

The search driver of `src/src/KernelCodeGen.cc`. A module is a value of an
arbitrary type `M`, a latency a value of a linear order `L`; the evaluator is a
function, so evaluating a module twice gives the same latency. -/

/-- A tuning configuration (`std::map<std::string, int>`). -/
abbrev Config := List (String × Int)

/-- A pattern optimizer (`struct Optimizer`): its name and its two virtual
methods. The configuration the driver stored in the static field of the
optimizer type before the call is passed as an argument (`none` when the driver
stored none). `applicable` leaves the module as it is; `applyOptimzer` returns
the transformed module. -/
structure Optimizer (M : Type) where
  name : String
  applicable : Option Config → M → Bool
  applyOptimzer : Option Config → M → M

/-- A call made by the driver, for the record of calls. -/
inductive Event (M : Type) where
  | applicable (name : String) (module : M) (result : Bool)
  | applyOptimzer (name : String) (module : M)
  | evaluate (module : M)
  deriving DecidableEq, Repr

/-- The record is a call of the evaluator. -/
def Event.isEvaluate {M : Type} : Event M → Bool
  | .evaluate _ => true
  | _ => false

/-- The record is a call of `applyOptimzer`. -/
def Event.isApply {M : Type} : Event M → Bool
  | .applyOptimzer _ _ => true
  | _ => false

/-- The record is a call of `applicable` that returned `true`. -/
def Event.isApplicableTrue {M : Type} : Event M → Bool
  | .applicable _ _ result => result
  | _ => false

/-- The members of `KernelCodeGenerator` that `optimize` reads: the optimizers,
the configuration lists, the evaluator, and the value the member `minLatency`
holds on entry (it is initialised outside `optimize`, in code that is not among
the sources). -/
structure KernelCodeGenerator (M L : Type) where
  opts : List (Optimizer M)
  fmhaConfigs : List Config
  matmulConfigs : List Config
  binaryConfigs : List Config
  elementWiseConfigs : List Config
  layerNormConfigs : List Config
  gatherConfigs : List Config
  batchMatmulConfigs : List Config
  evaluate : M → L
  minLatency : L

/-- The state `optimize` works on: the baseline module `graph.module`, which
`optimize` never writes, the local `module` (the working module), the copy kept
by `backupModule`, the members `bestModule` and `minLatency`, and the record of
the calls made so far. -/
structure SearchState (M L : Type) where
  baseline : M
  module : M
  backup : M
  bestModule : M
  minLatency : L
  log : List (Event M)

/-- Modelled from the spec: `saveBestModule` is declared in `KernelCodeGen.h`,
which is not among the sources. The best module is an owning copy of the given
module. -/
def saveBestModule {M L : Type} (s : SearchState M L) (module : M) : SearchState M L :=
  { s with bestModule := module }

/-- Modelled from the spec: `backupModule` is declared in `KernelCodeGen.h`,
which is not among the sources, and the spec names no backup step: its search
state is the baseline, the working module, the best module and the minimum,
none of which the call changes. The call is passed the working module and keeps
a copy of it; nothing in `optimize` reads that copy. -/
def backupModule {M L : Type} (s : SearchState M L) : SearchState M L :=
  { s with backup := s.module }

/-- Modelled from the spec: `resetModule` is declared in `KernelCodeGen.h`, which
is not among the sources. The spec has the step "Resetting (clone baseline into
working module ...)": the working module becomes a clone of the baseline. -/
def resetModule {M L : Type} (s : SearchState M L) : SearchState M L :=
  { s with module := s.baseline }

/-- The chain `if (*opt == FMHAOptimizer()) ... else if (*opt == MatmulOptimizer())
...` of `optimize`: the configuration list swept for an optimizer, chosen by its
name; `none` for the last branch, which sweeps no list. -/
def KernelCodeGenerator.configsOf {M L : Type} (gen : KernelCodeGenerator M L)
    (opt : Optimizer M) : Option (List Config) :=
  if opt.name = "FMHA" then some gen.fmhaConfigs
  else if opt.name = "Matmul" then some gen.matmulConfigs
  else if opt.name = "Binary" then some gen.binaryConfigs
  else if opt.name = "ElementWise" then some gen.elementWiseConfigs
  else if opt.name = "LayerNorm" then some gen.layerNormConfigs
  else if opt.name = "Gather" then some gen.gatherConfigs
  else if opt.name = "BatchMatmul" then some gen.batchMatmulConfigs
  else none

/-- The block every branch of `optimize` ends with:
`if (opt->applicable(module)) { opt->applyOptimzer(module, builder);
auto curLatency = evaluate(module); if (curLatency < minLatency) { minLatency =
curLatency; saveBestModule(module); } }`. -/
def tryOptimizer {M L : Type} [LinearOrder L] (gen : KernelCodeGenerator M L)
    (opt : Optimizer M) (config : Option Config) (s : SearchState M L) : SearchState M L :=
  if opt.applicable config s.module then
    let module := opt.applyOptimzer config s.module
    let curLatency := gen.evaluate module
    let log := s.log ++ [Event.applicable opt.name s.module true,
      Event.applyOptimzer opt.name s.module, Event.evaluate module]
    if curLatency < s.minLatency then
      saveBestModule { s with module := module, minLatency := curLatency, log := log } module
    else { s with module := module, log := log }
  else { s with log := s.log ++ [Event.applicable opt.name s.module false] }

/-- One iteration of a configuration loop: the configuration is stored,
`resetModule(module)` is called, then the common block runs. -/
def attempt {M L : Type} [LinearOrder L] (gen : KernelCodeGenerator M L) (opt : Optimizer M)
    (config : Config) (s : SearchState M L) : SearchState M L :=
  tryOptimizer gen opt (some config) (resetModule s)

/-- A configuration loop `for (auto& config : configs) ...`. -/
def sweep {M L : Type} [LinearOrder L] (gen : KernelCodeGenerator M L) (opt : Optimizer M) :
    List Config → SearchState M L → SearchState M L
  | [], s => s
  | config :: rest, s => sweep gen opt rest (attempt gen opt config s)

/-- The body of `for (auto& opt : opts)`: `backupModule(module)`, then the
configuration loop of the optimizer, or, in the last branch (an optimizer whose
name is none of the seven compared), the common block without `resetModule`. -/
def optimizeStep {M L : Type} [LinearOrder L] (gen : KernelCodeGenerator M L)
    (s : SearchState M L) (opt : Optimizer M) : SearchState M L :=
  match gen.configsOf opt with
  | some configs => sweep gen opt configs (backupModule s)
  | none => tryOptimizer gen opt none (backupModule s)

/-- The state before the loop of `optimize`: `module` is the clone of
`graph.module` and `saveBestModule(module)` has been called; no evaluation has
been made and `minLatency` holds the value it had on entry. -/
def initialState {M L : Type} (gen : KernelCodeGenerator M L) (graphModule : M) :
    SearchState M L :=
  saveBestModule
    { baseline := graphModule, module := graphModule, backup := graphModule,
      bestModule := graphModule, minLatency := gen.minLatency, log := [] } graphModule

/-- The driver `KernelCodeGenerator::optimize(graph_)`: the final state, whose
field `bestModule` is the returned module. -/
def optimize {M L : Type} [LinearOrder L] (gen : KernelCodeGenerator M L) (graphModule : M) :
    SearchState M L :=
  gen.opts.foldl (optimizeStep gen) (initialState gen graphModule)

/-- The working module of a recorded call of `applicable` or `applyOptimzer`: the
module the call ran on. -/
def Event.workingModule {M : Type} : Event M → Option M
  | .applicable _ module _ => some module
  | .applyOptimzer _ module => some module
  | .evaluate _ => none

/-- The calls of one attempt that starts from `module`: the test and, after a
successful test, the transformation and one evaluation. -/
def attemptEvents {M : Type} (opt : Optimizer M) (config : Option Config) (module : M) :
    List (Event M) :=
  if opt.applicable config module then
    [Event.applicable opt.name module true, Event.applyOptimzer opt.name module,
     Event.evaluate (opt.applyOptimzer config module)]
  else [Event.applicable opt.name module false]

/-- A generator over modules that list the transformations applied to them, with
one Matmul optimizer of one configuration; the baseline `[]` has latency 5 and
every transformation takes 2 off. The value of `minLatency` on entry and the
answer of `applicable` are the given ones. -/
def singleGenerator (minLatency : Int) (applicable : Bool) :
    KernelCodeGenerator (List String) Int :=
  { opts := [{ name := "Matmul", applicable := fun _ _ => applicable,
               applyOptimzer := fun _ m => m ++ ["matmul"] }],
    fmhaConfigs := [], matmulConfigs := [[("BLOCK_SIZE_M", 128)]],
    binaryConfigs := [], elementWiseConfigs := [], layerNormConfigs := [],
    gatherConfigs := [], batchMatmulConfigs := [],
    evaluate := fun m => 5 - 2 * (m.length : Int), minLatency := minLatency }

/-- A generator over modules that list the transformations applied to them, with
two always-applicable optimizers, one configuration each; a module with more
transformations is faster. The second optimizer is the given one. -/
def chainedGenerator (second : String) : KernelCodeGenerator (List String) Int :=
  { opts := [{ name := "Matmul", applicable := fun _ _ => true,
               applyOptimzer := fun _ m => m ++ ["matmul"] },
             { name := second, applicable := fun _ _ => true,
               applyOptimzer := fun _ m => m ++ ["second"] }],
    fmhaConfigs := [], matmulConfigs := [[("BLOCK_SIZE_M", 128)]],
    binaryConfigs := [[]], elementWiseConfigs := [], layerNormConfigs := [],
    gatherConfigs := [], batchMatmulConfigs := [],
    evaluate := fun m => 10 - (m.length : Int), minLatency := 10 }

/-! ## `Rewriter::cache_read` and `Rewriter::cache_write`

The operations nested in `scope`, in the order of the pre-order walk. Both
primitives put the new operation where the old one was, and the walk does not
visit an operation created in front of the one it is at. -/

/-- An operation of the scope and the value it defines (read for an operation
that defines one). For an operation that is not a memory operation,
`mapOperands` holds all its operands. -/
structure ScopeOp where
  op : Operation
  result : Value
  deriving DecidableEq, Repr

/-- The operation has a memref operand. -/
def OpKind.hasMemref : OpKind → Bool
  | .AffineLoadOp | .AffineStoreOp | .AffineVectorLoadOp | .AffineVectorStoreOp => true
  | _ => false

/-- The operation has a stored-value operand. -/
def OpKind.hasStoredValue : OpKind → Bool
  | .AffineStoreOp | .AffineVectorStoreOp => true
  | _ => false

/-- The operands of an operation: the uses it makes of values. -/
def ScopeOp.uses (o : ScopeOp) : List Value :=
  (if o.op.kind.hasStoredValue then [o.op.storedValue] else []) ++
    (if o.op.kind.hasMemref then [o.op.memref] else []) ++ o.op.mapOperands

/-- Every operand of the operation goes through `f`; kind, map and result stay. -/
def ScopeOp.mapUses (f : Value → Value) (o : ScopeOp) : ScopeOp :=
  { op :=
      { kind := o.op.kind,
        memref := if o.op.kind.hasMemref then f o.op.memref else o.op.memref,
        storedValue := if o.op.kind.hasStoredValue then f o.op.storedValue else o.op.storedValue,
        map := o.op.map,
        mapOperands := o.op.mapOperands.map f },
    result := o.result }

/-- The call `old.replaceAllUsesWith(new)` over the operations of the function:
every operand equal to `old` becomes `new`. -/
def replaceAllUsesWith (old new : Value) (ops : List ScopeOp) : List ScopeOp :=
  ops.map (ScopeOp.mapUses fun v => if v = old then new else v)

/-- The test of the callback of `cache_read`: the operation is an `AffineLoadOp`
(the walk only calls back on those) and `load.getMemref() != src` is false. -/
def isLoadOf (src : Value) (o : ScopeOp) : Bool :=
  o.op.kind = .AffineLoadOp && o.op.memref = src

/-- The operation `builder.create<AffineLoadOp>(loc, cached, map, operands)`; its
result is the new value `fresh`. -/
def createLoad (cached : Value) (map : AffineMap) (operands : List Value) (fresh : Value) :
    ScopeOp :=
  { op := { kind := .AffineLoadOp, memref := cached, storedValue := 0, map := map,
            mapOperands := operands },
    result := fresh }

/-- The walk of `cache_read`. `visited` are the operations in front of the walk,
`pending` those still to visit, and the counter is the number of pending
operations. At a load of `src` the new load is created in its place, every use of
the old result is replaced in the whole function, and the old load is erased;
the next new value is `fresh + 1`. -/
def cacheReadWalk (src cached : Value) (map : AffineMap) (operands : List Value) :
    Nat → List ScopeOp → List ScopeOp → Value → List ScopeOp
  | 0, visited, pending, _ => visited ++ pending
  | _ + 1, visited, [], _ => visited
  | n + 1, visited, load :: pending, fresh =>
    if isLoadOf src load then
      let newLoad := createLoad cached map operands fresh
      cacheReadWalk src cached map operands n
        (replaceAllUsesWith load.result fresh (visited ++ [newLoad]))
        (replaceAllUsesWith load.result fresh pending) (fresh + 1)
    else cacheReadWalk src cached map operands n (visited ++ [load]) pending fresh

/-- The primitive `Rewriter::cache_read(scope, src, cached, map, operands)`;
`fresh` is the first value not yet in use. -/
def cache_read (scope : List ScopeOp) (src cached : Value) (map : AffineMap)
    (operands : List Value) (fresh : Value) : List ScopeOp :=
  cacheReadWalk src cached map operands scope.length [] scope fresh

/-- The test of the callback of `cache_write`: the operation is an
`AffineStoreOp` and `store.getMemref() != src` is false. -/
def isStoreTo (src : Value) (o : ScopeOp) : Bool :=
  o.op.kind = .AffineStoreOp && o.op.memref = src

/-- The operation `builder.create<AffineStoreOp>(loc, store.getValue(), cached,
map, operands)` that takes the place of `store`. -/
def createStore (store : ScopeOp) (cached : Value) (map : AffineMap) (operands : List Value) :
    ScopeOp :=
  { op := { kind := .AffineStoreOp, memref := cached, storedValue := store.op.storedValue,
            map := map, mapOperands := operands },
    result := store.result }

/-- The walk of `cache_write`: at a store to `src` the new store is created in
its place and the old one is erased. -/
def cacheWriteWalk (src cached : Value) (map : AffineMap) (operands : List Value) :
    List ScopeOp → List ScopeOp → List ScopeOp
  | visited, [] => visited
  | visited, store :: pending =>
    if isStoreTo src store then
      cacheWriteWalk src cached map operands
        (visited ++ [createStore store cached map operands]) pending
    else cacheWriteWalk src cached map operands (visited ++ [store]) pending

/-- The primitive `Rewriter::cache_write(scope, src, cached, map, operands)`. -/
def cache_write (scope : List ScopeOp) (src cached : Value) (map : AffineMap)
    (operands : List Value) : List ScopeOp :=
  cacheWriteWalk src cached map operands [] scope

/-- The new value that takes the place of `v` after `cache_read`: the result of
the new load when `v` is the result of a load of `src` in the scope (new values
are handed out from `fresh` in walk order), and `v` itself otherwise. -/
def redirected (src : Value) : List ScopeOp → Value → Value → Value
  | [], _, v => v
  | o :: rest, fresh, v =>
    if isLoadOf src o then
      if v = o.result then fresh else redirected src rest (fresh + 1) v
    else redirected src rest fresh v

/-- The scope the claim on `cache_read` describes, given the redirection `σ` of
values: a load of `src` gives way to a load of `cached` with the supplied map
and operands and the next new result; any other operation keeps its kind, map
and result, and its operands go through `σ`. -/
def cachedReads (σ : Value → Value) (src cached : Value) (map : AffineMap)
    (operands : List Value) : List ScopeOp → Value → List ScopeOp
  | [], _ => []
  | o :: rest, fresh =>
    if isLoadOf src o then
      createLoad cached map operands fresh
        :: cachedReads σ src cached map operands rest (fresh + 1)
    else o.mapUses σ :: cachedReads σ src cached map operands rest fresh

/-- The values `src`, `cached` and `operands` are not defined by a load of `src`
inside the scope, and `fresh` lies above `src` and above the results of those
loads: the new results are new values. -/
def cacheReadReady (scope : List ScopeOp) (src cached : Value) (operands : List Value)
    (fresh : Value) : Prop :=
  src < fresh ∧
    ∀ o ∈ scope, isLoadOf src o = true →
      o.result < fresh ∧ o.result ≠ src ∧ o.result ≠ cached ∧ o.result ∉ operands

/-! ## Row-major index tuples

The vocabulary of the claim on the replacement expressions of `combineToOneDim`. -/

/-- The row-major linearisation of the index tuple `xs` in the box whose extents
are `ups`: the last index runs fastest. -/
def rowMajor : List Int → List Int → Int
  | _ :: us, x :: xs => x * us.prod + rowMajor us xs
  | _, _ => 0

/-- The tuple `xs` lies in the box `[0, u_0) x ... x [0, u_{k-1})`. -/
def inBox : List Int → List Int → Prop
  | [], [] => True
  | u :: us, x :: xs => 0 ≤ x ∧ x < u ∧ inBox us xs
  | _, _ => False

/-- The mixed-radix digits of `d` for the extents `ups`: digit `i` is
`(d mod (u_i * ... * u_{k-1})) div (u_{i+1} * ... * u_{k-1})`. -/
def mixedRadix : List Int → Int → List Int
  | [], _ => []
  | u :: us, d => (d % (u * us.prod)) / us.prod :: mixedRadix us d

/-! ## `Rewriter::combineToTowDim` -/

/-- An `affine.parallel` operation: for each induction variable its lower bound
map, upper bound map and step; the induction variables; the operations of the
body (without the terminator). The loops of the model carry no bound operands. -/
structure AffineParallelOp where
  lowerBoundsMaps : List AffineMap
  upperBoundsMaps : List AffineMap
  steps : List Int
  ivs : List Value
  body : List ScopeOp
  deriving DecidableEq, Repr

/-- The test `AffineParallelOp::hasMinMaxBounds()`: some bound has several
results (or none). -/
def AffineParallelOp.hasMinMaxBounds (op : AffineParallelOp) : Bool :=
  (op.lowerBoundsMaps ++ op.upperBoundsMaps).any fun m => m.results.length ≠ 1

/-- The test `isAlreadyNormalized` of `normalizeAffineParallel`: every step is 1
and every lower bound is the constant 0. -/
def AffineParallelOp.isAlreadyNormalized (op : AffineParallelOp) : Bool :=
  op.steps.all (fun s => s = 1) &&
    op.lowerBoundsMaps.all fun m => m.results.all fun e => e = .const 0

/-- The `affine.apply` that `normalizeAffineParallel` creates for one induction
variable: `lb + iv * step`, the induction variable being the dimension after
those of the lower bound map. -/
def createIvApply (lbMap : AffineMap) (step : Int) (iv fresh : Value) : ScopeOp :=
  { op :=
      { kind := .AffineApplyOp, memref := 0, storedValue := 0,
        map :=
          { numDims := lbMap.numDims + 1, numSymbols := lbMap.numSymbols,
            results := [.binary .Add (lbMap.results.headD (.const 0))
              (.binary .Mul (.dim lbMap.numDims) (.const step))] },
        mapOperands := [iv] },
    result := fresh }

/-- The loop over the induction variables of `normalizeAffineParallel`: the
`affine.apply` of the variable is created at the start of the body, after those
created before, and `iv.replaceAllUsesExcept(apply, apply)` redirects every
other use of the variable to it. `applies` are the operations created so far,
`body` the operations that were in the body on entry. -/
def normalizeIvs : List (AffineMap × Int × Value) → List ScopeOp → List ScopeOp → Value →
    List ScopeOp × List ScopeOp
  | [], applies, body, _ => (applies, body)
  | (lbMap, step, iv) :: rest, applies, body, fresh =>
    normalizeIvs rest
      (replaceAllUsesWith iv fresh applies ++ [createIvApply lbMap step iv fresh])
      (replaceAllUsesWith iv fresh body) (fresh + 1)

/-- The new upper bound of `normalizeAffineParallel`, `(ub - lb) ceildiv step`. -/
def normalizedUpperBound (lbMap ubMap : AffineMap) (step : Int) : AffineMap :=
  { numDims := ubMap.numDims, numSymbols := ubMap.numSymbols,
    results := [.binary .CeilDiv
      (.binary .Add (ubMap.results.headD (.const 0))
        (.binary .Mul (lbMap.results.headD (.const 0)) (.const (-1))))
      (.const step)] }

/-- The library routine `mlir::affine::normalizeAffineParallel(op)`, called by
`parallel` to "make the lowerbound to 0 and step to 1". Nothing happens when a
bound has several results or when the operation is already normalized.
Otherwise every lower bound becomes 0, every upper bound
`(ub - lb) ceildiv step`, every step 1, and the induction variables are
replaced by their `affine.apply`, see `normalizeIvs`. `fresh` is the first new
value. -/
def normalizeAffineParallel (op : AffineParallelOp) (fresh : Value) : AffineParallelOp :=
  if op.hasMinMaxBounds then op
  else if op.isAlreadyNormalized then op
  else
    let r := normalizeIvs (op.lowerBoundsMaps.zip (op.steps.zip op.ivs)) [] op.body fresh
    { lowerBoundsMaps := op.lowerBoundsMaps.map fun _ => AffineMap.constant 0,
      upperBoundsMaps :=
        List.zipWith (fun (b : AffineMap × AffineMap) (s : Int) => normalizedUpperBound b.1 b.2 s)
          (op.lowerBoundsMaps.zip op.upperBoundsMaps) op.steps,
      steps := op.steps.map fun _ => 1,
      ivs := op.ivs,
      body := r.1 ++ r.2 }

/-- The loop `for (auto iter = forOps.rbegin(); ...)` of `parallel`: from the
innermost loop outwards, every use of the loop's induction variable becomes the
parallel induction variable of the same position. -/
def replaceLoopIvs : List (Value × Value) → List ScopeOp → List ScopeOp
  | [], body => body
  | (oldIv, newIv) :: rest, body => replaceAllUsesWith oldIv newIv (replaceLoopIvs rest body)

/-- The primitive `Rewriter::parallel(forOps)` on perfectly nested loops,
outermost first; `body` holds the operations of the innermost loop without the
terminator, and the induction variables of the new operation are
`fresh, fresh + 1, ...`. `assert(forOps.size() <= 3)` fails on more than three
loops, and `forOps[0]` does not exist for an empty list. -/
def parallel (forOps : List AffineForOp) (body : List ScopeOp) (fresh : Value) :
    Option AffineParallelOp :=
  if forOps.length ≤ 3 then
    match forOps with
    | [] => none
    | _ :: _ =>
      let newIvs := (List.range forOps.length).map fun k => fresh + k
      some (normalizeAffineParallel
        { lowerBoundsMaps := forOps.map AffineForOp.lowerBoundMap,
          upperBoundsMaps := forOps.map AffineForOp.upperBoundMap,
          steps := forOps.map AffineForOp.step,
          ivs := newIvs,
          body := replaceLoopIvs ((forOps.map AffineForOp.inductionVar).zip newIvs) body }
        (fresh + forOps.length))
  else none

/-- The value that takes the place of `v` under the pairs `(old, new)`: the new
value of the first pair whose old value is `v`, and `v` itself without one. -/
def substituteValues : List (Value × Value) → Value → Value
  | [], v => v
  | (old, new) :: rest, v => if v = old then new else substituteValues rest v

/-- The pairs (induction variable of the loop, parallel induction variable) of
`parallel`, the parallel induction variables counted from `iv`. -/
def parallelIvPairs : List AffineForOp → Value → List (Value × Value)
  | [], _ => []
  | l :: rest, iv => (l.inductionVar, iv) :: parallelIvPairs rest (iv + 1)

/-- The `affine.apply` operations of the normalization, one per loop: for the
loop at position `k` the apply of `lb_k + d * step_k` to the parallel induction
variable `iv + k`, with the result `r + k`. -/
def parallelApplies : List AffineForOp → Value → Value → List ScopeOp
  | [], _, _ => []
  | l :: rest, iv, r =>
    createIvApply l.lowerBoundMap l.step iv r :: parallelApplies rest (iv + 1) (r + 1)

/-- The pairs (parallel induction variable, result of its `affine.apply`). -/
def parallelApplyPairs : List AffineForOp → Value → Value → List (Value × Value)
  | [], _, _ => []
  | _ :: rest, iv, r => (iv, r) :: parallelApplyPairs rest (iv + 1) (r + 1)

/-! ## `Rewriter::unroll`

The pass `UnrollAffineFor` on one loop the predicate selects. -/

/-- An operation of the block that holds the root loop, as `findConstValue`
tells them apart: an `arith.constant` of index type with its result and value,
or any other operation. -/
inductive RootOp where
  | constantIndex (result : Value) (value : Int)
  | other
  deriving DecidableEq, Repr

/-- The lambda `findConstValue(value)`: from the front of the block, while the
operation is an index constant, the result of the first one with the given
value; `nullptr` at the first operation that is not an index constant. -/
def findConstValue : List RootOp → Int → Option Value
  | .constantIndex result v :: rest, value =>
    if value = v then some result else findConstValue rest value
  | _, _ => none

/-- The state of the loop of `unroll`: the block of the root loop, the bodies
put in front of the loop so far (one per iteration), and the next new value. -/
structure UnrollState where
  block : List RootOp
  copies : List (List ScopeOp)
  fresh : Value
  deriving DecidableEq, Repr

/-- One iteration of the loop of `unroll` for the induction value `index`: the
constant found by `findConstValue`, or else a new constant moved to the front of
the block; then the clone of the loop, in which the walk replaces the induction
variable by the constant and whose body is spliced in front of the loop. The
clone keeps the operations of the body; the model does not rename the values the
clone defines. -/
def unrollIteration (iv : Value) (body : List ScopeOp) (s : UnrollState) (index : Int) :
    UnrollState :=
  match findConstValue s.block index with
  | some iterVarReplace =>
    { s with copies := s.copies ++ [replaceAllUsesWith iv iterVarReplace body] }
  | none =>
    { block := .constantIndex s.fresh index :: s.block,
      copies := s.copies ++ [replaceAllUsesWith iv s.fresh body],
      fresh := s.fresh + 1 }

/-- The loop `for (index = lb; index < ub; index += step)` of `unroll`, from
`index` on, for at most `fuel` iterations. -/
def unrollFrom (iv : Value) (body : List ScopeOp) (ub step : Int) :
    Nat → Int → UnrollState → UnrollState
  | 0, _, s => s
  | fuel + 1, index, s =>
    if index < ub then
      unrollFrom iv body ub step fuel (index + step) (unrollIteration iv body s index)
    else s

/-- The callback of `UnrollAffineFor` on a selected loop `forOp` whose body
holds `body` (without the terminator): the final block of the root loop and the
operations that stand where the loop was, the loop itself being erased.
`getConstantLowerBound` and `getConstantUpperBound` assert constant bounds. The
number of iterations is at most `ub - lb`, the step of a loop being positive. -/
def unroll (block : List RootOp) (forOp : AffineForOp) (body : List ScopeOp) (fresh : Value) :
    Option UnrollState :=
  match forOp.getConstantLowerBound, forOp.getConstantUpperBound with
  | some lb, some ub =>
    some (unrollFrom forOp.inductionVar body ub forOp.step (ub - lb).toNat lb
      { block := block, copies := [], fresh := fresh })
  | _, _ => none

/-! ## `Rewriter::bufferizeLoopCarryVar` -/

/-- A loop of the chain handed to `bufferizeLoopCarryVar`: the handle of the
operation, its bounds, step and induction variable, its loop-carried values
(`getRegionIterArgs()`), their initial values (the last operands of the
operation), the operands of its `affine.yield` and its results. -/
structure ChainLoop where
  handle : LoopId
  forOp : AffineForOp
  regionIterArgs : List Value
  inits : List Value
  yielded : List Value
  results : List Value
  deriving DecidableEq, Repr

/-- The loop carries a value: `args.size() != 0`. -/
def ChainLoop.carries (l : ChainLoop) : Bool :=
  l.regionIterArgs.length ≠ 0

/-- The lambda `contain(A, B)`: `A` is not `B` and the walk of `A` meets `B`;
`nested a b` tells whether the operation `b` lies inside the operation `a`. -/
def contain (nested : LoopId → LoopId → Bool) (A B : ChainLoop) : Bool :=
  if A.handle = B.handle then false else nested A.handle B.handle

/-- The locals of the first loop of `bufferizeLoopCarryVar`. -/
structure CarryScan where
  hasLoopCarryVar : Bool
  carryVarLoop : Option ChainLoop
  bufferShape : List Int
  bufferAdrressOperand : List Value
  replaceIdx : Int
  deriving DecidableEq, Repr

/-- The loop `for (auto loop : loops)` of `bufferizeLoopCarryVar`. The first loop
with carried values becomes `carryVarLoop`; a second one hits `assert(false)`
("Can't reorder more than one loops carrying args"). After `carryVarLoop`, a
loop that contains it adds `(ub - lb) / step` to the buffer shape and its
induction variable to the address operands; its bounds must be constant. -/
def scanCarry (nested : LoopId → LoopId → Bool) : List ChainLoop → CarryScan → Option CarryScan
  | [], s => some s
  | loop :: rest, s =>
    let replaceIdx := if s.hasLoopCarryVar then s.replaceIdx else s.replaceIdx + 1
    if loop.carries then
      if s.hasLoopCarryVar then none
      else
        scanCarry nested rest
          { s with hasLoopCarryVar := true, carryVarLoop := some loop, replaceIdx := replaceIdx }
    else
      match s.carryVarLoop with
      | some carryVarLoop =>
        if s.hasLoopCarryVar && contain nested loop carryVarLoop then
          match loop.forOp.getConstantUpperBound, loop.forOp.getConstantLowerBound with
          | some ub, some lb =>
            if loop.forOp.step = 0 then none
            else
              scanCarry nested rest
                { s with
                  bufferShape := s.bufferShape ++ [Int.tdiv (ub - lb) loop.forOp.step],
                  bufferAdrressOperand := s.bufferAdrressOperand ++ [loop.forOp.inductionVar],
                  replaceIdx := replaceIdx }
          | _, _ => none
        else scanCarry nested rest { s with replaceIdx := replaceIdx }
      | none => scanCarry nested rest { s with replaceIdx := replaceIdx }

/-- The identity map of a load or store built from its index operands. -/
def identityMap (n : Nat) : AffineMap :=
  { numDims := n, numSymbols := 0, results := (List.range n).map AffineExpr.dim }

/-- What `bufferizeLoopCarryVar` leaves behind: the returned value (`none` for
`nullptr`), the vector `loops` (passed by reference), the shape and the address
operands of the buffer, the stores and loads created, in the order of their
creation, and the handles of the operations erased. -/
structure BufferizeResult where
  value : Option Value
  loops : List ChainLoop
  bufferShape : List Int
  bufferAdrressOperand : List Value
  created : List ScopeOp
  erased : List LoopId
  deriving DecidableEq, Repr

/-- The primitive `Rewriter::bufferizeLoopCarryVar(loops)`. `hasDefiningOp` tells
whether a value is the result of an operation (the initial store is put after
it). The new values are, from `fresh` on: the buffer, the induction variable
(and handle) of the new loop, the load at the start of its body and the load
after it. The body of the old loop moves into the new one; it is not part of
this model. -/
def bufferizeLoopCarryVar (nested : LoopId → LoopId → Bool) (hasDefiningOp : Value → Bool)
    (loops : List ChainLoop) (fresh : Value) : Option BufferizeResult :=
  match scanCarry nested loops
      { hasLoopCarryVar := false, carryVarLoop := none, bufferShape := [],
        bufferAdrressOperand := [], replaceIdx := -1 } with
  | none => none
  | some scan =>
    if ¬ scan.hasLoopCarryVar then
      some { value := none, loops := loops, bufferShape := [], bufferAdrressOperand := [],
             created := [], erased := [] }
    else
      match scan.carryVarLoop with
      | none => none
      | some carryVarLoop =>
        match carryVarLoop.regionIterArgs.head?, carryVarLoop.inits.getLast?,
          carryVarLoop.yielded.head?, carryVarLoop.results.head?,
          carryVarLoop.forOp.getConstantUpperBound, carryVarLoop.forOp.getConstantLowerBound with
        | some carryVar, some initValue, some yieldOperand, some _, some ub, some lb =>
          if ¬ hasDefiningOp initValue then none
          else
            let buffer := fresh
            let newIv := fresh + 1
            let replaceValue := fresh + 2
            let rank := scan.bufferAdrressOperand.length
            let newLoop : ChainLoop :=
              { handle := newIv,
                forOp := AffineForOp.ofConstants lb ub carryVarLoop.forOp.step newIv,
                regionIterArgs := [], inits := [], yielded := [], results := [] }
            let yieldResult :=
              if yieldOperand = carryVar then replaceValue
              else if yieldOperand = carryVarLoop.forOp.inductionVar then newIv
              else yieldOperand
            some
              { value := some buffer,
                loops := loops.set scan.replaceIdx.toNat newLoop,
                bufferShape := scan.bufferShape,
                bufferAdrressOperand := scan.bufferAdrressOperand,
                created :=
                  [⟨⟨.AffineStoreOp, buffer, initValue, identityMap rank,
                      scan.bufferAdrressOperand⟩, 0⟩,
                   ⟨⟨.AffineLoadOp, buffer, 0, identityMap rank,
                      scan.bufferAdrressOperand⟩, replaceValue⟩,
                   ⟨⟨.AffineStoreOp, buffer, yieldResult, identityMap rank,
                      scan.bufferAdrressOperand⟩, 0⟩,
                   ⟨⟨.AffineLoadOp, buffer, 0, identityMap rank,
                      scan.bufferAdrressOperand⟩, fresh + 3⟩],
                erased := [carryVarLoop.handle] }
        | _, _, _, _, _, _ => none

/-! ## `Rewriter::unroll`: the selected loop in its block -/

/-- What the callback of `UnrollAffineFor` leaves behind: the block of the root
loop, the operations of the block that held the selected loop, in order, the
handles of the operations erased, and the next new value. -/
structure UnrollResult where
  block : List RootOp
  parent : List ScopeOp
  erased : List LoopId
  fresh : Value
  deriving DecidableEq, Repr

/-- The callback of `UnrollAffineFor` on a selected loop standing between the
operations `before` and `after` of its block: the copies of the body are put in
front of the loop, one after the other, and `forOp.erase()` removes the loop.
A clone is erased after its body has been spliced out: when an operation of the
body uses a loop-carried value (a region iter arg), the clone's value is
destroyed while the copy still uses it, and when an operation after the loop
uses a result of the loop, the loop is destroyed while still in use; either
fails an assertion of the IR library. -/
def unrollLoop (block : List RootOp) (loop : ChainLoop) (body before after : List ScopeOp)
    (fresh : Value) : Option UnrollResult :=
  match unroll block loop.forOp body fresh with
  | none => none
  | some s =>
    if s.copies ≠ [] ∧
        (body.any fun o => o.uses.any fun v => loop.regionIterArgs.contains v) = true then
      none
    else if (after.any fun o => o.uses.any fun v => loop.results.contains v) = true then none
    else
      some { block := s.block, parent := before ++ s.copies.flatten ++ after,
             erased := [loop.handle], fresh := s.fresh }

/-! ## `Rewriter::extract_loop` -/

/-- An operation with its operands and its regions, a region being the list of
the operations of its block. `name` tells the operations apart. -/
inductive RegionOp where
  | mk (name : Nat) (operands : List Value) (regions : List (List RegionOp))
  deriving Repr

mutual
/-- The helper `replaceOperands(op, src, dst)`: every operand of `op` equal to
`src` becomes `dst`, and, when `op` has regions, the same is done to every
operation of `op->getRegions().front()`, the first region. -/
def replaceOperands (src dst : Value) : RegionOp → RegionOp
  | .mk name operands regions =>
    .mk name (operands.map fun operand => if operand = src then dst else operand)
      (match regions with
       | [] => []
       | front :: others => replaceOperandsInBlock src dst front :: others)
/-- The loop `for (auto& op : ops) replaceOperands(&op, src, dst)` over a block. -/
def replaceOperandsInBlock (src dst : Value) : List RegionOp → List RegionOp
  | [] => []
  | op :: rest => replaceOperands src dst op :: replaceOperandsInBlock src dst rest
end

mutual
/-- The operands of an operation and of all the operations nested in it. -/
def RegionOp.allOperands : RegionOp → List Value
  | .mk _ operands regions => operands ++ allOperandsOfRegions regions
/-- The operands of the operations nested in a list of regions. -/
def allOperandsOfRegions : List (List RegionOp) → List Value
  | [] => []
  | block :: rest => allOperandsOfBlock block ++ allOperandsOfRegions rest
/-- The operands of the operations of a block and of those nested in them. -/
def allOperandsOfBlock : List RegionOp → List Value
  | [] => []
  | op :: rest => op.allOperands ++ allOperandsOfBlock rest
end

/-- The outcome of `extract_loop`: the block of the root loop, to whose front
the new constant was moved, and the operation inserted in front of the loop. -/
structure ExtractResult where
  block : List RootOp
  inserted : RegionOp

/-- The primitive `Rewriter::extract_loop(srcOp, forOp, iteration)`: the clone
of `srcOp` is inserted before `forOp`, the index constant
`lb + iteration * step` is created (its result is `fresh`) and moved to the
front of the block of the root loop, and `replaceOperands` replaces the
induction variable of `forOp` by the constant in the clone. The clone keeps the
operations of `srcOp`; the model does not rename the values the clone defines.
`getConstantUpperBound` and `getConstantLowerBound` assert constant bounds. -/
def extract_loop (block : List RootOp) (srcOp : RegionOp) (forOp : AffineForOp)
    (iteration : Int) (fresh : Value) : Option ExtractResult :=
  match forOp.getConstantUpperBound, forOp.getConstantLowerBound with
  | some _, some lb =>
    let index := lb + iteration * forOp.step
    some { block := .constantIndex fresh index :: block,
           inserted := replaceOperands forOp.inductionVar fresh srcOp }
  | _, _ => none

mutual
/-- The operation and every operation nested in it have at most one region. -/
def RegionOp.singleRegion : RegionOp → Bool
  | .mk _ _ regions => decide (regions.length ≤ 1) && singleRegionRegions regions
/-- Every operation nested in the regions has at most one region. -/
def singleRegionRegions : List (List RegionOp) → Bool
  | [] => true
  | block :: rest => singleRegionBlock block && singleRegionRegions rest
/-- Every operation of the block has, with those nested in it, at most one
region. -/
def singleRegionBlock : List RegionOp → Bool
  | [] => true
  | op :: rest => op.singleRegion && singleRegionBlock rest
end

/-! ## The pairwise interchange `swap` of `reorder` -/

/-- An operation of a loop body: a statement, the terminator `affine.yield`, or
a loop with its handle and the operations of its body. -/
inductive BodyOp where
  | stmt (name : Nat)
  | yield
  | forOp (handle : LoopId) (body : List BodyOp)
  deriving Repr

/-- The operation is the loop with the given handle (`&op == innerOp`). -/
def BodyOp.isLoop (handle : LoopId) : BodyOp → Bool
  | .forOp h _ => h = handle
  | _ => false

/-- The idiom `(iter--)->erase()`, `count` times: the operation at `iter` is
erased and `iter` steps back to the operation in front of it. Erasing at an
iterator outside the list is undefined. -/
def eraseBackward : Nat → Int → List BodyOp → Option (List BodyOp)
  | 0, _, ops => some ops
  | count + 1, iter, ops =>
    if 0 ≤ iter ∧ iter < ops.length then
      eraseBackward count (iter - 1) (ops.eraseIdx iter.toNat)
    else none

/-- The loop "clear current outer loop" of `swap`, from `i` on for `count`
rounds: `iter` steps back from the last operation; the operation is kept when
`i == number - 1 - position || i == 0` and erased otherwise. -/
def clearOuter (number position : Int) : Nat → Int → Int → List BodyOp → Option (List BodyOp)
  | 0, _, _, ops => some ops
  | count + 1, i, iter, ops =>
    if i = number - 1 - position ∨ i = 0 then
      clearOuter number position count (i + 1) (iter - 1) ops
    else if 0 ≤ iter ∧ iter < ops.length then
      clearOuter number position count (i + 1) (iter - 1) (ops.eraseIdx iter.toNat)
    else none

/-- The function `swap(outer, inner)`: `ops` are the operations of the body of
`outer`, `inner` is the handle of the loop to exchange with. The result lists
the operations that stand where `outer` stood: the clone of `outer` put before
it when operations precede `inner`, cut back to those operations; the loop
`inner`, whose body now holds `outer`, whose body in turn holds the former body
of `inner`; and the clone put after `outer` when operations follow `inner`.
The clones get the handles `fresh` and `fresh + 1`; a clone keeps the operations
of the body. `assert(position < opNumber)` fails when `inner` is not in the
body. -/
def swap (outer : LoopId) (ops : List BodyOp) (inner : LoopId) (fresh : LoopId) :
    Option (List BodyOp) :=
  let opNumber := ops.length
  let position := ops.findIdx (BodyOp.isLoop inner)
  if position < opNumber then
    let existOpBeforeLoop : Bool := position ≠ 0
    let existOpAfterLoop : Bool := (position : Int) ≠ (opNumber : Int) - 2
    let before : Option (List BodyOp) :=
      if existOpBeforeLoop then
        (eraseBackward (opNumber - position - 1) ((opNumber : Int) - 2) ops).map
          fun ops_ => [BodyOp.forOp fresh ops_]
      else some []
    let after : Option (List BodyOp) :=
      if existOpAfterLoop then
        (eraseBackward (position + 1) position ops).map
          fun ops_ => [BodyOp.forOp (fresh + 1) ops_]
      else some []
    let cleared : Option (List BodyOp) :=
      if existOpBeforeLoop || existOpAfterLoop then
        clearOuter opNumber position opNumber 0 ((opNumber : Int) - 1) ops
      else some ops
    match before, after, cleared with
    | some before, some after, some cleared =>
      match cleared.findIdx (BodyOp.isLoop inner), cleared.find? (BodyOp.isLoop inner) with
      | at_, some (.forOp _ innerBody) =>
        if innerBody.isEmpty then none
        else
          let outerOps := cleared.take at_ ++ innerBody.dropLast ++ cleared.drop (at_ + 1)
          some (before ++ [.forOp inner [.forOp outer outerOps, .yield]] ++ after)
      | _, _ => none
    | _, _, _ => none
  else none

/-- The clone of `outer` that keeps the statements `stmts`, when there are any. -/
def cloneWith (handle : LoopId) (stmts : List BodyOp) : List BodyOp :=
  if stmts.isEmpty then [] else [.forOp handle (stmts ++ [.yield])]

/-! ## Loop nests with constant bounds -/

/-- The tuples of induction values (outermost loop first) at which the body of
the innermost loop of a nest executes, in execution order. A loop without
constant bounds is not run here: it gives no tuple. -/
def nestIterations : List AffineForOp → List (List Int)
  | [] => [[]]
  | l :: rest =>
    match l.getConstantLowerBound, l.getConstantUpperBound with
    | some lb, some ub =>
      (iterationValues lb ub l.step).flatMap fun v => (nestIterations rest).map fun t => v :: t
    | _, _ => []

/-! ## `Rewriter::detach_last_loop` -/

/-- What `detach_last_loop` leaves behind: the loop with its new upper bound,
the constant `replaceInducetionVar` (result value and constant) moved to the
front of the block of the root loop, and the copy of the body put right after
the loop. -/
structure DetachResult where
  forOp : AffineForOp
  replaceInducetionVar : Value × Int
  peeled : List ScopeOp
  deriving DecidableEq, Repr

/-- The primitive `Rewriter::detach_last_loop(forOp)`; `body` holds the
operations nested in the loop (without the terminator) and `fresh` is the result
of the new constant. The upper bound must be constant
(`getConstantUpperBound`). In the copy every operand equal to the induction
variable becomes the constant; the copy keeps the result values of the
operations it copies. -/
def detach_last_loop (forOp : AffineForOp) (body : List ScopeOp) (fresh : Value) :
    Option DetachResult :=
  match forOp.getConstantUpperBound with
  | none => none
  | some ub =>
    let step := forOp.step
    some
      { forOp := { forOp with upperBoundMap := AffineMap.constant (ub - step) },
        replaceInducetionVar := (fresh, ub - step),
        peeled := body.map
          (ScopeOp.mapUses fun operand => if operand = forOp.inductionVar then fresh else operand) }

/-- The induction values at which the body runs after `detach_last_loop`: the
iterations of the shortened loop, then the constant of the copy. -/
def DetachResult.bodyValues (r : DetachResult) : List Int :=
  match r.forOp.getConstantLowerBound, r.forOp.getConstantUpperBound with
  | some lb, some ub => iterationValues lb ub r.forOp.step ++ [r.replaceInducetionVar.2]
  | _, _ => [r.replaceInducetionVar.2]

/-! ## `Rewriter::modifyLoopStepToOne` -/

/-- The rewriting of one user of the old induction variable in
`modifyLoopStepToOne`: loads and stores get the map and operands of
`replaceIndexWithExpr` for `d0 * step`; any other user hits `assert(false)`. -/
def modifyStepUser (oldIv newIv : Value) (step : Int) (user : Operation) : Option Operation :=
  match user.kind with
  | .AffineLoadOp | .AffineStoreOp =>
    match replaceIndexWithExpr oldIv [newIv] user (.binary .Mul (.dim 0) (.const step)) with
    | none => none
    | some (exprs, operands) =>
      some { user with
        map := { numDims := operands.length, numSymbols := 0, results := exprs }
        mapOperands := operands }
  | _ => none

/-- The result of `modifyLoopStepToOne`: the returned loop and the rewritten
users of the old induction variable. -/
structure StepToOneResult where
  newLoop : AffineForOp
  users : List Operation
  deriving DecidableEq, Repr

/-- The primitive `Rewriter::modifyLoopStepToOne(forOp)`; `users` are the
operations using the induction variable of `forOp` and `fresh` is the induction
variable of the new loop. The bounds must be single constants
(`getSingleConstantResult`); `upperbound / step` and `lowerbound / step` are
the C++ division, which truncates toward zero and is undefined for a zero
step. Bounds and step are taken within the range of `int`. -/
def modifyLoopStepToOne (forOp : AffineForOp) (users : List Operation) (fresh : Value) :
    Option StepToOneResult :=
  match forOp.upperBoundMap.getSingleConstantResult,
    forOp.lowerBoundMap.getSingleConstantResult with
  | some upperbound, some lowerbound =>
    let step := forOp.step
    if step = 0 then none
    else
      let newUpper := Int.tdiv upperbound step
      let newLower := Int.tdiv lowerbound step
      match mapOrAbort (modifyStepUser forOp.inductionVar fresh step) users with
      | none => none
      | some users1 =>
        some { newLoop := AffineForOp.ofConstants newLower newUpper 1 fresh, users := users1 }
  | _, _ => none

/-! ## `Rewriter::blockLevelOneToTwo` -/

/-- The primitive `Rewriter::blockLevelOneToTwo(pal, oneDimLen)`: the parallel
operation with `threadIdxY` and `threadIdxX` created at the start of its body,
and the returned vector of their results. They apply
`(d0) -> (d0 floordiv oneDimLen)` and `(d0) -> (d0 mod oneDimLen)` to
`threadIdx[0]`, the first induction variable of `pal` (which must exist); their
results are the new values `fresh` and `fresh + 1`. -/
def blockLevelOneToTwo (pal : AffineParallelOp) (oneDimLen : Int) (fresh : Value) :
    Option (AffineParallelOp × List Value) :=
  match pal.ivs with
  | [] => none
  | threadIdx0 :: _ =>
    let threadIdxY : ScopeOp :=
      { op := { kind := .AffineApplyOp, memref := 0, storedValue := 0,
                map := { numDims := 1, numSymbols := 0,
                         results := [.binary .FloorDiv (.dim 0) (.const oneDimLen)] },
                mapOperands := [threadIdx0] },
        result := fresh }
    let threadIdxX : ScopeOp :=
      { op := { kind := .AffineApplyOp, memref := 0, storedValue := 0,
                map := { numDims := 1, numSymbols := 0,
                         results := [.binary .Mod (.dim 0) (.const oneDimLen)] },
                mapOperands := [threadIdx0] },
        result := fresh + 1 }
    some ({ pal with body := threadIdxY :: threadIdxX :: pal.body }, [fresh, fresh + 1])

/-! ## `Rewriter::change_double_buffer` -/

/-- The callback of the walk of `change_double_buffer` on one operation: a
vector load of `buffer` gets a map whose first result `lhs mod 2` has become
`(lhs + 1) mod 2` (the two `assert`s fail on a first result of another form);
the other results, the dimension count, the memref and the operands are kept.
The new load takes the place and the uses of the old one. -/
def changeDoubleBufferOp (buffer : Value) (load : Operation) : Option Operation :=
  if load.kind = .AffineVectorLoadOp ∧ load.memref = buffer then
    match load.map.results with
    | [] => some { load with map := { numDims := load.map.numDims, numSymbols := 0, results := [] } }
    | .binary .Mod lhs (.const c) :: rest =>
      if c = 2 then
        some { load with
          map := { numDims := load.map.numDims, numSymbols := 0,
                   results := .binary .Mod (.binary .Add lhs (.const 1)) (.const 2) :: rest } }
      else none
    | _ :: _ => none
  else some load

/-- The primitive `Rewriter::change_double_buffer(scope, buffer)` on the
operations nested in `scope`, in the order of the walk. -/
def change_double_buffer (scope : List Operation) (buffer : Value) : Option (List Operation) :=
  mapOrAbort (changeDoubleBufferOp buffer) scope

/-! ## The progress measure of the bubble sort of `reorder` -/

/-- The number of pairs of loops of a chain, the first above the second, whose
priorities `reorder` would exchange: the outer one has the lower priority. -/
def misordered (pri : LoopId → Option Int) : List LoopId → Nat
  | [] => 0
  | l :: rest =>
    (rest.countP fun son => priorityOf pri l < priorityOf pri son) + misordered pri rest

/-! ## Theorems -/

/-- C1 (reorder). On the chain `for1 { for2 { for3 } }` the documented example
`for3, for1, for2` is reached, but for the target order `for3, for2, for1` the
bubble sort stops at `for2, for3, for1`: it is never the requested order,
whatever the fuel. -/
theorem reorder_reversed_chain_misordered :
    reorder 4 [1, 2, 3] [3, 1, 2] = some [3, 1, 2] ∧
    reorder 4 [1, 2, 3] [3, 2, 1] = some [2, 3, 1] ∧
    ∀ fuel, reorder fuel [1, 2, 3] [3, 2, 1] ≠ some [3, 2, 1] := by
  refine ⟨by decide, by decide, ?_⟩
  intro fuel
  match fuel with
  | 0 => decide
  | 1 => decide
  | n + 2 =>
    have h : reorder (n + 2) [1, 2, 3] [3, 2, 1] = some [2, 3, 1] := by rfl
    rw [h]
    decide

/-! ### Expressions without symbols, loops over lists -/

theorem shiftAffineExprDim_of_symbolFree (n : Nat) :
    ∀ e : AffineExpr, e.symbolFree = true →
      ∃ e1, shiftAffineExprDim e n = some e1 ∧ e1.symbolFree = true := by
  intro e
  induction e with
  | dim p => intro _; exact ⟨_, rfl, rfl⟩
  | symbol p => intro h; simp [AffineExpr.symbolFree] at h
  | const c => intro _; exact ⟨_, rfl, rfl⟩
  | binary k l r ihl ihr =>
    intro h
    simp only [AffineExpr.symbolFree, Bool.and_eq_true] at h
    obtain ⟨l1, hl1, hl2⟩ := ihl h.1
    obtain ⟨r1, hr1, hr2⟩ := ihr h.2
    exact ⟨.binary k l1 r1, by simp [shiftAffineExprDim, hl1, hr1],
      by simp [AffineExpr.symbolFree, hl2, hr2]⟩

theorem getModifiedExpr_of_symbolFree (rep : AffineExpr) (t n : Nat)
    (hrep : rep.symbolFree = true) :
    ∀ e : AffineExpr, e.symbolFree = true →
      ∃ e1, getModifiedExpr e rep t n = some e1 ∧ e1.symbolFree = true := by
  intro e
  induction e with
  | dim p =>
    intro _
    unfold getModifiedExpr
    split
    · exact ⟨_, rfl, hrep⟩
    · split <;> exact ⟨_, rfl, rfl⟩
  | symbol p => intro h; simp [AffineExpr.symbolFree] at h
  | const c => intro _; exact ⟨_, rfl, rfl⟩
  | binary k l r ihl ihr =>
    intro h
    simp only [AffineExpr.symbolFree, Bool.and_eq_true] at h
    obtain ⟨l1, hl1, hl2⟩ := ihl h.1
    obtain ⟨r1, hr1, hr2⟩ := ihr h.2
    exact ⟨.binary k l1 r1, by simp [getModifiedExpr, hl1, hr1],
      by simp [AffineExpr.symbolFree, hl2, hr2]⟩

theorem symbolFree_of_getModifiedExpr (rep : AffineExpr) (t n : Nat)
    (hrep : rep.symbolFree = true) :
    ∀ e e1 : AffineExpr, getModifiedExpr e rep t n = some e1 → e1.symbolFree = true := by
  intro e
  induction e with
  | dim p =>
    intro e1 h
    unfold getModifiedExpr at h
    split at h
    · cases h; exact hrep
    · split at h <;> (cases h; rfl)
  | symbol p => intro e1 h; simp [getModifiedExpr] at h
  | const c => intro e1 h; simp only [getModifiedExpr, Option.some.injEq] at h; subst h; rfl
  | binary k l r ihl ihr =>
    intro e1 h
    unfold getModifiedExpr at h
    split at h
    · rename_i l1 r1 hl hr
      cases h
      simp [AffineExpr.symbolFree, ihl l1 hl, ihr r1 hr]
    · cases h

theorem modifyExprDim_of_symbolFree (a b : Nat) :
    ∀ e : AffineExpr, e.symbolFree = true → ∃ e1, modifyExprDim e a b = some e1 := by
  intro e
  induction e with
  | dim p =>
    intro _
    unfold modifyExprDim
    split <;> exact ⟨_, rfl⟩
  | symbol p => intro h; simp [AffineExpr.symbolFree] at h
  | const c => intro _; exact ⟨_, rfl⟩
  | binary k l r ihl ihr =>
    intro h
    simp only [AffineExpr.symbolFree, Bool.and_eq_true] at h
    obtain ⟨l1, hl1⟩ := ihl h.1
    obtain ⟨r1, hr1⟩ := ihr h.2
    exact ⟨.binary k l1 r1, by simp [modifyExprDim, hl1, hr1]⟩

theorem mapOrAbort_of_forall {α β : Type} (f : α → Option β) (P : β → Prop) :
    ∀ l : List α, (∀ a ∈ l, ∃ b, f a = some b ∧ P b) →
      ∃ bs, mapOrAbort f l = some bs ∧ ∀ b ∈ bs, P b := by
  intro l
  induction l with
  | nil => intro _; exact ⟨[], rfl, by simp⟩
  | cons a rest ih =>
    intro h
    obtain ⟨b, hb, hP⟩ := h a (List.mem_cons_self _ _)
    obtain ⟨bs, hbs, hPs⟩ := ih (fun x hx => h x (List.mem_cons_of_mem _ hx))
    refine ⟨b :: bs, by simp [mapOrAbort, hb, hbs], ?_⟩
    intro x hx
    rcases List.mem_cons.mp hx with rfl | hx
    · exact hP
    · exact hPs x hx

theorem mapOrAbort_some_forall {α β : Type} (f : α → Option β) (P : β → Prop) :
    ∀ (l : List α) (bs : List β), (∀ a ∈ l, ∀ b, f a = some b → P b) →
      mapOrAbort f l = some bs → ∀ b ∈ bs, P b := by
  intro l
  induction l with
  | nil =>
    intro bs _ h
    simp only [mapOrAbort, Option.some.injEq] at h
    subst h
    simp
  | cons a rest ih =>
    intro bs hf h
    unfold mapOrAbort at h
    split at h
    · rename_i b bs1 hb hbs
      cases h
      intro x hx
      rcases List.mem_cons.mp hx with rfl | hx
      · exact hf a (List.mem_cons_self _ _) _ hb
      · exact ih bs1 (fun y hy => hf y (List.mem_cons_of_mem _ hy)) hbs x hx
    · cases h

theorem sumExpr_symbolFree (n : Nat) : (sumExpr n).symbolFree = true := by
  unfold sumExpr
  have key : ∀ (l : List Nat) (acc : AffineExpr), acc.symbolFree = true →
      (l.foldl (fun acc i => AffineExpr.binary .Add acc (.dim (i + 1))) acc).symbolFree
        = true := by
    intro l
    induction l with
    | nil => intro acc h; exact h
    | cons a rest ih =>
      intro acc h
      exact ih _ (by simp [AffineExpr.symbolFree, h])
  exact key _ _ rfl

/-! ### `split`: the produced loops -/

theorem getSingleConstantResult_constant (c : Int) :
    (AffineMap.constant c).getSingleConstantResult = some c := rfl

theorem isConstant_of_getSingleConstantResult {m : AffineMap} {c : Int}
    (h : m.getSingleConstantResult = some c) : m.isConstant = true := by
  unfold AffineMap.getSingleConstantResult at h
  unfold AffineMap.isConstant
  split at h
  · rename_i heq
    simp [heq]
  · exact absurd h (by simp)

theorem narrowToInt_of_range {x : Int} (h0 : -2147483648 ≤ x) (h1 : x < 2147483648) :
    narrowToInt x = x := by
  unfold narrowToInt
  omega

theorem narrowToInt_one : narrowToInt 1 = 1 := by
  decide

theorem splitCheck_ofConstants (N : Int) (iv : Value) (factors : List Int) :
    splitCheck (AffineForOp.ofConstants 0 N 1 iv) (factors.length + 1) factors = some N := by
  simp [splitCheck, narrowToInt_one, AffineForOp.ofConstants, AffineMap.getSingleConstantResult,
    AffineMap.isConstant, AffineMap.constant]

theorem buildAffineLoopNest_shape (ubs : List Int) :
    ∀ (sts : List Int) (fresh : Value), sts.length = ubs.length →
      (buildAffineLoopNest (List.replicate ubs.length 0) ubs sts fresh).length = ubs.length ∧
      (∀ l ∈ buildAffineLoopNest (List.replicate ubs.length 0) ubs sts fresh,
        l.getConstantLowerBound = some 0) ∧
      (buildAffineLoopNest (List.replicate ubs.length 0) ubs sts fresh).map AffineForOp.step
        = sts ∧
      (buildAffineLoopNest (List.replicate ubs.length 0) ubs sts fresh).map
        AffineForOp.getConstantUpperBound = ubs.map some ∧
      (buildAffineLoopNest (List.replicate ubs.length 0) ubs sts fresh).map
        AffineForOp.tripCount = List.zipWith (tripCount 0) ubs sts := by
  induction ubs with
  | nil =>
    intro sts fresh h
    cases sts with
    | nil => simp [buildAffineLoopNest]
    | cons a t => simp at h
  | cons ub ubs ih =>
    intro sts fresh h
    cases sts with
    | nil => simp at h
    | cons st sts =>
      have hlen : sts.length = ubs.length := by simpa using h
      obtain ⟨h1, h2, h3, h4, h5⟩ := ih sts (fresh + 1) hlen
      simp only [List.length_cons, List.replicate_succ, buildAffineLoopNest, List.map_cons,
        List.zipWith_cons_cons, List.mem_cons]
      refine ⟨by omega, ?_, by rw [h3]; rfl, by rw [h4]; rfl, by rw [h5]; rfl⟩
      intro l hl
      rcases hl with rfl | hl
      · rfl
      · exact h2 l hl

theorem tripCount_mul_of_dvd {N f : Int} (hN : 0 ≤ N) (hf : 0 < f) (hd : f ∣ N) :
    tripCount 0 N f * f = N := by
  obtain ⟨q, rfl⟩ := hd
  unfold tripCount
  split
  · rename_i h
    have : f * q = 0 := le_antisymm h hN
    simp [this]
  · have h1 : f * q - 0 + f - 1 = (f - 1) + f * q := by ring
    rw [h1, Int.add_mul_ediv_left _ _ (ne_of_gt hf)]
    have h2 : (f - 1) / f = 0 := Int.ediv_eq_zero_of_lt (by omega) (by omega)
    rw [h2, zero_add, mul_comm]

theorem tripCount_prod_chain (g : List Int) :
    ∀ top : Int, 0 ≤ top → (∀ f ∈ g, 0 < f) → List.Chain' (fun a b => b ∣ a) (top :: g) →
      (List.zipWith (tripCount 0) (top :: g) (g ++ [1])).prod = top := by
  induction g with
  | nil =>
    intro top htop _ _
    have := tripCount_mul_of_dvd htop (by norm_num : (0 : Int) < 1) (one_dvd top)
    simpa using this
  | cons f g ih =>
    intro top htop hpos hch
    have hf : 0 < f := hpos f (List.mem_cons_self _ _)
    rw [List.chain'_cons] at hch
    have hrec := ih f (le_of_lt hf) (fun x hx => hpos x (List.mem_cons_of_mem _ hx)) hch.2
    simp only [List.cons_append, List.zipWith_cons_cons, List.prod_cons] at hrec ⊢
    rw [hrec]
    exact tripCount_mul_of_dvd htop hf hch.1

/-- C2 (split, counterexample). Splitting `[0, 10)` with the single factor `4`
gives two loops with steps `4, 1` and trip counts `3, 4`: not every step is 1
and the trip counts multiply to 12, not 10. -/
theorem split_steps_are_factors :
    (splitLoops (AffineForOp.ofConstants 0 10 1 7) 2 [4] 20).map
        (fun ls => (ls.map AffineForOp.step, ls.map AffineForOp.tripCount))
      = some ([4, 1], [3, 4]) ∧
    ¬ ∃ ls, splitLoops (AffineForOp.ofConstants 0 10 1 7) 2 [4] 20 = some ls ∧
        (∀ l ∈ ls, l.step = 1) ∧ (ls.map AffineForOp.tripCount).prod = 10 := by
  have h : splitLoops (AffineForOp.ofConstants 0 10 1 7) 2 [4] 20
      = some [AffineForOp.ofConstants 0 10 4 20, AffineForOp.ofConstants 0 4 1 21] := by
    decide
  refine ⟨by rw [h]; decide, ?_⟩
  rintro ⟨ls, hls, hstep, -⟩
  rw [h] at hls
  cases hls
  have := hstep (AffineForOp.ofConstants 0 10 4 20) (List.mem_cons_self _ _)
  revert this
  decide

/-- C2 (split, amended). For a loop `[0, N)` with step 1 and `num_output - 1`
factors `f_1 .. f_m`, `split` returns exactly `num_output` loops, all with lower
bound 0, whose steps are `f_m, .., f_1, 1` and whose upper bounds are
`N, f_m, .., f_1`; when `0 ≤ N`, the factors are positive and
`f_1 | f_2 | .. | f_m | N`, the trip counts multiply to `N`. -/
theorem split_loops_shape (N : Int) (iv fresh : Value) (num_output : Nat) (factors : List Int)
    (h : factors.length + 1 = num_output) :
    ∃ ls, splitLoops (AffineForOp.ofConstants 0 N 1 iv) num_output factors fresh = some ls ∧
      ls.length = num_output ∧
      (∀ l ∈ ls, l.getConstantLowerBound = some 0) ∧
      ls.map AffineForOp.step = (1 :: factors).reverse ∧
      ls.map AffineForOp.getConstantUpperBound = ((factors ++ [N]).reverse).map some ∧
      (0 ≤ N → (∀ f ∈ factors, 0 < f) → List.Chain' (fun a b => a ∣ b) (factors ++ [N]) →
        (ls.map AffineForOp.tripCount).prod = N) := by
  subst h
  have hlenU : ((factors ++ [N]).reverse).length = factors.length + 1 := by simp
  have hlenS : ((1 :: factors).reverse).length = ((factors ++ [N]).reverse).length := by simp
  obtain ⟨h1, h2, h3, h4, h5⟩ :=
    buildAffineLoopNest_shape ((factors ++ [N]).reverse) ((1 :: factors).reverse) fresh hlenS
  rw [hlenU] at h1 h2 h3 h4 h5
  refine ⟨buildAffineLoopNest (List.replicate (factors.length + 1) 0)
    ((factors ++ [N]).reverse) ((1 :: factors).reverse) fresh, ?_, h1, h2, h3, h4, ?_⟩
  · simp only [splitLoops, splitCheck_ofConstants]
  · intro hN hpos hch
    rw [h5]
    have e1 : (factors ++ [N]).reverse = N :: factors.reverse := by simp
    have e2 : (1 :: factors).reverse = factors.reverse ++ [1] := by simp
    rw [e1, e2]
    apply tripCount_prod_chain factors.reverse N hN
    · intro f hf
      exact hpos f (List.mem_reverse.mp hf)
    · have : List.Chain' (fun a b => a ∣ b) (N :: factors.reverse).reverse := by
        simpa using hch
      rw [List.chain'_reverse] at this
      exact this

/-- Witness of `split_loops_shape`: `[0, 32)` split with the factors `2, 8`. -/
theorem split_loops_shape_witness :
    ∃ ls, splitLoops (AffineForOp.ofConstants 0 32 1 7) 3 [2, 8] 20 = some ls ∧
      ls.length = 3 ∧
      (∀ l ∈ ls, l.getConstantLowerBound = some 0) ∧
      ls.map AffineForOp.step = (1 :: ([2, 8] : List Int)).reverse ∧
      ls.map AffineForOp.getConstantUpperBound
        = ((([2, 8] : List Int) ++ [32]).reverse).map some ∧
      (0 ≤ (32 : Int) → (∀ f ∈ ([2, 8] : List Int), 0 < f) →
        List.Chain' (fun a b => a ∣ b) (([2, 8] : List Int) ++ [32]) →
        (ls.map AffineForOp.tripCount).prod = 32) :=
  split_loops_shape 32 7 20 3 [2, 8] (by decide)

/-! ### `split`: the rewritten maps -/

/-- C3 (split, failing input). The load `A[%7, %7]` names the induction variable
twice. After `split` of `[0, 8)` by the factor `4` its operands are
`%20, %21, %20, %21` and its map is `(d0 + d1, d2)`: at the iteration
`%20 = 4, %21 = 1` (old induction value 5) it addresses `A[5, 4]`, while the
original load addresses `A[5, 5]`. -/
theorem split_duplicate_operand_misaddressed :
    (split (AffineForOp.ofConstants 0 8 1 7) 2 [4] 20
        [{ kind := .AffineLoadOp, memref := 100, storedValue := 0,
           map := { numDims := 2, numSymbols := 0, results := [.dim 0, .dim 1] },
           mapOperands := [7, 7] }]).map
      (fun r => r.users.map fun u =>
        (u.mapOperands, u.map.results,
          u.map.valueAt (fun v => if v = 20 then 4 else if v = 21 then 1 else 5) u.mapOperands))
      = some [([20, 21, 20, 21], [.binary .Add (.dim 0) (.dim 1), .dim 2], [5, 4])] ∧
    AffineMap.valueAt { numDims := 2, numSymbols := 0, results := [.dim 0, .dim 1] }
      (fun v => if v = 20 then 4 else if v = 21 then 1 else 5) [7, 7] = [5, 5] := by
  decide

/-! ### `split`: a single occurrence of the induction variable

When the old induction variable occurs exactly once among the map operands, the
map `split` builds computes what the old map computed. -/

theorem scanOperands_append (oldIv : Value) (newIvs : List Value) :
    ∀ (a b : List Value) (s : OperandScan),
      scanOperands oldIv newIvs (a ++ b) s
        = scanOperands oldIv newIvs b (scanOperands oldIv newIvs a s) := by
  intro a
  induction a with
  | nil => intro b s; rfl
  | cons x rest ih =>
    intro b s
    simp only [List.cons_append, scanOperands]
    split <;> exact ih _ _

theorem scanOperands_of_not_mem (oldIv : Value) (newIvs : List Value) :
    ∀ (l : List Value) (s : OperandScan), oldIv ∉ l →
      scanOperands oldIv newIvs l s
        = { targetDim := if s.found then s.targetDim else s.targetDim + l.length,
            found := s.found, operands := s.operands ++ l } := by
  intro l
  induction l with
  | nil => intro s _; cases s; simp [scanOperands]
  | cons x rest ih =>
    intro s h
    have hx : x ≠ oldIv := fun hx => h (by simp [hx])
    have hrest : oldIv ∉ rest := fun hr => h (List.mem_cons_of_mem _ hr)
    simp only [scanOperands, hx, if_false]
    rw [ih _ hrest]
    cases hf : s.found <;> simp
    omega

theorem scanOperands_single (oldIv : Value) (newIvs pre post : List Value)
    (hpre : oldIv ∉ pre) (hpost : oldIv ∉ post) :
    scanOperands oldIv newIvs (pre ++ oldIv :: post)
        { targetDim := -1, found := false, operands := [] }
      = { targetDim := pre.length, found := true, operands := pre ++ newIvs ++ post } := by
  rw [scanOperands_append, scanOperands_of_not_mem _ _ pre _ hpre]
  simp only [scanOperands, if_true]
  rw [scanOperands_of_not_mem _ _ post _ hpost]
  simp

theorem shiftAffineExprDim_value (t : Nat) (P dims : List Int) (hP : P.length = t) :
    ∀ e e1 : AffineExpr, shiftAffineExprDim e t = some e1 →
      e1.value (P ++ dims) [] = e.value dims [] := by
  intro e
  induction e with
  | dim p =>
    intro e1 h
    simp only [shiftAffineExprDim, Option.some.injEq] at h
    subst h
    simp only [AffineExpr.value]
    rw [List.getD_append_right _ _ _ _ (by omega)]
    congr 1
    omega
  | symbol p => intro e1 h; simp [shiftAffineExprDim] at h
  | const c =>
    intro e1 h
    simp only [shiftAffineExprDim, Option.some.injEq] at h
    subst h
    rfl
  | binary k l r ihl ihr =>
    intro e1 h
    unfold shiftAffineExprDim at h
    split at h
    · rename_i l1 r1 hl hr
      cases h
      simp only [AffineExpr.value, ihl l1 hl, ihr r1 hr]
    · cases h

theorem sumExpr_value (dims : List Int) :
    ∀ m : Nat, (sumExpr (m + 1)).value dims []
      = ((List.range (m + 1)).map fun i => dims.getD i 0).sum := by
  intro m
  induction m with
  | zero => simp [sumExpr, AffineExpr.value, List.range_succ]
  | succ m ih =>
    have hstep : sumExpr (m + 2) = .binary .Add (sumExpr (m + 1)) (.dim (m + 1)) := by
      have h21 : m + 2 - 1 = m + 1 := rfl
      have h11 : m + 1 - 1 = m := rfl
      simp only [sumExpr, h21, h11]
      rw [List.range_succ, List.foldl_append]
      rfl
    rw [hstep, List.range_succ, List.map_append, List.sum_append]
    simp only [AffineExpr.value, AffineExprKind.apply, ih, List.map_cons, List.map_nil,
      List.sum_cons, List.sum_nil, add_zero]

theorem map_getD_range_append (V Q : List Int) :
    (List.range V.length).map (fun i => (V ++ Q).getD i 0) = V := by
  apply List.ext_getElem
  · simp
  · intro n h1 h2
    simp only [List.length_map, List.length_range] at h1
    simp only [List.getElem_map, List.getElem_range]
    rw [List.getD_append _ _ _ _ h1, List.getD_eq_getElem _ _ h1]

theorem getModifiedExpr_value (rep : AffineExpr) (t n : Nat) (P V Q : List Int) (x : Int)
    (hP : P.length = t) (hV : V.length = n) (hn : 1 ≤ n)
    (hrep : rep.value (P ++ V ++ Q) [] = x) :
    ∀ e e1 : AffineExpr, getModifiedExpr e rep t n = some e1 →
      e1.value (P ++ V ++ Q) [] = e.value (P ++ x :: Q) [] := by
  intro e
  induction e with
  | dim p =>
    intro e1 h
    unfold getModifiedExpr at h
    split at h
    · rename_i hpt
      cases h
      rw [hrep]
      simp only [AffineExpr.value]
      rw [List.getD_append_right _ _ _ _ (by omega)]
      have : p - P.length = 0 := by omega
      rw [this]
      rfl
    · split at h
      · rename_i hne hgt
        cases h
        simp only [AffineExpr.value]
        rw [List.getD_append_right _ _ _ _ (by simp; omega),
          List.getD_append_right _ _ _ _ (by omega)]
        have e1 : p - P.length = (p - P.length - 1) + 1 := by omega
        rw [e1, List.getD_cons_succ]
        congr 1
        simp
        omega
      · rename_i hne hgt
        cases h
        simp only [AffineExpr.value]
        rw [List.append_assoc, List.getD_append _ _ _ _ (by omega),
          List.getD_append _ _ _ _ (by omega)]
  | symbol p => intro e1 h; simp [getModifiedExpr] at h
  | const c =>
    intro e1 h
    simp only [getModifiedExpr, Option.some.injEq] at h
    subst h
    rfl
  | binary k l r ihl ihr =>
    intro e1 h
    unfold getModifiedExpr at h
    split at h
    · rename_i l1 r1 hl hr
      cases h
      simp only [AffineExpr.value, ihl l1 hl, ihr r1 hr]
    · cases h

theorem mapOrAbort_map_eq {α β γ : Type} (f : α → Option β) (g : β → γ) (k : α → γ)
    (hf : ∀ a b, f a = some b → g b = k a) :
    ∀ (l : List α) (bs : List β), mapOrAbort f l = some bs → bs.map g = l.map k := by
  intro l
  induction l with
  | nil =>
    intro bs h
    simp only [mapOrAbort, Option.some.injEq] at h
    subst h
    rfl
  | cons a rest ih =>
    intro bs h
    unfold mapOrAbort at h
    split at h
    · rename_i b bs1 hb hbs
      cases h
      simp only [List.map_cons, hf a b hb, ih bs1 hbs]
    · cases h

/-- Soundness of the map `split` builds for an operation that names the old
induction variable exactly once: the rewriting succeeds for a map without
symbols, the new operands are the old ones with the new induction variables in
place of the old one, and whenever the old induction value equals the sum of the
new ones the new map has the results of the old map. -/
theorem replaceIndexWithExpr_value (oldIv : Value) (newIvs pre post : List Value)
    (memOp : Operation) (env : Value → Int) (hpre : oldIv ∉ pre) (hpost : oldIv ∉ post)
    (hops : memOp.mapOperands = pre ++ oldIv :: post) (hne : newIvs ≠ [])
    (henv : env oldIv = (newIvs.map env).sum)
    (hfree : ∀ e ∈ memOp.map.results, e.symbolFree = true) :
    ∃ exprs, replaceIndexWithExpr oldIv newIvs memOp (sumExpr newIvs.length)
        = some (exprs, pre ++ newIvs ++ post) ∧
      exprs.map (AffineExpr.value ((pre ++ newIvs ++ post).map env) [])
        = memOp.map.valueAt env memOp.mapOperands := by
  obtain ⟨m, hm⟩ : ∃ m, newIvs.length = m + 1 :=
    Nat.exists_eq_succ_of_ne_zero (fun h => hne (List.length_eq_zero.mp h))
  obtain ⟨shifted, hs1, hs2⟩ := shiftAffineExprDim_of_symbolFree pre.length
    (sumExpr newIvs.length) (sumExpr_symbolFree _)
  obtain ⟨exprs, he1, -⟩ := mapOrAbort_of_forall
    (fun e => getModifiedExpr e shifted pre.length newIvs.length) (fun _ => True)
    memOp.map.results (fun e he => by
      obtain ⟨e1, h1, -⟩ := getModifiedExpr_of_symbolFree shifted pre.length newIvs.length
        hs2 e (hfree e he)
      exact ⟨e1, h1, trivial⟩)
  refine ⟨exprs, ?_, ?_⟩
  · unfold replaceIndexWithExpr
    rw [hops, scanOperands_single oldIv newIvs pre post hpre hpost]
    simp only [Int.toNat_ofNat, hs1, he1, if_true]
  · have hval : shifted.value (pre.map env ++ newIvs.map env ++ post.map env) []
        = env oldIv := by
      rw [List.append_assoc,
        shiftAffineExprDim_value pre.length (pre.map env) _ (by simp) _ _ hs1, hm,
        sumExpr_value, henv]
      have := map_getD_range_append (newIvs.map env) (post.map env)
      rw [List.length_map, hm] at this
      rw [this]
    unfold AffineMap.valueAt
    rw [hops]
    simp only [List.map_append, List.map_cons]
    exact mapOrAbort_map_eq _ _ _
      (fun a b hab => getModifiedExpr_value shifted pre.length newIvs.length (pre.map env)
        (newIvs.map env) (post.map env) (env oldIv) (by simp) (by simp)
        (by omega) hval a b hab) _ _ he1

/-! ### `split`: the precondition checks -/

/-- The precondition checks of `split` fail, and no loop is produced, exactly
when the lower or the upper bound is not a constant, the step read into an `int`
is not 1, the lower bound is not 0, or the number of factors plus one differs
from `num_output`. For a step within the range of `int` the `int` is the step
itself. -/
theorem split_precondition_iff (forOp : AffineForOp) (num_output : Nat) (factors : List Int)
    (fresh : Value) :
    (splitCheck forOp num_output factors = none ↔
      (forOp.getConstantLowerBound = none ∨ forOp.getConstantUpperBound = none ∨
        narrowToInt forOp.step ≠ 1 ∨ forOp.getConstantLowerBound ≠ some 0 ∨
        factors.length + 1 ≠ num_output)) ∧
    (splitLoops forOp num_output factors fresh = none ↔
      splitCheck forOp num_output factors = none) ∧
    (split forOp num_output factors fresh [] = none ↔
      splitCheck forOp num_output factors = none) ∧
    (-2147483648 ≤ forOp.step → forOp.step < 2147483648 →
      (narrowToInt forOp.step ≠ 1 ↔ forOp.step ≠ 1)) := by
  refine ⟨?_, ?_, ?_, ?_⟩
  · unfold splitCheck AffineForOp.getConstantLowerBound AffineForOp.getConstantUpperBound
    cases hl : forOp.lowerBoundMap.getSingleConstantResult with
    | none => simp
    | some lb =>
      cases hu : forOp.upperBoundMap.getSingleConstantResult with
      | none => simp
      | some ub =>
        simp only [isConstant_of_getSingleConstantResult hl,
          isConstant_of_getSingleConstantResult hu, List.length_cons]
        by_cases h1 : factors.length + 1 = num_output
        · by_cases h2 : narrowToInt forOp.step = 1
          · by_cases h3 : lb = 0
            · simp [h1, h2, h3]
            · simp [h1, h2, h3]
          · simp [h1, h2]
        · simp [h1]
  · unfold splitLoops
    cases splitCheck forOp num_output factors <;> simp
  · unfold split splitLoops
    cases splitCheck forOp num_output factors <;> simp [mapOrAbort]
  · intro h0 h1
    rw [narrowToInt_of_range h0 h1]

/-- C4 (split preconditions, failing input). The loop `[0, 8)` with the step
`2^32 + 1`, which is not 1, passes the precondition checks of `split`: read into
an `int` the step is 1. `split` goes on and produces the loops `[0, 8)` step 4
and `[0, 4)` step 1. -/
theorem split_accepts_step_congruent_to_one :
    splitCheck (AffineForOp.ofConstants 0 8 4294967297 7) 2 [4] = some 8 ∧
    (split (AffineForOp.ofConstants 0 8 4294967297 7) 2 [4] 20 []).map SplitResult.loops
      = some [AffineForOp.ofConstants 0 8 4 20, AffineForOp.ofConstants 0 4 1 21] := by
  decide

/-! ### `split` followed by `combineToOneDim` -/

theorem replaceIndexWithExpr_symbolFree {oldIv : Value} {ivs : List Value} {memOp : Operation}
    {rep : AffineExpr} {exprs : List AffineExpr} {operands : List Value}
    (hrep : rep.symbolFree = true)
    (h : replaceIndexWithExpr oldIv ivs memOp rep = some (exprs, operands)) :
    ∀ e ∈ exprs, e.symbolFree = true := by
  unfold replaceIndexWithExpr at h
  simp only at h
  generalize scanOperands oldIv ivs memOp.mapOperands
    { targetDim := -1, found := false, operands := [] } = scan at h
  obtain ⟨s1, hs1, hs2⟩ := shiftAffineExprDim_of_symbolFree scan.targetDim.toNat rep hrep
  simp only [hs1] at h
  split at h
  · split at h
    · cases h
    · rename_i exprs1 hexprs
      cases h
      exact mapOrAbort_some_forall _ (fun e => e.symbolFree = true) _ _
        (fun a _ b hab => symbolFree_of_getModifiedExpr _ _ _ hs2 a b hab) hexprs
  · cases h

/-- An operation `split` has rewritten keeps its kind, which is load, store or
apply, and has a map without symbols. -/
theorem splitUser_eq_some {oldIv : Value} {ivs : List Value} {u u1 : Operation}
    (h : splitUser oldIv ivs u = some u1) :
    u1.kind = u.kind ∧ (u.kind = .AffineLoadOp ∨ u.kind = .AffineStoreOp ∨
      u.kind = .AffineApplyOp) ∧ ∀ e ∈ u1.map.results, e.symbolFree = true := by
  unfold splitUser at h
  cases hr : replaceIndexWithExpr oldIv ivs u (sumExpr ivs.length) with
  | none =>
    rw [hr] at h
    cases hk : u.kind <;> simp [hk] at h
  | some res =>
    obtain ⟨exprs, operands⟩ := res
    have hfree := replaceIndexWithExpr_symbolFree (sumExpr_symbolFree _) hr
    rw [hr] at h
    cases hk : u.kind <;> simp only [hk] at h <;> cases h <;>
      exact ⟨rfl, by simp, hfree⟩

theorem combineExprsFrom_symbolFree :
    ∀ (l : List Int) (i : Nat) (last_sum : Int),
      (combineExprsFrom i last_sum l).length = l.length ∧
      ∀ e ∈ combineExprsFrom i last_sum l, e.symbolFree = true := by
  intro l
  induction l with
  | nil => intro i last_sum; simp [combineExprsFrom]
  | cons a t ih =>
    intro i last_sum
    cases t with
    | nil => simp [combineExprsFrom, AffineExpr.symbolFree]
    | cons u rest =>
      obtain ⟨h1, h2⟩ := ih (i + 1) (intProduct (u :: rest))
      unfold combineExprsFrom
      refine ⟨by simp only [List.length_cons] at h1 ⊢; omega, ?_⟩
      intro e he
      rcases List.mem_cons.mp he with rfl | he
      · split <;> simp [AffineExpr.symbolFree]
      · exact h2 e he

theorem scanMoreToOne_shape (oldIvs : List Value) (newIv : Value) :
    ∀ (operands : List Value) (s : MoreToOneScan),
      s.targetDims.length = oldIvs.length → s.founds.length = oldIvs.length →
      (∀ i ∈ s.indices, i < oldIvs.length) →
      (scanMoreToOne oldIvs newIv operands s).targetDims.length = oldIvs.length ∧
      (scanMoreToOne oldIvs newIv operands s).founds.length = oldIvs.length ∧
      ∀ i ∈ (scanMoreToOne oldIvs newIv operands s).indices, i < oldIvs.length := by
  intro operands
  induction operands with
  | nil => intro s h1 h2 h3; exact ⟨h1, h2, h3⟩
  | cons item rest ih =>
    intro s h1 h2 h3
    unfold scanMoreToOne
    simp only
    split
    · rename_i hc
      apply ih
      · simp [h1, h2]
      · simp [h2]
      · intro i hi
        simp only [List.mem_append, List.mem_singleton] at hi
        rcases hi with hi | rfl
        · exact h3 i hi
        · exact List.indexOf_lt_length.mpr (by simpa using hc)
    · apply ih
      · simp [h1, h2]
      · exact h2
      · exact h3

theorem shiftReplaceExprs_of_symbolFree (minDim : Nat) :
    ∀ (indices : List Nat) (reps : List AffineExpr),
      (∀ i ∈ indices, i < reps.length) → (∀ e ∈ reps, e.symbolFree = true) →
      ∃ res, shiftReplaceExprs minDim indices reps = some res ∧ res.length = reps.length ∧
        ∀ e ∈ res, e.symbolFree = true := by
  intro indices
  induction indices with
  | nil => intro reps _ h; exact ⟨reps, rfl, rfl, h⟩
  | cons index rest ih =>
    intro reps hidx hfree
    have hlt : index < reps.length := hidx index (List.mem_cons_self _ _)
    obtain ⟨e1, he1, he2⟩ := shiftAffineExprDim_of_symbolFree minDim reps[index]
      (hfree _ (List.getElem_mem hlt))
    obtain ⟨res, hres, hlen, hres2⟩ := ih (reps.set index e1)
      (fun i hi => by
        rw [List.length_set]
        exact hidx i (List.mem_cons_of_mem _ hi))
      (fun e he => by
        rcases List.mem_or_eq_of_mem_set he with h | h
        · exact hfree e h
        · rw [h]; exact he2)
    refine ⟨res, ?_, by rw [hlen, List.length_set], hres2⟩
    unfold shiftReplaceExprs
    rw [List.getElem?_eq_getElem hlt]
    simp only [he1, hres]

theorem substituteIndices_of_symbolFree (reps : List AffineExpr) (targetDims : List Int)
    (hfree : ∀ e ∈ reps, e.symbolFree = true) :
    ∀ (indices : List Nat) (expr_ : AffineExpr),
      (∀ i ∈ indices, i < reps.length ∧ i < targetDims.length) → expr_.symbolFree = true →
      ∃ e1, substituteIndices reps targetDims indices expr_ = some e1 ∧
        e1.symbolFree = true := by
  intro indices
  induction indices with
  | nil => intro expr_ _ h; exact ⟨expr_, rfl, h⟩
  | cons index rest ih =>
    intro expr_ hidx hexpr
    obtain ⟨h1, h2⟩ := hidx index (List.mem_cons_self _ _)
    obtain ⟨e1, he1, he2⟩ := getModifiedExpr_of_symbolFree reps[index] targetDims[index].toNat 1
      (hfree _ (List.getElem_mem h1)) expr_ hexpr
    obtain ⟨e2, he3, he4⟩ := ih e1 (fun i hi => hidx i (List.mem_cons_of_mem _ hi)) he2
    refine ⟨e2, ?_, he4⟩
    unfold substituteIndices
    rw [List.getElem?_eq_getElem h1, List.getElem?_eq_getElem h2]
    simp only [he1, he3]

theorem orderizeLoop_of_symbolFree (resultExprs : List AffineExpr)
    (hfree : ∀ e ∈ resultExprs, e.symbolFree = true) :
    ∀ (alldims : List Nat) (i : Nat) (exprs : List AffineExpr),
      ∃ res, orderizeLoop resultExprs alldims i exprs = some res := by
  intro alldims
  induction alldims with
  | nil => intro i exprs; exact ⟨exprs, rfl⟩
  | cons d rest ih =>
    intro i exprs
    unfold orderizeLoop
    split
    · obtain ⟨es, hes, -⟩ := mapOrAbort_of_forall (fun e => modifyExprDim e d i)
        (fun _ => True) resultExprs (fun e he => by
          obtain ⟨e1, he1⟩ := modifyExprDim_of_symbolFree d i e (hfree e he)
          exact ⟨e1, he1, trivial⟩)
      simp only [hes]
      exact ih _ _
    · exact ih _ _

theorem replaceIndexWithExprMoreToOne_of_symbolFree (oldIvs : List Value) (newIv : Value)
    (memOp : Operation) (reps : List AffineExpr) (hne : oldIvs ≠ [])
    (hlen : reps.length = oldIvs.length) (hreps : ∀ e ∈ reps, e.symbolFree = true)
    (hmap : ∀ e ∈ memOp.map.results, e.symbolFree = true) :
    ∃ res, replaceIndexWithExprMoreToOne oldIvs newIv memOp reps = some res := by
  unfold replaceIndexWithExprMoreToOne
  simp only
  obtain ⟨h1, h2, h3⟩ := scanMoreToOne_shape oldIvs newIv memOp.mapOperands
    { indices := [], targetDims := List.replicate oldIvs.length (-1),
      founds := List.replicate oldIvs.length false, operands := [] }
    (by simp) (by simp) (by simp)
  generalize scanMoreToOne oldIvs newIv memOp.mapOperands
    { indices := [], targetDims := List.replicate oldIvs.length (-1),
      founds := List.replicate oldIvs.length false, operands := [] } = scan at h1 h2 h3 ⊢
  cases hmin : scan.targetDims.min? with
  | none =>
    rw [List.min?_eq_none_iff] at hmin
    rw [hmin] at h1
    exact absurd (List.length_eq_zero.mp h1.symm) hne
  | some minDim =>
    obtain ⟨shifted, hs1, hs2, hs3⟩ := shiftReplaceExprs_of_symbolFree minDim.toNat scan.indices
      reps (fun i hi => by rw [hlen]; exact h3 i hi) hreps
    obtain ⟨exprs, he1, he2⟩ := mapOrAbort_of_forall
      (substituteIndices shifted scan.targetDims scan.indices)
      (fun e => e.symbolFree = true) memOp.map.results
      (fun e he => substituteIndices_of_symbolFree shifted scan.targetDims hs3 scan.indices e
        (fun i hi => ⟨by rw [hs2, hlen]; exact h3 i hi, by rw [h1]; exact h3 i hi⟩)
        (hmap e he))
    obtain ⟨ordered, ho⟩ := orderizeLoop_of_symbolFree exprs he2
      (((exprs.map getAllExprDim).flatten.dedup).insertionSort (fun a b => a ≤ b)) 0 exprs
    simp only [hs1, he1, orderizeExprs, ho]
    exact ⟨_, rfl⟩

theorem combineBounds_of_uniform {lower st : Int} :
    ∀ (loops : List AffineForOp) (ups : List Int),
      (∀ l ∈ loops, l.getConstantLowerBound = some lower ∧ l.step = st) →
      loops.map AffineForOp.getConstantUpperBound = ups.map some →
      combineBounds lower st loops = some ups := by
  intro loops
  induction loops with
  | nil =>
    intro ups _ h
    cases ups with
    | nil => rfl
    | cons u t => simp at h
  | cons a rest ih =>
    intro ups hall h
    cases ups with
    | nil => simp at h
    | cons u t =>
      simp only [List.map_cons, List.cons.injEq] at h
      obtain ⟨hl, hs⟩ := hall a (List.mem_cons_self _ _)
      have hrest := ih t (fun l hl => hall l (List.mem_cons_of_mem _ hl)) h.2
      unfold combineBounds
      unfold AffineForOp.getConstantLowerBound at hl
      unfold AffineForOp.getConstantUpperBound at h
      simp [hl, hs, h.1, hrest]

theorem splitLoops_ofConstants (N : Int) (iv fresh : Value) (factors : List Int) :
    splitLoops (AffineForOp.ofConstants 0 N 1 iv) (factors.length + 1) factors fresh
      = some (buildAffineLoopNest (List.replicate (factors.length + 1) 0)
          ((factors ++ [N]).reverse) ((1 :: factors).reverse) fresh) := by
  simp only [splitLoops, splitCheck_ofConstants]

/-- C6 (vectorize, failing input). The loop `for i = 0 to 8 step 3` runs 3
iterations and 3 is no multiple of the width 4, yet `vectorize` accepts it
(only `lb == 0 && ub % width == 0` is checked) and sets the step to 4; the loop
then runs 2 iterations, not `3 / 4 = 0`. -/
theorem vectorize_accepts_indivisible_trip_count :
    tripCount 0 8 3 = 3 ∧ ¬ ((4 : Int) ∣ 3) ∧
    vectorize (AffineForOp.ofConstants 0 8 3 7) 4 [] = some (AffineForOp.ofConstants 0 8 4 7, []) ∧
    tripCount 0 8 4 = 2 ∧ tripCount 0 8 3 / 4 = 0 := by
  decide

/-- C7 (vectorize, failing input). The loop `for i = 0 to 8 step 2` has a step
other than 1, yet `vectorize` with width 4 passes the check, sets the step to 4
and turns the scalar load of the body into a vector load. -/
theorem vectorize_accepts_non_unit_step :
    vectorize (AffineForOp.ofConstants 0 8 2 7) 4
        [{ kind := .AffineLoadOp, memref := 100, storedValue := 0,
           map := { numDims := 1, numSymbols := 0, results := [.dim 0] }, mapOperands := [7] }]
      = some (AffineForOp.ofConstants 0 8 4 7,
        [{ kind := .AffineVectorLoadOp, memref := 100, storedValue := 0,
           map := { numDims := 1, numSymbols := 0, results := [.dim 0] },
           mapOperands := [7] }]) := by
  decide

/-! ### `vectorize`: loops with step 1 -/

/-- For a loop with constant bounds and step 1, `vectorize` with a non-zero width
is accepted exactly when the lower bound is 0 and `width` divides the upper
bound; the accepted loop gets the step `width`. -/
theorem vectorize_unit_step (lb ub width : Int) (iv : Value) (body : List Operation)
    (hw : width ≠ 0) :
    (vectorize (AffineForOp.ofConstants lb ub 1 iv) width body = none ↔
      ¬ (lb = 0 ∧ width ∣ ub)) ∧
    (lb = 0 ∧ width ∣ ub →
      vectorize (AffineForOp.ofConstants lb ub 1 iv) width body
        = some (AffineForOp.ofConstants lb ub width iv, body.map vectorizeOp)) := by
  have hdvd : Int.tmod ub width = 0 ↔ width ∣ ub := by
    constructor
    · intro h
      exact Int.dvd_of_tmod_eq_zero h
    · intro h
      exact Int.tmod_eq_zero_of_dvd h
  simp only [vectorize, AffineForOp.getConstantUpperBound, AffineForOp.getConstantLowerBound,
    AffineForOp.ofConstants, AffineMap.constant, AffineMap.getSingleConstantResult, hw,
    if_false, Bool.true_and, Bool.and_eq_true, beq_iff_eq, hdvd]
  constructor
  · by_cases h : lb = 0 ∧ width ∣ ub
    · simp [h]
    · simp [h]
  · intro h
    simp [h]

/-! ### `pipeline` -/

theorem fdiv_sub_self {i s : Int} (hs : 0 < s) : Int.fdiv (i - s) s + 1 = Int.fdiv i s := by
  rw [Int.fdiv_eq_ediv _ (le_of_lt hs), Int.fdiv_eq_ediv _ (le_of_lt hs)]
  have : (i - s) / s = i / s - 1 := by
    have h := Int.add_mul_ediv_right i (-1) (ne_of_gt hs)
    simpa [sub_eq_add_neg] using h
  omega

/-- The steady state of the double buffer: for a positive step the slot the
consumer reads at induction value `i` is the slot the prefetch wrote at `i - s`. -/
theorem consumeSlot_eq_prefetchSlot_prev (s i : Int) (hs : 0 < s) :
    (consumeSlotExpr 0 s).value [i] [] = (prefetchSlotExpr 0 s).value [i - s] [] := by
  simp only [consumeSlotExpr, prefetchSlotExpr, AffineExpr.value, AffineExprKind.apply,
    List.getD_cons_zero]
  rw [fdiv_sub_self hs]

/-- C8 (pipeline parity, failing input). Compute loop `for %7 = 1 to 3 step 1`,
one read body storing into the buffer `%100`, one consumer load of `%100`. The
prologue store writes slot 0 of the double buffer `%300`, but at the first
iteration `%7 = 1` the consumer load reads slot `(1 floordiv 1) mod 2 = 1`. -/
theorem pipeline_first_iteration_reads_other_slot :
    (pipeline [{ result := 100, type := { shape := [8], elementType := 0, memorySpace := 3 } }]
        [[{ kind := .AffineVectorStoreOp, memref := 100, storedValue := 50,
            map := { numDims := 1, numSymbols := 0, results := [.dim 0] },
            mapOperands := [9] }]]
        100 (AffineForOp.ofConstants 1 3 1 7)
        [{ kind := .AffineVectorLoadOp, memref := 100, storedValue := 0,
           map := { numDims := 1, numSymbols := 0, results := [.dim 0] },
           mapOperands := [11] }] 300).map
      (fun r =>
        (r.lbOp,
         r.prologue.map (fun body => body.map fun op =>
           (op.kind, op.memref,
             (op.map.valueAt (fun v => if v = 7 then 1 else 0) op.mapOperands).head?)),
         r.others.map fun op =>
           (op.kind, op.memref,
             (op.map.valueAt (fun v => if v = 7 then 1 else 0) op.mapOperands).head?)))
      = some ((301, 1), [[(OpKind.AffineVectorStoreOp, 300, some 0)]],
          [(OpKind.AffineVectorLoadOp, 300, some 1)]) := by
  rfl

theorem mem_iterationValues {lb ub s i : Int} (hs : 0 < s) :
    i ∈ iterationValues lb ub s ↔ ∃ k : Nat, i = lb + (k : Int) * s ∧ i < ub := by
  have key : ∀ k : Nat, k < (tripCount lb ub s).toNat ↔ lb + (k : Int) * s < ub := by
    intro k
    unfold tripCount
    have hk : (0 : Int) ≤ (k : Int) * s := mul_nonneg (Int.ofNat_nonneg k) (le_of_lt hs)
    split
    · simp only [Int.toNat_zero, Nat.not_lt_zero, false_iff]
      omega
    · rw [Int.lt_toNat, Int.lt_iff_add_one_le, Int.le_ediv_iff_mul_le hs]
      constructor <;> intro h <;> nlinarith
  simp only [iterationValues, List.mem_map, List.mem_range]
  constructor
  · rintro ⟨k, hk, rfl⟩
    exact ⟨k, rfl, (key k).mp hk⟩
  · rintro ⟨k, rfl, hlt⟩
    exact ⟨k, (key k).mpr hlt, rfl⟩

theorem prefetchGuard_value (ub s i : Int) :
    (prefetchGuard ub s).value [i] [] = ub - 2 * s - i := by
  simp only [prefetchGuard, AffineExpr.value, AffineExprKind.apply, List.getD_cons_zero]
  ring

theorem pipeline_guard_eq {allocs : List AllocOp} {readBodys : List (List Operation)}
    {buffer fresh : Value} {lb ub s : Int} {iv : Value} {others : List Operation}
    {r : PipelineResult}
    (h : pipeline allocs readBodys buffer (AffineForOp.ofConstants lb ub s iv) others fresh
      = some r) :
    r.guard = prefetchGuard ub s ∧ r.guardOperands = [iv] := by
  unfold pipeline at h
  simp only [AffineForOp.getConstantLowerBound, AffineForOp.getConstantUpperBound,
    AffineForOp.ofConstants, AffineMap.constant, AffineMap.getSingleConstantResult] at h
  split at h
  · exact absurd h (by simp)
  · split at h
    · exact absurd h (by simp)
    · split at h
      · simp only [Option.some.injEq] at h
        subst h
        exact ⟨rfl, rfl⟩
      · exact absurd h (by simp)

/-- C9 (pipeline guard, counterexample). For `for i = 0 to 5 step 2` the value 2
is an iteration and so is `2 + 2 = 4 < 5`, but the guard `5 - 2 * 2 - i >= 0`
the pipeline installs is not satisfied at `i = 2`. -/
theorem pipeline_guard_skips_short_last_step :
    (pipeline [{ result := 100, type := { shape := [8], elementType := 0, memorySpace := 3 } }]
        [] 100 (AffineForOp.ofConstants 0 5 2 7) [] 300).map (fun r => r.guard)
      = some (prefetchGuard 5 2) ∧
    (2 : Int) ∈ iterationValues 0 5 2 ∧ (2 : Int) + 2 < 5 ∧ (2 : Int) + 2 ∈ iterationValues 0 5 2 ∧
    ¬ (0 ≤ (prefetchGuard 5 2).value [2] []) := by
  decide

/-- C9 (pipeline guard, amended). For a compute loop `[lb, ub)` with a positive
step `s` dividing `ub - lb`, the guard `pipeline` installs on the induction
variable holds at an iteration value `i` if and only if `i + s < ub`; hence for
every iteration `i` after the first, `i - s` is an iteration at which the guard
holds. -/
theorem pipeline_guard_iff_next_iteration (allocs : List AllocOp)
    (readBodys : List (List Operation)) (buffer fresh iv : Value) (others : List Operation)
    (r : PipelineResult) (lb ub s i : Int)
    (h : pipeline allocs readBodys buffer (AffineForOp.ofConstants lb ub s iv) others fresh
      = some r)
    (hs : 0 < s) (hdiv : s ∣ ub - lb) (hi : i ∈ iterationValues lb ub s) :
    r.guardOperands = [iv] ∧
    (0 ≤ r.guard.value [i] [] ↔ i + s < ub) ∧
    (i ≠ lb → i - s ∈ iterationValues lb ub s ∧ 0 ≤ r.guard.value [i - s] []) := by
  obtain ⟨hg, hops⟩ := pipeline_guard_eq h
  obtain ⟨k, rfl, hlt⟩ := (mem_iterationValues hs).mp hi
  obtain ⟨q, hq⟩ := hdiv
  have hub : ub = lb + s * q := by omega
  subst hub
  have hkq : (k : Int) < q := by
    by_contra hcon
    have : s * q ≤ s * (k : Int) := mul_le_mul_of_nonneg_left (not_lt.mp hcon) (le_of_lt hs)
    nlinarith
  rw [hg, prefetchGuard_value, prefetchGuard_value]
  refine ⟨hops, ⟨fun h => by nlinarith, fun h => ?_⟩, fun hne => ?_⟩
  · have hk1 : (k : Int) + 1 < q := by
      by_contra hcon
      have : s * q ≤ s * ((k : Int) + 1) :=
        mul_le_mul_of_nonneg_left (not_lt.mp hcon) (le_of_lt hs)
      nlinarith
    have : s * ((k : Int) + 2) ≤ s * q := mul_le_mul_of_nonneg_left (by omega) (le_of_lt hs)
    nlinarith
  · have hk0 : k ≠ 0 := by
      rintro rfl
      simp at hne
    obtain ⟨j, rfl⟩ := Nat.exists_eq_succ_of_ne_zero hk0
    refine ⟨(mem_iterationValues hs).mpr ⟨j, ?_, ?_⟩, ?_⟩
    · push_cast
      ring
    · push_cast at hlt ⊢
      nlinarith
    · push_cast at hkq ⊢
      have : s * ((j : Int) + 2) ≤ s * q := mul_le_mul_of_nonneg_left (by omega) (le_of_lt hs)
      nlinarith

/-- Witness of `pipeline_guard_iff_next_iteration`: the loop `[4, 12)` with step 4
at its second iteration `i = 8`. -/
theorem pipeline_guard_iff_next_iteration_witness :
    ([7] : List Value) = [7] ∧
    (0 ≤ (prefetchGuard 12 4).value [8] [] ↔ (8 : Int) + 4 < 12) ∧
    ((8 : Int) ≠ 4 → (8 : Int) - 4 ∈ iterationValues 4 12 4 ∧
      0 ≤ (prefetchGuard 12 4).value [8 - 4] []) :=
  pipeline_guard_iff_next_iteration
    [{ result := 100, type := { shape := [8], elementType := 0, memorySpace := 3 } }]
    [] 100 300 7 []
    { allocs := [{ result := 300, type := { shape := [2, 8], elementType := 0, memorySpace := 3 } }],
      buffer := 300, lbOp := (301, 4), prologue := [], guard := prefetchGuard 12 4,
      guardOperands := [7], readBodys := [], others := [] }
    4 12 4 8 (by rfl) (by decide) (by decide) (by decide)

theorem insertDoubleBuffer_eq_some {buffer doubleBuffer : Value} :
    ∀ {allocs allocs1 : List AllocOp},
      insertDoubleBuffer buffer doubleBuffer allocs = some allocs1 →
      ∃ pre old post, allocs = pre ++ old :: post ∧ old.result = buffer ∧
        (∀ a ∈ pre, a.result ≠ buffer) ∧
        allocs1 = pre ++ { result := doubleBuffer, type := doubleBufferType old.type }
          :: old :: post := by
  intro allocs
  induction allocs with
  | nil =>
    intro allocs1 h
    simp [insertDoubleBuffer] at h
  | cons a rest ih =>
    intro allocs1 h
    unfold insertDoubleBuffer at h
    split at h
    · rename_i ha
      simp only [Option.some.injEq] at h
      exact ⟨[], a, rest, rfl, ha, by simp, by simp [← h]⟩
    · rename_i ha
      split at h
      · exact absurd h (by simp)
      · rename_i rest1 hrest
        simp only [Option.some.injEq] at h
        obtain ⟨pre, old, post, h1, h2, h3, h4⟩ := ih hrest
        refine ⟨a :: pre, old, post, by simp [h1], h2, ?_, by simp [← h, h4]⟩
        intro x hx
        rcases List.mem_cons.mp hx with rfl | hx
        · exact ha
        · exact h3 x hx

theorem pipeline_eq_some {allocs : List AllocOp} {readBodys : List (List Operation)}
    {buffer fresh : Value} {compute_at : AffineForOp} {others : List Operation}
    {r : PipelineResult}
    (h : pipeline allocs readBodys buffer compute_at others fresh = some r) :
    r.buffer = fresh ∧ ∃ allocs1, insertDoubleBuffer buffer fresh allocs = some allocs1 ∧
      r.allocs = allocs1.filter (fun a => a.result != buffer) := by
  unfold pipeline at h
  cases hins : insertDoubleBuffer buffer fresh allocs with
  | none =>
    simp only [hins] at h
    exact absurd h (by simp)
  | some allocs1 =>
    simp only [hins] at h
    refine ⟨?_, allocs1, rfl, ?_⟩
    all_goals
      repeat' split at h
      all_goals
        cases h
        try rfl

/-- C10 (pipeline, double buffer). When `pipeline` returns, the caller's buffer
handle is bound to the new buffer, and among the allocations (each defining a
distinct value) the one that defined the old buffer has been replaced, at the
same place, by an allocation of the new buffer whose shape is the old shape with
a leading dimension of size 2 and whose element type and memory space are the
old ones; the other allocations are untouched. -/
theorem pipeline_double_buffer (allocs : List AllocOp) (readBodys : List (List Operation))
    (buffer fresh : Value) (compute_at : AffineForOp) (others : List Operation)
    (r : PipelineResult)
    (h : pipeline allocs readBodys buffer compute_at others fresh = some r)
    (hssa : (allocs.map AllocOp.result).Nodup) (hfresh : fresh ≠ buffer) :
    r.buffer = fresh ∧
    ∃ pre old post, allocs = pre ++ old :: post ∧ old.result = buffer ∧
      r.allocs = pre ++
        { result := fresh,
          type := { shape := 2 :: old.type.shape, elementType := old.type.elementType,
                    memorySpace := old.type.memorySpace } } :: post ∧
      ∀ a ∈ r.allocs, a.result ≠ buffer := by
  obtain ⟨hbuf, allocs1, hins, hall⟩ := pipeline_eq_some h
  obtain ⟨pre, old, post, h1, h2, h3, h4⟩ := insertDoubleBuffer_eq_some hins
  have hpost : ∀ a ∈ post, a.result ≠ buffer := by
    intro a ha hab
    rw [h1, List.map_append, List.map_cons] at hssa
    have hnd := (List.nodup_append.mp hssa).2.1
    rw [List.nodup_cons] at hnd
    apply hnd.1
    rw [h2, ← hab]
    exact List.mem_map_of_mem _ ha
  have hfilter : r.allocs = pre ++
      { result := fresh, type := doubleBufferType old.type } :: post := by
    rw [hall, h4, List.filter_append, List.filter_cons, List.filter_cons]
    have e1 : List.filter (fun a => a.result != buffer) pre = pre :=
      List.filter_eq_self.mpr (fun a ha => by simpa using h3 a ha)
    have e2 : List.filter (fun a => a.result != buffer) post = post :=
      List.filter_eq_self.mpr (fun a ha => by simpa using hpost a ha)
    simp [e1, e2, h2, hfresh]
  refine ⟨hbuf, pre, old, post, h1, h2, hfilter, ?_⟩
  intro a ha
  rw [hfilter] at ha
  rcases List.mem_append.mp ha with ha | ha
  · exact h3 a ha
  · rcases List.mem_cons.mp ha with rfl | ha
    · exact hfresh
    · exact hpost a ha

/-- Witness of `pipeline_double_buffer`: a shared buffer `%100` of shape `[8]`
between two other allocations, one read body and one consumer load. -/
theorem pipeline_double_buffer_witness :
    (300 : Value) = 300 ∧
    ∃ pre old post,
      [({ result := 99, type := { shape := [4], elementType := 0, memorySpace := 1 } } : AllocOp),
        { result := 100, type := { shape := [8], elementType := 0, memorySpace := 3 } },
        { result := 101, type := { shape := [16], elementType := 0, memorySpace := 3 } }]
        = pre ++ old :: post ∧ old.result = 100 ∧
      [({ result := 99, type := { shape := [4], elementType := 0, memorySpace := 1 } } : AllocOp),
        { result := 300, type := { shape := [2, 8], elementType := 0, memorySpace := 3 } },
        { result := 101, type := { shape := [16], elementType := 0, memorySpace := 3 } }]
        = pre ++
        { result := 300,
          type := { shape := 2 :: old.type.shape, elementType := old.type.elementType,
                    memorySpace := old.type.memorySpace } } :: post ∧
      ∀ a ∈
        [({ result := 99, type := { shape := [4], elementType := 0, memorySpace := 1 } } : AllocOp),
          { result := 300, type := { shape := [2, 8], elementType := 0, memorySpace := 3 } },
          { result := 101, type := { shape := [16], elementType := 0, memorySpace := 3 } }],
        a.result ≠ 100 :=
  pipeline_double_buffer
    [{ result := 99, type := { shape := [4], elementType := 0, memorySpace := 1 } },
      { result := 100, type := { shape := [8], elementType := 0, memorySpace := 3 } },
      { result := 101, type := { shape := [16], elementType := 0, memorySpace := 3 } }]
    [[{ kind := .AffineVectorStoreOp, memref := 100, storedValue := 50,
        map := { numDims := 1, numSymbols := 0, results := [.dim 0] }, mapOperands := [9] }]]
    100 300 (AffineForOp.ofConstants 0 64 16 7)
    [{ kind := .AffineVectorLoadOp, memref := 100, storedValue := 0,
       map := { numDims := 1, numSymbols := 0, results := [.dim 0] }, mapOperands := [11] }]
    { allocs :=
        [{ result := 99, type := { shape := [4], elementType := 0, memorySpace := 1 } },
          { result := 300, type := { shape := [2, 8], elementType := 0, memorySpace := 3 } },
          { result := 101, type := { shape := [16], elementType := 0, memorySpace := 3 } }]
      buffer := 300
      lbOp := (301, 0)
      prologue :=
        [[{ kind := .AffineVectorStoreOp, memref := 300, storedValue := 50,
            map := { numDims := 1, numSymbols := 0, results := [.const 0, .dim 0] },
            mapOperands := [9] }]]
      guard := prefetchGuard 64 16
      guardOperands := [7]
      readBodys :=
        [[{ kind := .AffineVectorStoreOp, memref := 300, storedValue := 50,
            map := { numDims := 2, numSymbols := 0,
                     results := [prefetchSlotExpr 1 16, .dim 0] },
            mapOperands := [9, 7] }]]
      others :=
        [{ kind := .AffineVectorLoadOp, memref := 300, storedValue := 0,
           map := { numDims := 2, numSymbols := 0,
                    results := [consumeSlotExpr 1 16, .dim 0] },
           mapOperands := [11, 7] }] }
    (by rfl) (by decide) (by decide)

/-! ### `take_off_true_if` and `delete_false_if` -/

/-- C11 (take_off_true_if, failing input). The guard `d0 - d1 >= 0` on the
induction variables `%1`, `%2` of two loops `[0, 4)` is non-negative at the two
assignments the pass evaluates (all maxima `3, 3`, all minima `0, 0`), so the
conditional is replaced by its body; yet the assignment `%1 = 0, %2 = 3` lies
within the static ranges and violates the guard. -/
theorem takeOffTrueIf_splices_unproved_guard :
    takeOffTrueIf (fun v => .forOp (AffineForOp.ofConstants 0 4 1 v))
        { constraints := [(.binary .Add (.dim 0) (.binary .Mul (.dim 1) (.const (-1))), false)],
          operands := [1, 2] } = some .spliced ∧
    withinRanges (fun v => .forOp (AffineForOp.ofConstants 0 4 1 v)) [1, 2] [0, 3] = true ∧
    AffineIfOp.holds
        { constraints := [(.binary .Add (.dim 0) (.binary .Mul (.dim 1) (.const (-1))), false)],
          operands := [1, 2] } [0, 3] = false := by
  decide

/-- C12 (delete_false_if, failing input). The guard `d0 - 1 == 0` on the
induction variable `%1` of a loop `[0, 3)` is non-zero at the maximum 2 and at
the minimum 0, so the conditional is erased with its body; yet `%1 = 1` lies
within the static range and satisfies the guard. -/
theorem deleteFalseIf_deletes_satisfiable_guard :
    deleteFalseIf (fun v => .forOp (AffineForOp.ofConstants 0 3 1 v))
        { constraints := [(.binary .Add (.dim 0) (.const (-1)), true)], operands := [1] }
      = some .deleted ∧
    withinRanges (fun v => .forOp (AffineForOp.ofConstants 0 3 1 v)) [1] [1] = true ∧
    AffineIfOp.holds
        { constraints := [(.binary .Add (.dim 0) (.const (-1)), true)], operands := [1] } [1]
      = true := by
  decide

theorem operandRanges_forOp (owner : Value → OperandOwner) (iv loopIv : Value)
    (lb ub step : Int) (hown : owner iv = .forOp (AffineForOp.ofConstants lb ub step loopIv)) :
    operandRanges owner [iv] [] [] = some (some ([ub - 1], [lb])) := by
  simp [operandRanges, hown, getMaxValue, getMinValue, AffineForOp.hasConstantBounds,
    AffineForOp.getConstantLowerBound, AffineForOp.getConstantUpperBound,
    AffineForOp.ofConstants, AffineMap.constant, AffineMap.getSingleConstantResult]

/-- C13 (single inequality). For the guard `i - c >= 0` (the expression
`d0 + (-c)`) on the induction variable of a loop with constant bounds
`[lb, ub)`, `lb < ub`: `take_off_true_if` replaces the conditional by its body
exactly when `lb >= c`, `delete_false_if` erases it exactly when `ub - 1 < c`,
and neither pass aborts. -/
theorem if_single_inequality (owner : Value → OperandOwner) (iv loopIv : Value)
    (lb ub step c : Int)
    (hown : owner iv = .forOp (AffineForOp.ofConstants lb ub step loopIv)) (hlt : lb < ub) :
    (takeOffTrueIf owner
        { constraints := [(.binary .Add (.dim 0) (.const (-c)), false)], operands := [iv] }
      = some .spliced ↔ c ≤ lb) ∧
    (takeOffTrueIf owner
        { constraints := [(.binary .Add (.dim 0) (.const (-c)), false)], operands := [iv] }
      = some .kept ↔ lb < c) ∧
    (deleteFalseIf owner
        { constraints := [(.binary .Add (.dim 0) (.const (-c)), false)], operands := [iv] }
      = some .deleted ↔ ub - 1 < c) ∧
    (deleteFalseIf owner
        { constraints := [(.binary .Add (.dim 0) (.const (-c)), false)], operands := [iv] }
      = some .kept ↔ c ≤ ub - 1) := by
  have hr := operandRanges_forOp owner iv loopIv lb ub step hown
  have ht : takeOffTrueIf owner
      { constraints := [(.binary .Add (.dim 0) (.const (-c)), false)], operands := [iv] }
      = if c ≤ lb then some .spliced else some .kept := by
    simp only [takeOffTrueIf, hr, takeOffResult, eval, List.getElem?_cons_zero]
    by_cases h : c ≤ lb
    · have h1 : ¬ (ub - 1 + -c < 0 ∨ lb + -c < 0) := by omega
      rw [if_pos h]
      simp only [Bool.false_eq_true, if_false, if_neg h1, if_true]
    · have h1 : ub - 1 + -c < 0 ∨ lb + -c < 0 := by omega
      rw [if_neg h]
      simp only [Bool.false_eq_true, if_false, if_pos h1]
  have hd : deleteFalseIf owner
      { constraints := [(.binary .Add (.dim 0) (.const (-c)), false)], operands := [iv] }
      = if ub - 1 < c then some .deleted else some .kept := by
    simp only [deleteFalseIf, hr, deleteCount, eval, List.getElem?_cons_zero]
    by_cases h : ub - 1 < c
    · have h1 : ub - 1 + -c < 0 := by omega
      have h2 : lb + -c < 0 := by omega
      rw [if_pos h]
      simp only [Bool.false_eq_true, if_false, if_pos h1, if_pos h2, List.length_singleton,
        zero_add, if_true]
    · have h1 : ¬ (ub - 1 + -c < 0) := by omega
      rw [if_neg h]
      simp only [Bool.false_eq_true, if_false, if_neg h1, List.length_singleton]
      rfl
  rw [ht, hd]
  refine ⟨?_, ?_, ?_, ?_⟩
  · by_cases h : c ≤ lb <;> simp [h]
  · by_cases h : c ≤ lb
    · simp [h]
    · simp [h]
      omega
  · by_cases h : ub - 1 < c <;> simp [h]
  · by_cases h : ub - 1 < c
    · simp [h]
    · simp [h]
      omega

/-- Witness of `if_single_inequality`: `c = 4`, with the loop `[4, 8)` (spliced)
and with the loop `[0, 4)` (deleted). -/
theorem if_single_inequality_witness :
    ((takeOffTrueIf (fun v => .forOp (AffineForOp.ofConstants 4 8 1 v))
        { constraints := [(.binary .Add (.dim 0) (.const (-4)), false)], operands := [1] }
      = some .spliced ↔ (4 : Int) ≤ 4) ∧
    (takeOffTrueIf (fun v => .forOp (AffineForOp.ofConstants 4 8 1 v))
        { constraints := [(.binary .Add (.dim 0) (.const (-4)), false)], operands := [1] }
      = some .kept ↔ (4 : Int) < 4) ∧
    (deleteFalseIf (fun v => .forOp (AffineForOp.ofConstants 4 8 1 v))
        { constraints := [(.binary .Add (.dim 0) (.const (-4)), false)], operands := [1] }
      = some .deleted ↔ (8 : Int) - 1 < 4) ∧
    (deleteFalseIf (fun v => .forOp (AffineForOp.ofConstants 4 8 1 v))
        { constraints := [(.binary .Add (.dim 0) (.const (-4)), false)], operands := [1] }
      = some .kept ↔ (4 : Int) ≤ 8 - 1)) ∧
    ((takeOffTrueIf (fun v => .forOp (AffineForOp.ofConstants 0 4 1 v))
        { constraints := [(.binary .Add (.dim 0) (.const (-4)), false)], operands := [1] }
      = some .spliced ↔ (4 : Int) ≤ 0) ∧
    (takeOffTrueIf (fun v => .forOp (AffineForOp.ofConstants 0 4 1 v))
        { constraints := [(.binary .Add (.dim 0) (.const (-4)), false)], operands := [1] }
      = some .kept ↔ (0 : Int) < 4) ∧
    (deleteFalseIf (fun v => .forOp (AffineForOp.ofConstants 0 4 1 v))
        { constraints := [(.binary .Add (.dim 0) (.const (-4)), false)], operands := [1] }
      = some .deleted ↔ (4 : Int) - 1 < 4) ∧
    (deleteFalseIf (fun v => .forOp (AffineForOp.ofConstants 0 4 1 v))
        { constraints := [(.binary .Add (.dim 0) (.const (-4)), false)], operands := [1] }
      = some .kept ↔ (4 : Int) ≤ 4 - 1)) :=
  ⟨if_single_inequality (fun v => .forOp (AffineForOp.ofConstants 4 8 1 v)) 1 1 4 8 1 4 rfl
      (by decide),
    if_single_inequality (fun v => .forOp (AffineForOp.ofConstants 0 4 1 v)) 1 1 0 4 1 4 rfl
      (by decide)⟩

theorem bounded_ranges {d : OperandOwner} (h : d.bounded = true) :
    ∃ maxValue minValue, getMaxValue d = some (true, maxValue) ∧
      getMinValue d = some (true, minValue) := by
  cases d with
  | constantIndex c => exact ⟨c, c, rfl, rfl⟩
  | other => simp [OperandOwner.bounded] at h
  | forOp l =>
    simp only [OperandOwner.bounded] at h
    have h2 := h
    simp only [AffineForOp.hasConstantBounds, Bool.and_eq_true, Option.isSome_iff_exists] at h2
    obtain ⟨⟨lb, hlb⟩, ⟨ub, hub⟩⟩ := h2
    exact ⟨ub - 1, lb, by simp [getMaxValue, h, hub], by simp [getMinValue, h, hlb]⟩

theorem operandRanges_append_bounded (owner : Value → OperandOwner) (rest : List Value) :
    ∀ (pre : List Value) (maxValues minValues : List Int),
      (∀ u ∈ pre, (owner u).bounded = true) →
      ∃ maxValues1 minValues1,
        operandRanges owner (pre ++ rest) maxValues minValues
          = operandRanges owner rest maxValues1 minValues1 := by
  intro pre
  induction pre with
  | nil => intro maxValues minValues _; exact ⟨maxValues, minValues, rfl⟩
  | cons u pre ih =>
    intro maxValues minValues h
    obtain ⟨mx, mn, h1, h2⟩ := bounded_ranges (h u (List.mem_cons_self _ _))
    obtain ⟨a, b, hab⟩ := ih (maxValues ++ [mx]) (minValues ++ [mn])
      (fun x hx => h x (List.mem_cons_of_mem _ hx))
    refine ⟨a, b, ?_⟩
    rw [List.cons_append, operandRanges, h1]
    simp only
    rw [h2]
    exact hab

/-- C14 (unbounded operand, counterexample). A conditional whose operand is
neither an index constant nor a loop induction variable (for instance a thread
index of an `affine.parallel`) makes both passes fail the `assert(false)` of
`getMaxValue`. -/
theorem if_passes_abort_on_other_operand :
    takeOffTrueIf (fun _ => .other)
        { constraints := [(.binary .Add (.dim 0) (.const (-4)), false)], operands := [1] }
      = none ∧
    deleteFalseIf (fun _ => .other)
        { constraints := [(.binary .Add (.dim 0) (.const (-4)), false)], operands := [1] }
      = none ∧
    OperandOwner.bounded .other = false := by
  decide

/-- C14 (unbounded operand, amended). Let the operands before `v` be index
constants or induction variables of loops with constant bounds. If `v` is the
induction variable of a loop without constant bounds, both passes leave the
conditional in place and do not abort; if `v` is neither an index constant nor a
loop induction variable, both passes abort. -/
theorem if_passes_on_unbounded_operand (owner : Value → OperandOwner) (ifOp : AffineIfOp)
    (pre post : List Value) (v : Value) (hops : ifOp.operands = pre ++ v :: post)
    (hpre : ∀ u ∈ pre, (owner u).bounded = true) :
    ((∃ l, owner v = .forOp l ∧ l.hasConstantBounds = false) →
      takeOffTrueIf owner ifOp = some .kept ∧ deleteFalseIf owner ifOp = some .kept) ∧
    (owner v = .other → takeOffTrueIf owner ifOp = none ∧ deleteFalseIf owner ifOp = none) := by
  obtain ⟨a, b, hab⟩ := operandRanges_append_bounded owner (v :: post) pre [] [] hpre
  constructor
  · rintro ⟨l, hl, hc⟩
    have hr : operandRanges owner ifOp.operands [] [] = some none := by
      rw [hops, hab]
      simp [operandRanges, hl, getMaxValue, hc]
    simp [takeOffTrueIf, deleteFalseIf, hr]
  · intro hother
    have hr : operandRanges owner ifOp.operands [] [] = none := by
      rw [hops, hab]
      simp [operandRanges, hother, getMaxValue]
    simp [takeOffTrueIf, deleteFalseIf, hr]

/-- Witness of `if_passes_on_unbounded_operand`: the operands are the index
constant `%1` and the induction variable `%2` of a loop whose upper bound is the
map `(d0) -> (d0)`. -/
theorem if_passes_on_unbounded_operand_witness :
    ((∃ l, (fun v => if v = 1 then OperandOwner.constantIndex 5 else
          .forOp { lowerBoundMap := AffineMap.constant 0,
                   upperBoundMap := { numDims := 1, numSymbols := 0, results := [.dim 0] },
                   step := 1, inductionVar := 2 }) 2 = .forOp l ∧
        l.hasConstantBounds = false) →
      takeOffTrueIf (fun v => if v = 1 then OperandOwner.constantIndex 5 else
          .forOp { lowerBoundMap := AffineMap.constant 0,
                   upperBoundMap := { numDims := 1, numSymbols := 0, results := [.dim 0] },
                   step := 1, inductionVar := 2 })
        { constraints := [(.binary .Add (.dim 1) (.binary .Mul (.dim 0) (.const (-1))), false)],
          operands := [1, 2] } = some .kept ∧
      deleteFalseIf (fun v => if v = 1 then OperandOwner.constantIndex 5 else
          .forOp { lowerBoundMap := AffineMap.constant 0,
                   upperBoundMap := { numDims := 1, numSymbols := 0, results := [.dim 0] },
                   step := 1, inductionVar := 2 })
        { constraints := [(.binary .Add (.dim 1) (.binary .Mul (.dim 0) (.const (-1))), false)],
          operands := [1, 2] } = some .kept) ∧
    ((fun v => if v = 1 then OperandOwner.constantIndex 5 else
          .forOp { lowerBoundMap := AffineMap.constant 0,
                   upperBoundMap := { numDims := 1, numSymbols := 0, results := [.dim 0] },
                   step := 1, inductionVar := 2 }) 2 = .other →
      takeOffTrueIf (fun v => if v = 1 then OperandOwner.constantIndex 5 else
          .forOp { lowerBoundMap := AffineMap.constant 0,
                   upperBoundMap := { numDims := 1, numSymbols := 0, results := [.dim 0] },
                   step := 1, inductionVar := 2 })
        { constraints := [(.binary .Add (.dim 1) (.binary .Mul (.dim 0) (.const (-1))), false)],
          operands := [1, 2] } = none ∧
      deleteFalseIf (fun v => if v = 1 then OperandOwner.constantIndex 5 else
          .forOp { lowerBoundMap := AffineMap.constant 0,
                   upperBoundMap := { numDims := 1, numSymbols := 0, results := [.dim 0] },
                   step := 1, inductionVar := 2 })
        { constraints := [(.binary .Add (.dim 1) (.binary .Mul (.dim 0) (.const (-1))), false)],
          operands := [1, 2] } = none) :=
  if_passes_on_unbounded_operand
    (fun v => if v = 1 then OperandOwner.constantIndex 5 else
      .forOp { lowerBoundMap := AffineMap.constant 0,
               upperBoundMap := { numDims := 1, numSymbols := 0, results := [.dim 0] },
               step := 1, inductionVar := 2 })
    { constraints := [(.binary .Add (.dim 1) (.binary .Mul (.dim 0) (.const (-1))), false)],
      operands := [1, 2] }
    [1] [] 2 rfl (by decide)

/-! ### `KernelCodeGenerator::optimize` -/

theorem foldl_invariant {α β : Type} (f : β → α → β) (P : β → Prop)
    (hstep : ∀ b a, P b → P (f b a)) : ∀ (l : List α) (b : β), P b → P (l.foldl f b) := by
  intro l
  induction l with
  | nil => intro b h; exact h
  | cons a rest ih => intro b h; exact ih _ (hstep b a h)

theorem sweep_invariant {M L : Type} [LinearOrder L] (gen : KernelCodeGenerator M L)
    (opt : Optimizer M) (P : SearchState M L → Prop)
    (hstep : ∀ s config, P s → P (attempt gen opt config s)) :
    ∀ (configs : List Config) (s : SearchState M L), P s → P (sweep gen opt configs s) := by
  intro configs
  induction configs with
  | nil => intro s h; exact h
  | cons config rest ih => intro s h; exact ih _ (hstep s config h)

theorem optimizeStep_invariant {M L : Type} [LinearOrder L] (gen : KernelCodeGenerator M L)
    (P : SearchState M L → Prop)
    (hbackup : ∀ s, P s → P (backupModule s))
    (hreset : ∀ s, P s → P (resetModule s))
    (htry : ∀ opt config s, P s → P (tryOptimizer gen opt config s)) :
    ∀ s opt, P s → P (optimizeStep gen s opt) := by
  intro s opt h
  unfold optimizeStep
  cases gen.configsOf opt with
  | none => exact htry _ _ _ (hbackup s h)
  | some configs =>
    exact sweep_invariant gen opt P (fun s config hs => htry _ _ _ (hreset s hs)) configs _
      (hbackup s h)

theorem tryOptimizer_cases {M L : Type} [LinearOrder L] (gen : KernelCodeGenerator M L)
    (opt : Optimizer M) (config : Option Config) (s : SearchState M L) :
    (opt.applicable config s.module = true ∧
      gen.evaluate (opt.applyOptimzer config s.module) < s.minLatency ∧
      (tryOptimizer gen opt config s).bestModule = opt.applyOptimzer config s.module ∧
      (tryOptimizer gen opt config s).minLatency
        = gen.evaluate (opt.applyOptimzer config s.module)) ∨
    (¬ (opt.applicable config s.module = true ∧
        gen.evaluate (opt.applyOptimzer config s.module) < s.minLatency) ∧
      (tryOptimizer gen opt config s).bestModule = s.bestModule ∧
      (tryOptimizer gen opt config s).minLatency = s.minLatency) := by
  unfold tryOptimizer
  by_cases ha : opt.applicable config s.module = true
  · by_cases hl : gen.evaluate (opt.applyOptimzer config s.module) < s.minLatency
    · left
      simp [ha, hl, saveBestModule]
    · right
      simp [ha, hl]
  · right
    simp [ha]

theorem tryOptimizer_minLatency_le {M L : Type} [LinearOrder L] (gen : KernelCodeGenerator M L)
    (opt : Optimizer M) (config : Option Config) (s : SearchState M L) :
    (tryOptimizer gen opt config s).minLatency ≤ s.minLatency := by
  rcases tryOptimizer_cases gen opt config s with ⟨_, h2, _, h4⟩ | ⟨_, _, h4⟩
  · rw [h4]; exact le_of_lt h2
  · rw [h4]

theorem optimizeStep_minLatency_le {M L : Type} [LinearOrder L] (gen : KernelCodeGenerator M L)
    (bound : L) (s : SearchState M L) (opt : Optimizer M) (h : s.minLatency ≤ bound) :
    (optimizeStep gen s opt).minLatency ≤ bound := by
  apply optimizeStep_invariant gen (fun s => s.minLatency ≤ bound) _ _ _ s opt h
  · intro s h; exact h
  · intro s h; exact h
  · intro opt config s h
    exact le_trans (tryOptimizer_minLatency_le gen opt config s) h

/-- C16 (strict improvement). The recording block of every attempt replaces the
best module or the minimum only when the optimizer was applicable and the
latency of the candidate is strictly less than the minimum; a candidate whose
latency equals the minimum leaves both as they were; and the minimum never
increases, over one attempt, over the sweep of one optimizer and over the whole
run. -/
theorem optimize_strict_improvement {M L : Type} [LinearOrder L]
    (gen : KernelCodeGenerator M L) (opt : Optimizer M) (config : Option Config)
    (s : SearchState M L) :
    (((tryOptimizer gen opt config s).bestModule ≠ s.bestModule ∨
        (tryOptimizer gen opt config s).minLatency ≠ s.minLatency) →
      opt.applicable config s.module = true ∧
        gen.evaluate (opt.applyOptimzer config s.module) < s.minLatency) ∧
    (gen.evaluate (opt.applyOptimzer config s.module) = s.minLatency →
      (tryOptimizer gen opt config s).bestModule = s.bestModule ∧
        (tryOptimizer gen opt config s).minLatency = s.minLatency) ∧
    (tryOptimizer gen opt config s).minLatency ≤ s.minLatency ∧
    (∀ c : Config, (attempt gen opt c s).minLatency ≤ s.minLatency) ∧
    (optimizeStep gen s opt).minLatency ≤ s.minLatency ∧
    (∀ baseline : M, (optimize gen baseline).minLatency ≤ gen.minLatency) := by
  refine ⟨?_, ?_, tryOptimizer_minLatency_le gen opt config s, ?_, ?_, ?_⟩
  · intro hne
    rcases tryOptimizer_cases gen opt config s with ⟨h1, h2, _, _⟩ | ⟨_, h3, h4⟩
    · exact ⟨h1, h2⟩
    · rcases hne with hne | hne
      · exact absurd h3 hne
      · exact absurd h4 hne
  · intro heq
    rcases tryOptimizer_cases gen opt config s with ⟨_, h2, _, _⟩ | ⟨_, h3, h4⟩
    · exact absurd heq (ne_of_lt h2)
    · exact ⟨h3, h4⟩
  · intro c
    exact tryOptimizer_minLatency_le gen opt (some c) (resetModule s)
  · exact optimizeStep_minLatency_le gen s.minLatency s opt (le_refl _)
  · intro baseline
    unfold optimize
    apply foldl_invariant (optimizeStep gen) (fun s => s.minLatency ≤ gen.minLatency)
    · intro s opt h
      exact optimizeStep_minLatency_le gen gen.minLatency s opt h
    · exact le_refl _

/-- The calls recorded by one run of the common block: none but the failed test
when `applicable` is false, the test, the transformation and one evaluation when
it is true. -/
theorem tryOptimizer_log {M L : Type} [LinearOrder L] (gen : KernelCodeGenerator M L)
    (opt : Optimizer M) (config : Option Config) (s : SearchState M L) :
    (tryOptimizer gen opt config s).log
      = s.log ++ (if opt.applicable config s.module = true then
          [Event.applicable opt.name s.module true, Event.applyOptimzer opt.name s.module,
           Event.evaluate (opt.applyOptimzer config s.module)]
        else [Event.applicable opt.name s.module false]) := by
  unfold tryOptimizer
  by_cases ha : opt.applicable config s.module = true
  · by_cases hl : gen.evaluate (opt.applyOptimzer config s.module) < s.minLatency
    · simp [ha, hl, saveBestModule]
    · simp [ha, hl]
  · simp [ha]

theorem tryOptimizer_counts {M L : Type} [LinearOrder L] (gen : KernelCodeGenerator M L)
    (opt : Optimizer M) (config : Option Config) (s : SearchState M L)
    (h : s.log.countP Event.isEvaluate = s.log.countP Event.isApplicableTrue ∧
      s.log.countP Event.isApply = s.log.countP Event.isApplicableTrue) :
    (tryOptimizer gen opt config s).log.countP Event.isEvaluate
        = (tryOptimizer gen opt config s).log.countP Event.isApplicableTrue ∧
      (tryOptimizer gen opt config s).log.countP Event.isApply
        = (tryOptimizer gen opt config s).log.countP Event.isApplicableTrue := by
  rw [tryOptimizer_log]
  by_cases ha : opt.applicable config s.module = true
  · simp [ha, List.countP_append, List.countP_cons, Event.isEvaluate, Event.isApply,
      Event.isApplicableTrue, h.1, h.2]
  · simp [ha, List.countP_append, List.countP_cons, Event.isEvaluate, Event.isApply,
      Event.isApplicableTrue, h.1, h.2]

/-- C18 (inapplicable attempts). An attempt whose `applicable` test is false
changes nothing but the record of that test: no transformation, no evaluation,
the same best module and minimum, and the sweep goes on with the remaining
configurations. An attempt whose test is true records the test, one
transformation and one evaluation; over a whole run the evaluator is called as
often as `applicable` returned true, and so is `applyOptimzer`. -/
theorem optimize_skips_inapplicable {M L : Type} [LinearOrder L]
    (gen : KernelCodeGenerator M L) (opt : Optimizer M) (config : Option Config)
    (s : SearchState M L) :
    (opt.applicable config s.module = false →
      tryOptimizer gen opt config s
        = { s with log := s.log ++ [Event.applicable opt.name s.module false] }) ∧
    (opt.applicable config s.module = true →
      (tryOptimizer gen opt config s).log
        = s.log ++ [Event.applicable opt.name s.module true,
            Event.applyOptimzer opt.name s.module,
            Event.evaluate (opt.applyOptimzer config s.module)]) ∧
    (∀ (c : Config) (rest : List Config),
      opt.applicable (some c) (resetModule s).module = false →
      attempt gen opt c s
          = { resetModule s with
              log := s.log ++ [Event.applicable opt.name (resetModule s).module false] } ∧
        sweep gen opt (c :: rest) s = sweep gen opt rest (attempt gen opt c s)) ∧
    (∀ baseline : M,
      (optimize gen baseline).log.countP Event.isEvaluate
          = (optimize gen baseline).log.countP Event.isApplicableTrue ∧
        (optimize gen baseline).log.countP Event.isApply
          = (optimize gen baseline).log.countP Event.isApplicableTrue) := by
  refine ⟨?_, ?_, ?_, ?_⟩
  · intro ha
    unfold tryOptimizer
    simp [ha]
  · intro ha
    rw [tryOptimizer_log]
    simp [ha]
  · intro c rest ha
    refine ⟨?_, rfl⟩
    unfold attempt tryOptimizer
    rw [if_neg (by simp [ha])]
    rfl
  · intro baseline
    unfold optimize
    apply foldl_invariant (optimizeStep gen)
      (fun s => s.log.countP Event.isEvaluate = s.log.countP Event.isApplicableTrue ∧
        s.log.countP Event.isApply = s.log.countP Event.isApplicableTrue)
    · apply optimizeStep_invariant
      · intro s h; exact h
      · intro s h; exact h
      · intro opt config s h
        exact tryOptimizer_counts gen opt config s h
    · simp [initialState, saveBestModule]


/-! ### `KernelCodeGenerator::optimize`: the baseline and the working module -/

theorem tryOptimizer_log_events {M L : Type} [LinearOrder L] (gen : KernelCodeGenerator M L)
    (opt : Optimizer M) (config : Option Config) (s : SearchState M L) :
    (tryOptimizer gen opt config s).log = s.log ++ attemptEvents opt config s.module ∧
    (tryOptimizer gen opt config s).baseline = s.baseline := by
  unfold tryOptimizer attemptEvents
  by_cases ha : opt.applicable config s.module = true
  · by_cases hl : gen.evaluate (opt.applyOptimzer config s.module) < s.minLatency
    · simp [ha, hl, saveBestModule]
    · simp [ha, hl]
  · simp [ha]

theorem sweep_log_events {M L : Type} [LinearOrder L] (gen : KernelCodeGenerator M L)
    (opt : Optimizer M) :
    ∀ (configs : List Config) (s : SearchState M L),
      (sweep gen opt configs s).log
        = s.log ++ configs.flatMap (fun c => attemptEvents opt (some c) s.baseline) ∧
      (sweep gen opt configs s).baseline = s.baseline := by
  intro configs
  induction configs with
  | nil => intro s; simp [sweep]
  | cons c rest ih =>
    intro s
    obtain ⟨h1, h2⟩ := tryOptimizer_log_events gen opt (some c) (resetModule s)
    obtain ⟨i1, i2⟩ := ih (attempt gen opt c s)
    have hb : (attempt gen opt c s).baseline = s.baseline := h2
    have hl : (attempt gen opt c s).log = s.log ++ attemptEvents opt (some c) s.baseline := h1
    rw [sweep, i1, i2, hb, hl, List.flatMap_cons, List.append_assoc]
    exact ⟨rfl, rfl⟩

theorem optimize_log_events {M L : Type} [LinearOrder L] (gen : KernelCodeGenerator M L) :
    ∀ (opts : List (Optimizer M)) (s : SearchState M L),
      (∀ opt ∈ opts, (gen.configsOf opt).isSome = true) →
      (opts.foldl (optimizeStep gen) s).log
        = s.log ++ opts.flatMap (fun opt =>
            ((gen.configsOf opt).getD []).flatMap
              (fun c => attemptEvents opt (some c) s.baseline)) ∧
      (opts.foldl (optimizeStep gen) s).baseline = s.baseline := by
  intro opts
  induction opts with
  | nil => intro s _; simp
  | cons opt rest ih =>
    intro s hall
    have hopt := hall opt (List.mem_cons_self _ _)
    cases hc : gen.configsOf opt with
    | none => rw [hc] at hopt; cases hopt
    | some configs =>
      obtain ⟨h1, h2⟩ := sweep_log_events gen opt configs (backupModule s)
      have hstep : optimizeStep gen s opt = sweep gen opt configs (backupModule s) := by
        unfold optimizeStep
        rw [hc]
      obtain ⟨i1, i2⟩ := ih (optimizeStep gen s opt)
        (fun o ho => hall o (List.mem_cons_of_mem _ ho))
      rw [List.foldl_cons, i1, i2, hstep, h1, h2, List.flatMap_cons, hc, List.append_assoc]
      exact ⟨rfl, rfl⟩

/-- C15 (search result, failing inputs). `optimize` calls the evaluator once per
`applyOptimzer` and never on the baseline, and it assigns `minLatency` only when
a candidate is strictly faster. With a Matmul optimizer that is never
applicable, a baseline of latency 5 and the value 100 in `minLatency` on entry,
the run ends with the baseline as best module and the minimum 100: above the
latency of the baseline and not the latency of the best module. With the value
0 on entry and an applicable optimizer whose result has latency 3, the result is
evaluated but not recorded: the best module is the baseline, of latency 5, and
the minimum is 0. -/
theorem optimize_never_evaluates_baseline {M L : Type} [LinearOrder L]
    (gen : KernelCodeGenerator M L) (graphModule : M) :
    ((optimize gen graphModule).log.countP Event.isEvaluate
        = (optimize gen graphModule).log.countP Event.isApply) ∧
    (optimize { gen with opts := [] } graphModule).log = [] ∧
    (optimize { gen with opts := [] } graphModule).minLatency = gen.minLatency ∧
    (optimize { gen with opts := [] } graphModule).bestModule = graphModule ∧
    (optimize (singleGenerator 100 false) []).log = [Event.applicable "Matmul" [] false] ∧
    (optimize (singleGenerator 100 false) []).bestModule = [] ∧
    (optimize (singleGenerator 100 false) []).minLatency = 100 ∧
    (singleGenerator 100 false).evaluate [] = 5 ∧
    (optimize (singleGenerator 0 true) []).log
      = [Event.applicable "Matmul" [] true, Event.applyOptimzer "Matmul" [],
         Event.evaluate ["matmul"]] ∧
    (singleGenerator 0 true).evaluate ["matmul"] = 3 ∧
    (optimize (singleGenerator 0 true) []).bestModule = [] ∧
    (optimize (singleGenerator 0 true) []).minLatency = 0 := by
  refine ⟨?_, rfl, rfl, rfl, by decide, by decide, by decide, by decide, by decide, by decide,
    by decide, by decide⟩
  have key : (optimize gen graphModule).log.countP Event.isEvaluate
        = (optimize gen graphModule).log.countP Event.isApplicableTrue ∧
      (optimize gen graphModule).log.countP Event.isApply
        = (optimize gen graphModule).log.countP Event.isApplicableTrue := by
    unfold optimize
    apply foldl_invariant (optimizeStep gen)
      (fun s => s.log.countP Event.isEvaluate = s.log.countP Event.isApplicableTrue ∧
        s.log.countP Event.isApply = s.log.countP Event.isApplicableTrue)
    · apply optimizeStep_invariant
      · intro s h; exact h
      · intro s h; exact h
      · intro opt config s h
        exact tryOptimizer_counts gen opt config s h
    · simp [initialState, saveBestModule]
  rw [key.1, key.2]

/-- C17 (working module). With `resetModule` cloning the baseline into the
working module, as the spec describes it, and every optimizer of the list being
one of the seven that `optimize` compares with (the ones `Optimizer.h`
defines): the calls of a run are, optimizer by optimizer and configuration by
configuration, the calls of an attempt that starts from the baseline, so every
`applicable` and every `applyOptimzer` runs on the baseline clone, never on a
module an earlier attempt or an earlier optimizer has transformed. -/
theorem optimize_attempts_on_baseline {M L : Type} [LinearOrder L]
    (gen : KernelCodeGenerator M L) (graphModule : M)
    (hseven : ∀ opt ∈ gen.opts, (gen.configsOf opt).isSome = true) :
    (optimize gen graphModule).log
      = gen.opts.flatMap (fun opt =>
          ((gen.configsOf opt).getD []).flatMap
            (fun c => attemptEvents opt (some c) graphModule)) ∧
    ∀ e ∈ (optimize gen graphModule).log, ∀ m, e.workingModule = some m → m = graphModule := by
  have h := (optimize_log_events gen gen.opts (initialState gen graphModule) hseven).1
  have hlog : (optimize gen graphModule).log
      = gen.opts.flatMap (fun opt =>
          ((gen.configsOf opt).getD []).flatMap
            (fun c => attemptEvents opt (some c) graphModule)) := by
    unfold optimize
    rw [h]
    simp [initialState, saveBestModule]
  refine ⟨hlog, ?_⟩
  intro e he m hm
  rw [hlog, List.mem_flatMap] at he
  obtain ⟨opt, -, he⟩ := he
  rw [List.mem_flatMap] at he
  obtain ⟨c, -, he⟩ := he
  unfold attemptEvents at he
  split at he
  · simp only [List.mem_cons, List.mem_singleton, List.not_mem_nil, or_false] at he
    rcases he with rfl | rfl | rfl
    · simp only [Event.workingModule, Option.some.injEq] at hm
      exact hm.symm
    · simp only [Event.workingModule, Option.some.injEq] at hm
      exact hm.symm
    · simp [Event.workingModule] at hm
  · simp only [List.mem_singleton] at he
    subst he
    simp only [Event.workingModule, Option.some.injEq] at hm
    exact hm.symm

/-- Witness of `optimize_attempts_on_baseline`: the Matmul optimizer followed by
the Binary optimizer, both applicable; both are tested on and applied to the
baseline `[]`. -/
theorem optimize_attempts_on_baseline_witness :
    (optimize (chainedGenerator "Binary") []).log
      = [Event.applicable "Matmul" [] true, Event.applyOptimzer "Matmul" [],
         Event.evaluate ["matmul"],
         Event.applicable "Binary" [] true, Event.applyOptimzer "Binary" [],
         Event.evaluate ["second"]] ∧
    ((optimize (chainedGenerator "Binary") []).log
      = (chainedGenerator "Binary").opts.flatMap (fun opt =>
          (((chainedGenerator "Binary").configsOf opt).getD []).flatMap
            (fun c => attemptEvents opt (some c) [])) ∧
    ∀ e ∈ (optimize (chainedGenerator "Binary") []).log, ∀ m,
      e.workingModule = some m → m = []) :=
  ⟨by decide, optimize_attempts_on_baseline (chainedGenerator "Binary") [] (by decide)⟩

/-! ### `Rewriter::cache_read` and `Rewriter::cache_write` -/

theorem ScopeOp.mapUses_mapUses (f g : Value → Value) (o : ScopeOp) :
    (o.mapUses f).mapUses g = o.mapUses (fun v => g (f v)) := by
  unfold ScopeOp.mapUses
  simp only [ScopeOp.mk.injEq, Operation.mk.injEq, List.map_map, and_true, true_and]
  refine ⟨?_, ?_, ?_⟩
  · split <;> rfl
  · split <;> rfl
  · rfl

theorem ScopeOp.mapUses_of_fixed (f : Value → Value) (o : ScopeOp)
    (h : ∀ v ∈ o.uses, f v = v) : o.mapUses f = o := by
  cases o with
  | mk op result =>
    cases op with
    | mk kind memref storedValue map mapOperands =>
      simp only [ScopeOp.uses, List.mem_append] at h
      simp only [ScopeOp.mapUses, ScopeOp.mk.injEq, Operation.mk.injEq, and_true, true_and]
      refine ⟨?_, ?_, ?_⟩
      · split
        · rename_i hk
          exact h _ (Or.inl (Or.inr (by simp [hk])))
        · rfl
      · split
        · rename_i hk
          exact h _ (Or.inl (Or.inl (by simp [hk])))
        · rfl
      · conv_rhs => rw [← List.map_id mapOperands]
        apply List.map_congr_left
        intro v hv
        exact h v (Or.inr hv)

theorem isLoadOf_mapUses_replace (src r fresh : Value) (o : ScopeOp) (hr : r ≠ src)
    (hf : fresh ≠ src) :
    isLoadOf src (o.mapUses fun v => if v = r then fresh else v) = isLoadOf src o := by
  cases o with
  | mk op result =>
    cases op with
    | mk kind memref storedValue map mapOperands =>
      cases kind <;> simp [isLoadOf, ScopeOp.mapUses, OpKind.hasMemref]
      by_cases hm : memref = r
      · subst hm
        simp [hf, hr]
      · simp [hm]

theorem redirected_of_not_result (src : Value) (v : Value) :
    ∀ (l : List ScopeOp) (fresh : Value),
      (∀ o ∈ l, isLoadOf src o = true → o.result ≠ v) → redirected src l fresh v = v := by
  intro l
  induction l with
  | nil => intro fresh _; rfl
  | cons o rest ih =>
    intro fresh h
    unfold redirected
    by_cases ho : isLoadOf src o = true
    · have hne : v ≠ o.result := fun e => h o (List.mem_cons_self _ _) ho e.symm
      simp only [ho, if_true, if_neg hne]
      exact ih _ (fun p hp => h p (List.mem_cons_of_mem _ hp))
    · simp only [ho, Bool.false_eq_true, if_false]
      exact ih _ (fun p hp => h p (List.mem_cons_of_mem _ hp))

theorem redirected_map (src : Value) (f : Value → Value) (v : Value) :
    ∀ (l : List ScopeOp) (fresh : Value),
      (∀ o ∈ l, isLoadOf src (o.mapUses f) = isLoadOf src o) →
      redirected src (l.map (ScopeOp.mapUses f)) fresh v = redirected src l fresh v := by
  intro l
  induction l with
  | nil => intro fresh _; rfl
  | cons o rest ih =>
    intro fresh h
    simp only [List.map_cons, redirected, h o (List.mem_cons_self _ _)]
    have hres : (o.mapUses f).result = o.result := rfl
    rw [hres, ih (fresh + 1) (fun p hp => h p (List.mem_cons_of_mem _ hp)),
      ih fresh (fun p hp => h p (List.mem_cons_of_mem _ hp))]

theorem cachedReads_map (σ f : Value → Value) (src cached : Value) (map : AffineMap)
    (operands : List Value) :
    ∀ (l : List ScopeOp) (fresh : Value),
      (∀ o ∈ l, isLoadOf src (o.mapUses f) = isLoadOf src o) →
      cachedReads σ src cached map operands (l.map (ScopeOp.mapUses f)) fresh
        = cachedReads (fun v => σ (f v)) src cached map operands l fresh := by
  intro l
  induction l with
  | nil => intro fresh _; rfl
  | cons o rest ih =>
    intro fresh h
    simp only [List.map_cons, cachedReads, h o (List.mem_cons_self _ _)]
    rw [ih (fresh + 1) (fun p hp => h p (List.mem_cons_of_mem _ hp)),
      ih fresh (fun p hp => h p (List.mem_cons_of_mem _ hp)), ScopeOp.mapUses_mapUses]

theorem cacheReadWalk_eq (src cached : Value) (map : AffineMap) (operands : List Value) :
    ∀ (n : Nat) (visited pending : List ScopeOp) (fresh : Value),
      pending.length ≤ n → cacheReadReady pending src cached operands fresh →
      cacheReadWalk src cached map operands n visited pending fresh
        = visited.map (ScopeOp.mapUses (redirected src pending fresh))
          ++ cachedReads (redirected src pending fresh) src cached map operands pending fresh := by
  intro n
  induction n with
  | zero =>
    intro visited pending fresh hlen _
    have hnil : pending = [] := List.length_eq_zero.mp (Nat.le_zero.mp hlen)
    subst hnil
    have hid : ScopeOp.mapUses (redirected src [] fresh) = id :=
      funext fun o => ScopeOp.mapUses_of_fixed _ o (fun _ _ => rfl)
    simp [cacheReadWalk, cachedReads, hid]
  | succ n ih =>
    intro visited pending fresh hlen hready
    cases pending with
    | nil =>
      have hid : ScopeOp.mapUses (redirected src [] fresh) = id :=
        funext fun o => ScopeOp.mapUses_of_fixed _ o (fun _ _ => rfl)
      simp [cacheReadWalk, cachedReads, hid]
    | cons load rest =>
      have hlen1 : rest.length ≤ n := by
        simp only [List.length_cons] at hlen
        omega
      by_cases hload : isLoadOf src load = true
      · obtain ⟨hsrc, hres⟩ := hready
        obtain ⟨hlt, hne, hnc, hno⟩ := hres load (List.mem_cons_self _ _) hload
        have hpres : ∀ o ∈ rest,
            isLoadOf src (o.mapUses fun v => if v = load.result then fresh else v)
              = isLoadOf src o :=
          fun o _ => isLoadOf_mapUses_replace src load.result fresh o hne (Nat.ne_of_gt hsrc)
        have hready1 : cacheReadReady
            (rest.map (ScopeOp.mapUses fun v => if v = load.result then fresh else v))
            src cached operands (fresh + 1) := by
          refine ⟨Nat.lt_succ_of_lt hsrc, ?_⟩
          intro o ho hl
          obtain ⟨p, hp, rfl⟩ := List.mem_map.mp ho
          rw [hpres p hp] at hl
          obtain ⟨h1, h2, h3, h4⟩ := hres p (List.mem_cons_of_mem _ hp) hl
          exact ⟨Nat.lt_succ_of_lt h1, h2, h3, h4⟩
        have hkey : (fun v => redirected src
              (rest.map (ScopeOp.mapUses fun v => if v = load.result then fresh else v))
              (fresh + 1) (if v = load.result then fresh else v))
            = redirected src (load :: rest) fresh := by
          funext v
          rw [redirected_map src _ _ rest (fresh + 1) hpres]
          simp only [redirected, hload, if_true]
          by_cases hv : v = load.result
          · simp only [hv, if_true]
            apply redirected_of_not_result
            intro o ho hl
            exact Nat.ne_of_lt (hres o (List.mem_cons_of_mem _ ho) hl).1
          · simp only [hv, if_false]
        have hnew : (createLoad cached map operands fresh).mapUses
            (redirected src (load :: rest) fresh) = createLoad cached map operands fresh := by
          apply ScopeOp.mapUses_of_fixed
          intro v hv
          apply redirected_of_not_result
          intro o ho hl hov
          obtain ⟨_, _, h3, h4⟩ := hres o ho hl
          simp only [ScopeOp.uses, createLoad, OpKind.hasStoredValue, OpKind.hasMemref,
            Bool.false_eq_true, if_false, if_true, List.nil_append, List.singleton_append,
            List.mem_cons] at hv
          rcases hv with hv | hv
          · exact h3 (hov.trans hv)
          · exact h4 (hov ▸ hv)
        have hwalk : cacheReadWalk src cached map operands (n + 1) visited (load :: rest) fresh
            = cacheReadWalk src cached map operands n
                (replaceAllUsesWith load.result fresh
                  (visited ++ [createLoad cached map operands fresh]))
                (replaceAllUsesWith load.result fresh rest) (fresh + 1) := by
          simp only [cacheReadWalk, hload, if_true]
        rw [hwalk]
        unfold replaceAllUsesWith
        rw [ih _ _ _ (by simpa using hlen1) hready1, cachedReads_map _ _ _ _ _ _ rest _ hpres,
          hkey]
        simp only [List.map_append, List.map_map, List.map_cons, List.map_nil,
          List.append_assoc, List.singleton_append]
        have hcomp : (ScopeOp.mapUses
              (redirected src
                (rest.map (ScopeOp.mapUses fun v => if v = load.result then fresh else v))
                (fresh + 1))
            ∘ ScopeOp.mapUses fun v => if v = load.result then fresh else v)
            = ScopeOp.mapUses (redirected src (load :: rest) fresh) := by
          funext o
          simp only [Function.comp, ScopeOp.mapUses_mapUses]
          rw [hkey]
        rw [hcomp]
        have hnew1 : ScopeOp.mapUses
              (redirected src
                (rest.map (ScopeOp.mapUses fun v => if v = load.result then fresh else v))
                (fresh + 1))
              (ScopeOp.mapUses (fun v => if v = load.result then fresh else v)
                (createLoad cached map operands fresh))
            = createLoad cached map operands fresh := by
          rw [ScopeOp.mapUses_mapUses, hkey, hnew]
        rw [hnew1]
        simp only [cachedReads, hload, if_true]
      · have hload1 : isLoadOf src load = false := by simpa using hload
        have hready1 : cacheReadReady rest src cached operands fresh :=
          ⟨hready.1, fun o ho hl => hready.2 o (List.mem_cons_of_mem _ ho) hl⟩
        have hσ : redirected src (load :: rest) fresh = redirected src rest fresh := by
          funext v
          simp only [redirected, hload1, Bool.false_eq_true, if_false]
        have hwalk : cacheReadWalk src cached map operands (n + 1) visited (load :: rest) fresh
            = cacheReadWalk src cached map operands n (visited ++ [load]) rest fresh := by
          simp only [cacheReadWalk, hload1, Bool.false_eq_true, if_false]
        rw [hwalk, ih _ _ _ hlen1 hready1, hσ]
        simp only [List.map_append, List.map_cons, List.map_nil, List.append_assoc,
          List.singleton_append, cachedReads, hload1, Bool.false_eq_true, if_false]

theorem redirected_range (src : Value) (v : Value) :
    ∀ (l : List ScopeOp) (fresh : Value),
      (redirected src l fresh v = v ∧ ∀ o ∈ l, isLoadOf src o = true → o.result ≠ v) ∨
        fresh ≤ redirected src l fresh v := by
  intro l
  induction l with
  | nil => intro fresh; exact Or.inl ⟨rfl, fun _ h => absurd h (List.not_mem_nil _)⟩
  | cons o rest ih =>
    intro fresh
    unfold redirected
    by_cases ho : isLoadOf src o = true
    · by_cases hv : v = o.result
      · right
        simp only [ho, hv, if_true]
        exact Nat.le_refl _
      · simp only [ho, if_true, if_neg hv]
        rcases ih (fresh + 1) with ⟨h1, h2⟩ | h
        · left
          refine ⟨h1, ?_⟩
          intro p hp hl
          rcases List.mem_cons.mp hp with rfl | hp
          · exact fun e => hv e.symm
          · exact h2 p hp hl
        · right
          exact Nat.le_of_succ_le h
    · simp only [ho, Bool.false_eq_true, if_false]
      rcases ih fresh with ⟨h1, h2⟩ | h
      · left
        refine ⟨h1, ?_⟩
        intro p hp hl
        rcases List.mem_cons.mp hp with rfl | hp
        · exact absurd hl ho
        · exact h2 p hp hl
      · exact Or.inr h

theorem redirected_at (src : Value) (load : ScopeOp) (post : List ScopeOp)
    (hload : isLoadOf src load = true) :
    ∀ (pre : List ScopeOp) (fresh : Value),
      (∀ p ∈ pre, isLoadOf src p = true → p.result ≠ load.result) →
      redirected src (pre ++ load :: post) fresh load.result
        = fresh + pre.countP (isLoadOf src) := by
  intro pre
  induction pre with
  | nil =>
    intro fresh _
    simp [redirected, hload]
  | cons p rest ih =>
    intro fresh h
    have hrest := fun q hq => h q (List.mem_cons_of_mem _ hq)
    by_cases hp : isLoadOf src p = true
    · have hne : load.result ≠ p.result := fun e => h p (List.mem_cons_self _ _) hp e.symm
      rw [List.cons_append, redirected]
      simp only [hp, if_true, if_neg hne, List.countP_cons_of_pos]
      rw [ih (fresh + 1) hrest, Nat.add_assoc, Nat.add_comm 1]
    · rw [List.cons_append, redirected]
      simp only [hp, Bool.false_eq_true, if_false]
      rw [ih fresh hrest, List.countP_cons_of_neg _ _ hp]

theorem cachedReads_length (σ : Value → Value) (src cached : Value) (map : AffineMap)
    (operands : List Value) :
    ∀ (l : List ScopeOp) (fresh : Value),
      (cachedReads σ src cached map operands l fresh).length = l.length := by
  intro l
  induction l with
  | nil => intro _; rfl
  | cons o rest ih =>
    intro fresh
    unfold cachedReads
    split
    · simp [ih]
    · simp [ih]

theorem cachedReads_append (σ : Value → Value) (src cached : Value) (map : AffineMap)
    (operands : List Value) (post : List ScopeOp) :
    ∀ (pre : List ScopeOp) (fresh : Value),
      cachedReads σ src cached map operands (pre ++ post) fresh
        = cachedReads σ src cached map operands pre fresh
          ++ cachedReads σ src cached map operands post (fresh + pre.countP (isLoadOf src)) := by
  intro pre
  induction pre with
  | nil => intro fresh; simp [cachedReads]
  | cons p rest ih =>
    intro fresh
    by_cases hp : isLoadOf src p = true
    · rw [List.cons_append]
      simp only [cachedReads, hp, if_true, List.countP_cons_of_pos, List.cons_append]
      rw [ih (fresh + 1), Nat.add_assoc, Nat.add_comm 1]
    · rw [List.cons_append]
      simp only [cachedReads, hp, Bool.false_eq_true, if_false, List.cons_append]
      rw [ih fresh, List.countP_cons_of_neg _ _ hp]

theorem cachedReads_at (σ : Value → Value) (src cached : Value) (map : AffineMap)
    (operands : List Value) (pre : List ScopeOp) (o : ScopeOp) (post : List ScopeOp)
    (fresh : Value) :
    (cachedReads σ src cached map operands (pre ++ o :: post) fresh)[pre.length]?
      = some (if isLoadOf src o then
          createLoad cached map operands (fresh + pre.countP (isLoadOf src))
        else o.mapUses σ) := by
  rw [cachedReads_append, List.getElem?_append_right (by rw [cachedReads_length]),
    cachedReads_length, Nat.sub_self]
  unfold cachedReads
  split <;> simp

theorem ScopeOp.uses_mapUses (f : Value → Value) (o : ScopeOp) :
    (o.mapUses f).uses = o.uses.map f := by
  unfold ScopeOp.uses ScopeOp.mapUses
  simp only [List.map_append]
  congr 1
  congr 1
  · split <;> simp
  · split <;> simp

theorem mem_cachedReads (σ : Value → Value) (src cached : Value) (map : AffineMap)
    (operands : List Value) (q : ScopeOp) :
    ∀ (l : List ScopeOp) (fresh : Value),
      q ∈ cachedReads σ src cached map operands l fresh →
      (∃ k, q = createLoad cached map operands k) ∨
        ∃ o ∈ l, isLoadOf src o = false ∧ q = o.mapUses σ := by
  intro l
  induction l with
  | nil => intro fresh h; exact absurd h (List.not_mem_nil _)
  | cons o rest ih =>
    intro fresh h
    unfold cachedReads at h
    by_cases ho : isLoadOf src o = true
    · simp only [ho, if_true, List.mem_cons] at h
      rcases h with h | h
      · exact Or.inl ⟨fresh, h⟩
      · rcases ih _ h with h1 | ⟨p, hp, h2⟩
        · exact Or.inl h1
        · exact Or.inr ⟨p, List.mem_cons_of_mem _ hp, h2⟩
    · simp only [ho, Bool.false_eq_true, if_false, List.mem_cons] at h
      rcases h with h | h
      · exact Or.inr ⟨o, List.mem_cons_self _ _, by simpa using ho, h⟩
      · rcases ih _ h with h1 | ⟨p, hp, h2⟩
        · exact Or.inl h1
        · exact Or.inr ⟨p, List.mem_cons_of_mem _ hp, h2⟩

/-- C19 (cache_read). When `src`, `cached` and `operands` are not defined by a
load of `src` inside the scope and the new results are new values, `cache_read`
gives the scope in which, position by position: a load of `src` has given way to
a load of `cached` with the supplied map and operands, the value that takes the
place of its old result is the result of that new load, and no operation uses
the old result any more; every other operation (stores, vector loads, loads of
other buffers) keeps its kind, memref, map and result, its operands redirected,
and stays exactly as it was when it uses no result of a replaced load. -/
theorem cache_read_redirects_loads (scope : List ScopeOp) (src cached : Value)
    (map : AffineMap) (operands : List Value) (fresh : Value)
    (hready : cacheReadReady scope src cached operands fresh) :
    cache_read scope src cached map operands fresh
        = cachedReads (redirected src scope fresh) src cached map operands scope fresh ∧
    (∀ pre load post, scope = pre ++ load :: post → isLoadOf src load = true →
      (cache_read scope src cached map operands fresh)[pre.length]?
          = some ⟨⟨.AffineLoadOp, cached, 0, map, operands⟩,
              fresh + pre.countP (isLoadOf src)⟩ ∧
        ((∀ p ∈ pre, isLoadOf src p = true → p.result ≠ load.result) →
          redirected src scope fresh load.result = fresh + pre.countP (isLoadOf src)) ∧
        ∀ o ∈ cache_read scope src cached map operands fresh, load.result ∉ o.uses) ∧
    (∀ pre o post, scope = pre ++ o :: post → isLoadOf src o = false →
      (cache_read scope src cached map operands fresh)[pre.length]?
          = some (o.mapUses (redirected src scope fresh)) ∧
        ((∀ t ∈ scope, isLoadOf src t = true → t.result ∉ o.uses) →
          (cache_read scope src cached map operands fresh)[pre.length]? = some o)) := by
  have heq : cache_read scope src cached map operands fresh
      = cachedReads (redirected src scope fresh) src cached map operands scope fresh := by
    unfold cache_read
    rw [cacheReadWalk_eq src cached map operands scope.length [] scope fresh (Nat.le_refl _)
      hready]
    rfl
  refine ⟨heq, ?_, ?_⟩
  · intro pre load post hscope hload
    refine ⟨?_, ?_, ?_⟩
    · rw [heq, hscope, cachedReads_at]
      simp only [hload, if_true]
      rfl
    · intro hpre
      rw [hscope]
      exact redirected_at src load post hload pre fresh hpre
    · intro q hq hmem
      have hin : load ∈ scope := by
        rw [hscope]
        exact List.mem_append_right _ (List.mem_cons_self _ _)
      obtain ⟨hlt, _, hnc, hno⟩ := hready.2 load hin hload
      rw [heq] at hq
      rcases mem_cachedReads _ _ _ _ _ _ _ _ hq with ⟨k, rfl⟩ | ⟨o, _, _, rfl⟩
      · simp only [ScopeOp.uses, createLoad, OpKind.hasStoredValue, OpKind.hasMemref,
          Bool.false_eq_true, if_false, if_true, List.nil_append, List.singleton_append,
          List.mem_cons] at hmem
        rcases hmem with h | h
        · exact hnc h
        · exact hno h
      · rw [ScopeOp.uses_mapUses] at hmem
        obtain ⟨v, _, hv⟩ := List.mem_map.mp hmem
        rcases redirected_range src v scope fresh with ⟨h1, h2⟩ | h
        · rw [h1] at hv
          exact h2 load hin hload hv.symm
        · rw [hv] at h
          exact absurd hlt (Nat.not_lt.mpr h)
  · intro pre o post hscope ho
    have hat : (cache_read scope src cached map operands fresh)[pre.length]?
        = some (o.mapUses (redirected src scope fresh)) := by
      rw [heq]
      subst hscope
      rw [cachedReads_at]
      simp only [ho, Bool.false_eq_true, if_false]
    refine ⟨hat, ?_⟩
    intro hfree
    rw [hat, ScopeOp.mapUses_of_fixed]
    intro v hv
    apply redirected_of_not_result
    intro t ht hl hres
    exact hfree t ht hl (hres ▸ hv)

/-- Witness of `cache_read_redirects_loads`: a load of buffer `1`, a store of the
loaded value to buffer `2`, a vector load of buffer `1` and a second load of
buffer `1`; the cache is buffer `5`. -/
theorem cache_read_redirects_loads_witness :
    cacheReadReady
        [⟨⟨.AffineLoadOp, 1, 0, AffineMap.mk 1 0 [.dim 0], [7]⟩, 10⟩,
         ⟨⟨.AffineStoreOp, 2, 10, AffineMap.mk 1 0 [.dim 0], [7]⟩, 11⟩,
         ⟨⟨.AffineVectorLoadOp, 1, 0, AffineMap.mk 1 0 [.dim 0], [7]⟩, 12⟩,
         ⟨⟨.AffineLoadOp, 1, 0, AffineMap.mk 1 0 [.dim 0], [8]⟩, 13⟩]
        1 5 [9] 100 ∧
    cache_read
        [⟨⟨.AffineLoadOp, 1, 0, AffineMap.mk 1 0 [.dim 0], [7]⟩, 10⟩,
         ⟨⟨.AffineStoreOp, 2, 10, AffineMap.mk 1 0 [.dim 0], [7]⟩, 11⟩,
         ⟨⟨.AffineVectorLoadOp, 1, 0, AffineMap.mk 1 0 [.dim 0], [7]⟩, 12⟩,
         ⟨⟨.AffineLoadOp, 1, 0, AffineMap.mk 1 0 [.dim 0], [8]⟩, 13⟩]
        1 5 (AffineMap.mk 1 0 [.const 0]) [9] 100
      = [⟨⟨.AffineLoadOp, 5, 0, AffineMap.mk 1 0 [.const 0], [9]⟩, 100⟩,
         ⟨⟨.AffineStoreOp, 2, 100, AffineMap.mk 1 0 [.dim 0], [7]⟩, 11⟩,
         ⟨⟨.AffineVectorLoadOp, 1, 0, AffineMap.mk 1 0 [.dim 0], [7]⟩, 12⟩,
         ⟨⟨.AffineLoadOp, 5, 0, AffineMap.mk 1 0 [.const 0], [9]⟩, 101⟩] :=
  have hready : cacheReadReady
      [⟨⟨.AffineLoadOp, 1, 0, AffineMap.mk 1 0 [.dim 0], [7]⟩, 10⟩,
       ⟨⟨.AffineStoreOp, 2, 10, AffineMap.mk 1 0 [.dim 0], [7]⟩, 11⟩,
       ⟨⟨.AffineVectorLoadOp, 1, 0, AffineMap.mk 1 0 [.dim 0], [7]⟩, 12⟩,
       ⟨⟨.AffineLoadOp, 1, 0, AffineMap.mk 1 0 [.dim 0], [8]⟩, 13⟩]
      1 5 [9] 100 := by
    unfold cacheReadReady
    decide
  ⟨hready, (cache_read_redirects_loads _ 1 5 (AffineMap.mk 1 0 [.const 0]) [9] 100 hready).1.trans
    (by decide)⟩

theorem cacheWriteWalk_eq (src cached : Value) (map : AffineMap) (operands : List Value) :
    ∀ (pending visited : List ScopeOp),
      cacheWriteWalk src cached map operands visited pending
        = visited ++ pending.map fun o =>
            if isStoreTo src o then createStore o cached map operands else o := by
  intro pending
  induction pending with
  | nil => intro visited; simp [cacheWriteWalk]
  | cons store rest ih =>
    intro visited
    unfold cacheWriteWalk
    by_cases hs : isStoreTo src store = true
    · simp only [hs, if_true, ih, List.append_assoc, List.singleton_append, List.map_cons]
    · simp only [hs, Bool.false_eq_true, if_false, ih, List.append_assoc,
        List.singleton_append, List.map_cons]

/-- C20 (cache_write). Position by position, `cache_write` turns every store to
`src` in the scope into a store of the same value to `cached` with the supplied
map and operands, and leaves every other operation (loads, vector stores, stores
to other buffers) exactly as it was; the scope keeps its length and order. -/
theorem cache_write_redirects_stores (scope : List ScopeOp) (src cached : Value)
    (map : AffineMap) (operands : List Value) :
    (cache_write scope src cached map operands).length = scope.length ∧
    (∀ pre store post, scope = pre ++ store :: post → isStoreTo src store = true →
      (cache_write scope src cached map operands)[pre.length]?
        = some ⟨⟨.AffineStoreOp, cached, store.op.storedValue, map, operands⟩,
            store.result⟩) ∧
    (∀ pre o post, scope = pre ++ o :: post → isStoreTo src o = false →
      (cache_write scope src cached map operands)[pre.length]? = some o) ∧
    (cached ≠ src → ∀ o ∈ cache_write scope src cached map operands, isStoreTo src o = false) := by
  have heq : cache_write scope src cached map operands
      = scope.map fun o => if isStoreTo src o then createStore o cached map operands else o := by
    unfold cache_write
    rw [cacheWriteWalk_eq]
    rfl
  refine ⟨?_, ?_, ?_, ?_⟩
  · rw [heq, List.length_map]
  · intro pre store post hscope hs
    rw [heq, hscope, List.map_append, List.getElem?_append_right (by simp), List.length_map,
      Nat.sub_self]
    simp [hs, createStore]
  · intro pre o post hscope ho
    rw [heq, hscope, List.map_append, List.getElem?_append_right (by simp), List.length_map,
      Nat.sub_self]
    simp [ho]
  · intro hne o ho
    rw [heq] at ho
    obtain ⟨p, _, rfl⟩ := List.mem_map.mp ho
    by_cases hp : isStoreTo src p = true
    · rw [if_pos hp]
      simp [createStore, isStoreTo, hne]
    · rw [if_neg hp]
      simpa using hp


/-! ### `orderizeExprs` -/

/-- C29 (orderizeExprs, failing input). On the expressions `d0, d1, d3, d5` of the
comment in the source the helper returns `d0, d1, d3, d3` and not
`d0, d1, d2, d3`: every renaming starts again from the copy taken on entry, so
only the last one (`d5` to `d3`) survives and two different dimensions end up
the same. With the dimensions `d0, d2, d3` the result is `d0, d2, d2`. -/
theorem orderizeExprs_keeps_last_renaming :
    orderizeExprs [.dim 0, .dim 1, .dim 3, .dim 5] = some [.dim 0, .dim 1, .dim 3, .dim 3] ∧
    orderizeExprs [.dim 0, .dim 1, .dim 3, .dim 5] ≠ some [.dim 0, .dim 1, .dim 2, .dim 3] ∧
    orderizeExprs [.binary .Add (.dim 0) (.dim 2), .dim 3]
      = some [.binary .Add (.dim 0) (.dim 2), .dim 2] := by
  decide


/-! ### The replacement expressions of `combineToOneDim` -/

theorem prod_pos_of_forall_pos : ∀ (l : List Int), (∀ u ∈ l, 0 < u) → 0 < l.prod := by
  intro l
  induction l with
  | nil => intro _; simp
  | cons u us ih =>
    intro h
    rw [List.prod_cons]
    exact Int.mul_pos (h u (List.mem_cons_self _ _))
      (ih fun v hv => h v (List.mem_cons_of_mem _ hv))

theorem intProduct_eq_prod (ups : List Int) (hpos : ∀ u ∈ ups, 0 < u)
    (hfit : ups.prod < 2147483648) : intProduct ups = ups.prod := by
  have key : ∀ (l : List Int) (acc : Int), 0 < acc → (∀ u ∈ l, 0 < u) →
      acc * l.prod < 2147483648 →
      l.foldl (fun sum u => narrowToInt (sum * u)) acc = acc * l.prod := by
    intro l
    induction l with
    | nil => intro acc _ _ _; simp
    | cons u rest ih =>
      intro acc hacc hl hlt
      have hu : 0 < u := hl u (List.mem_cons_self _ _)
      have hrest : ∀ v ∈ rest, 0 < v := fun v hv => hl v (List.mem_cons_of_mem _ hv)
      have hR : 0 < rest.prod := prod_pos_of_forall_pos _ hrest
      have hau : 0 < acc * u := Int.mul_pos hacc hu
      rw [List.prod_cons, ← mul_assoc] at hlt
      have hle : acc * u ≤ acc * u * rest.prod := by nlinarith
      rw [List.foldl_cons, narrowToInt_of_range (by omega) (by omega),
        ih (acc * u) hau hrest hlt, List.prod_cons, mul_assoc]
  have := key ups 1 (by norm_num) hpos (by simpa using hfit)
  simpa [intProduct] using this

theorem combineExprsFrom_value (d : Int) :
    ∀ (l : List Int) (i : Nat) (last_sum : Int), (∀ u ∈ l, 0 < u) →
      l.tail.prod < 2147483648 →
      (i = 0 → 0 ≤ d ∧ d < l.prod) → (i ≠ 0 → last_sum = l.prod) →
      (combineExprsFrom i last_sum l).map (AffineExpr.value [d] []) = mixedRadix l d := by
  intro l
  induction l with
  | nil => intro i last_sum _ _ _ _; rfl
  | cons u0 rest ih =>
    intro i last_sum hpos hfit h0 hi
    have hu0 : 0 < u0 := hpos u0 (List.mem_cons_self _ _)
    have hrest : ∀ u ∈ rest, 0 < u := fun v hv => hpos v (List.mem_cons_of_mem _ hv)
    cases rest with
    | nil =>
      simp only [combineExprsFrom, List.map_cons, List.map_nil, AffineExpr.value,
        AffineExprKind.apply, mixedRadix, List.prod_nil, mul_one, Int.ediv_one,
        List.getD_cons_zero]
      rw [Int.fmod_eq_emod _ (le_of_lt hu0)]
    | cons u rest1 =>
      have hR : 0 < (u :: rest1).prod := prod_pos_of_forall_pos _ hrest
      have hfit1 : (u :: rest1).prod < 2147483648 := hfit
      have hu : 0 < u := hrest u (List.mem_cons_self _ _)
      have hR1 : 0 < rest1.prod :=
        prod_pos_of_forall_pos _ (fun v hv => hrest v (List.mem_cons_of_mem _ hv))
      have hfit2 : (u :: rest1).tail.prod < 2147483648 := by
        rw [List.prod_cons] at hfit1
        simp only [List.tail_cons]
        nlinarith
      have hsum : intProduct (u :: rest1) = (u :: rest1).prod :=
        intProduct_eq_prod _ hrest hfit1
      have htail := ih (i + 1) (u :: rest1).prod hrest hfit2
        (fun h => absurd h (Nat.succ_ne_zero i)) (fun _ => rfl)
      rw [combineExprsFrom]
      simp only [List.map_cons, mixedRadix, hsum]
      rw [htail]
      congr 1
      by_cases hi0 : i = 0
      · obtain ⟨hd0, hd1⟩ := h0 hi0
        rw [List.prod_cons] at hd1
        simp only [hi0, if_true, AffineExpr.value, AffineExprKind.apply, List.getD_cons_zero]
        rw [Int.fdiv_eq_ediv _ (le_of_lt hR), Int.emod_eq_of_lt hd0 hd1]
      · have hl := hi hi0
        rw [List.prod_cons] at hl
        simp only [hi0, if_false, AffineExpr.value, AffineExprKind.apply, List.getD_cons_zero]
        rw [Int.fdiv_eq_ediv _ (le_of_lt hR), hl,
          Int.fmod_eq_emod _ (le_of_lt (Int.mul_pos hu0 hR))]

theorem mixedRadix_inBox (d : Int) :
    ∀ (l : List Int), (∀ u ∈ l, 0 < u) → inBox l (mixedRadix l d) := by
  intro l
  induction l with
  | nil => intro _; exact True.intro
  | cons u us ih =>
    intro hpos
    have hu : 0 < u := hpos u (List.mem_cons_self _ _)
    have hus : ∀ v ∈ us, 0 < v := fun v hv => hpos v (List.mem_cons_of_mem _ hv)
    have hR : 0 < us.prod := prod_pos_of_forall_pos _ hus
    have hm0 : 0 ≤ d % (u * us.prod) := Int.emod_nonneg _ (ne_of_gt (Int.mul_pos hu hR))
    have hm1 : d % (u * us.prod) < u * us.prod := Int.emod_lt_of_pos _ (Int.mul_pos hu hR)
    refine ⟨Int.ediv_nonneg hm0 (le_of_lt hR), ?_, ih hus⟩
    exact Int.ediv_lt_of_lt_mul hR hm1

theorem rowMajor_mixedRadix (d : Int) :
    ∀ (l : List Int), (∀ u ∈ l, 0 < u) → rowMajor l (mixedRadix l d) = d % l.prod := by
  intro l
  induction l with
  | nil => intro _; simp [rowMajor, mixedRadix, Int.emod_one]
  | cons u us ih =>
    intro hpos
    have hus : ∀ v ∈ us, 0 < v := fun v hv => hpos v (List.mem_cons_of_mem _ hv)
    simp only [mixedRadix, rowMajor, List.prod_cons]
    rw [ih hus]
    have h1 : d % us.prod = d % (u * us.prod) % us.prod :=
      (Int.emod_emod_of_dvd d (Dvd.intro_left u rfl)).symm
    rw [h1]
    exact Int.ediv_add_emod' _ _

theorem mixedRadix_add_mul (d : Int) :
    ∀ (l : List Int) (k : Int), mixedRadix l (d + k * l.prod) = mixedRadix l d := by
  intro l
  induction l with
  | nil => intro _; rfl
  | cons u us ih =>
    intro k
    simp only [mixedRadix, List.prod_cons]
    have h1 : d + k * (u * us.prod) = d + (k * u) * us.prod := by ring
    rw [Int.add_mul_emod_self, h1, ih (k * u)]

theorem mixedRadix_rowMajor :
    ∀ (l xs : List Int), (∀ u ∈ l, 0 < u) → inBox l xs →
      0 ≤ rowMajor l xs ∧ rowMajor l xs < l.prod ∧ mixedRadix l (rowMajor l xs) = xs := by
  intro l
  induction l with
  | nil =>
    intro xs _ hb
    cases xs with
    | nil => simp [rowMajor, mixedRadix]
    | cons x xs => exact absurd hb (by simp [inBox])
  | cons u us ih =>
    intro xs hpos hb
    cases xs with
    | nil => exact absurd hb (by simp [inBox])
    | cons x xs =>
      obtain ⟨hx0, hx1, hb1⟩ := hb
      have hus : ∀ v ∈ us, 0 < v := fun v hv => hpos v (List.mem_cons_of_mem _ hv)
      have hR : 0 < us.prod := prod_pos_of_forall_pos _ hus
      obtain ⟨hr0, hr1, hr2⟩ := ih xs hus hb1
      have hd0 : 0 ≤ x * us.prod + rowMajor us xs :=
        Int.add_nonneg (Int.mul_nonneg hx0 (le_of_lt hR)) hr0
      have hd1 : x * us.prod + rowMajor us xs < u * us.prod := by
        have : (x + 1) * us.prod ≤ u * us.prod :=
          Int.mul_le_mul_of_nonneg_right (by omega) (le_of_lt hR)
        have h2 : (x + 1) * us.prod = x * us.prod + us.prod := by ring
        omega
      refine ⟨hd0, by rw [List.prod_cons]; exact hd1, ?_⟩
      simp only [rowMajor, mixedRadix]
      rw [Int.emod_eq_of_lt hd0 hd1]
      have hq : (x * us.prod + rowMajor us xs) / us.prod = x := by
        rw [Int.add_comm, Int.add_mul_ediv_right _ _ (ne_of_gt hR),
          Int.ediv_eq_zero_of_lt hr0 hr1, zero_add]
      have ht : mixedRadix us (x * us.prod + rowMajor us xs) = xs := by
        rw [Int.add_comm, mixedRadix_add_mul, hr2]
      rw [hq, ht]

theorem mixedRadix_lex :
    ∀ (l : List Int) (d e : Int), (∀ u ∈ l, 0 < u) → 0 ≤ d → d < e → e < l.prod →
      List.Lex (fun a b : Int => a < b) (mixedRadix l d) (mixedRadix l e) := by
  intro l
  induction l with
  | nil =>
    intro d e _ h0 h1 h2
    simp only [List.prod_nil] at h2
    omega
  | cons u us ih =>
    intro d e hpos h0 h1 h2
    have hus : ∀ v ∈ us, 0 < v := fun v hv => hpos v (List.mem_cons_of_mem _ hv)
    have hR : 0 < us.prod := prod_pos_of_forall_pos _ hus
    rw [List.prod_cons] at h2
    simp only [mixedRadix]
    rw [Int.emod_eq_of_lt h0 (lt_trans h1 h2), Int.emod_eq_of_lt (le_of_lt (lt_of_le_of_lt h0 h1)) h2]
    have hle : d / us.prod ≤ e / us.prod := Int.ediv_le_ediv hR (le_of_lt h1)
    rcases lt_or_eq_of_le hle with hlt | heq
    · exact List.Lex.rel hlt
    · rw [heq]
      apply List.Lex.cons
      have hd : d = d % us.prod + (d / us.prod) * us.prod := by
        have := Int.emod_add_ediv' d us.prod
        omega
      have he : e = e % us.prod + (e / us.prod) * us.prod := by
        have := Int.emod_add_ediv' e us.prod
        omega
      have hlt : d % us.prod < e % us.prod := by
        rw [heq] at hd
        omega
      rw [hd, he, mixedRadix_add_mul, mixedRadix_add_mul]
      exact ih _ _ hus (Int.emod_nonneg _ (ne_of_gt hR)) hlt (Int.emod_lt_of_pos _ hR)

/-- For positive upper bounds `ups` whose product after the first one stays
below `2^31`, the values of the replacement expressions of `combineToOneDim` at
`d` in `[0, prod ups)` form a tuple of the box `[0, u_0) x ... x [0, u_{k-1})`
whose row-major linearisation is `d`; every tuple of the box is the value at its
linearisation, which lies in `[0, prod ups)`; and a larger `d` gives a
lexicographically larger tuple. -/
theorem combineExprs_recover_indices (ups : List Int) (hpos : ∀ u ∈ ups, 0 < u)
    (hfit : ups.tail.prod < 2147483648) :
    (∀ d, 0 ≤ d → d < ups.prod →
      inBox ups ((combineExprsFrom 0 0 ups).map (AffineExpr.value [d] [])) ∧
        rowMajor ups ((combineExprsFrom 0 0 ups).map (AffineExpr.value [d] [])) = d) ∧
    (∀ xs, inBox ups xs →
      0 ≤ rowMajor ups xs ∧ rowMajor ups xs < ups.prod ∧
        (combineExprsFrom 0 0 ups).map (AffineExpr.value [rowMajor ups xs] []) = xs) ∧
    (∀ d e, 0 ≤ d → d < e → e < ups.prod →
      List.Lex (fun a b : Int => a < b)
        ((combineExprsFrom 0 0 ups).map (AffineExpr.value [d] []))
        ((combineExprsFrom 0 0 ups).map (AffineExpr.value [e] []))) := by
  have hval : ∀ d, 0 ≤ d → d < ups.prod →
      (combineExprsFrom 0 0 ups).map (AffineExpr.value [d] []) = mixedRadix ups d :=
    fun d h0 h1 => combineExprsFrom_value d ups 0 0 hpos hfit (fun _ => ⟨h0, h1⟩)
      (fun h => absurd rfl h)
  refine ⟨?_, ?_, ?_⟩
  · intro d h0 h1
    rw [hval d h0 h1]
    exact ⟨mixedRadix_inBox d ups hpos, by
      rw [rowMajor_mixedRadix d ups hpos, Int.emod_eq_of_lt h0 h1]⟩
  · intro xs hb
    obtain ⟨h0, h1, h2⟩ := mixedRadix_rowMajor ups xs hpos hb
    exact ⟨h0, h1, by rw [hval _ h0 h1, h2]⟩
  · intro d e h0 h1 h2
    rw [hval d h0 (lt_trans h1 h2), hval e (le_of_lt (lt_of_le_of_lt h0 h1)) h2]
    exact mixedRadix_lex ups d e hpos h0 h1 h2

/-- C23 (replacement expressions, failing input). For the upper bounds
`2, 65536, 32768` the product after the first one is `2^31`, which the `int`
`sum` holds as `-2^31`: the first expression is `d0 floordiv -2147483648`. At
`d = 2^31`, the linearisation of the tuple `(1, 0, 0)` of the box, the
expressions give `(-1, 0, 0)`. -/
theorem combineExprs_int_product_wraps :
    combineExprsFrom 0 0 [2, 65536, 32768]
      = [.binary .FloorDiv (.dim 0) (.const (-2147483648)),
         .binary .FloorDiv (.binary .Mod (.dim 0) (.const (-2147483648))) (.const 32768),
         .binary .Mod (.dim 0) (.const 32768)] ∧
    (combineExprsFrom 0 0 [2, 65536, 32768]).map (AffineExpr.value [2147483648] [])
      = [-1, 0, 0] ∧
    inBox [2, 65536, 32768] [1, 0, 0] ∧
    rowMajor [2, 65536, 32768] [1, 0, 0] = 2147483648 ∧
    (2147483648 : Int) < ([2, 65536, 32768] : List Int).prod := by
  refine ⟨by decide, by decide, ?_, by decide, by decide⟩
  simp [inBox]

/-! ### The trip count of `combineToOneDim` -/

theorem combineToOneDim_tripCount_of_normalized (first second : AffineForOp)
    (rest : List AffineForOp) (ups : List Int) (fresh : Value)
    (hall : ∀ l ∈ first :: second :: rest, l.getConstantLowerBound = some 0 ∧ l.step = 1)
    (hups : (first :: second :: rest).map AffineForOp.getConstantUpperBound = ups.map some)
    (hpos : ∀ u ∈ ups, 0 < u) :
    ∃ c, combineToOneDim (first :: second :: rest) [] fresh = some c ∧
      c.loop.tripCount = ((first :: second :: rest).map AffineForOp.tripCount).prod := by
  have hfirst := hall first (List.mem_cons_self _ _)
  have hlb : first.lowerBoundMap.getSingleConstantResult = some 0 := hfirst.1
  have hb : combineBounds 0 first.step (first :: second :: rest) = some ups := by
    rw [hfirst.2]
    exact combineBounds_of_uniform _ _ hall hups
  have htrip1 : ∀ u : Int, 0 < u → tripCount 0 u 1 = u := by
    intro u hu
    unfold tripCount
    rw [if_neg (by omega)]
    simp
  have hprod : ∀ (ls : List AffineForOp) (us : List Int),
      (∀ l ∈ ls, l.getConstantLowerBound = some 0 ∧ l.step = 1) →
      ls.map AffineForOp.getConstantUpperBound = us.map some → (∀ u ∈ us, 0 < u) →
      (ls.map AffineForOp.tripCount).prod = us.prod := by
    intro ls
    induction ls with
    | nil =>
      intro us _ h _
      cases us with
      | nil => rfl
      | cons u t => simp at h
    | cons a t ih =>
      intro us ha h hp
      cases us with
      | nil => simp at h
      | cons u us1 =>
        simp only [List.map_cons, List.cons.injEq] at h
        have ha1 := ha a (List.mem_cons_self _ _)
        simp only [List.map_cons, List.prod_cons]
        rw [ih us1 (fun l hl => ha l (List.mem_cons_of_mem _ hl)) h.2
          (fun v hv => hp v (List.mem_cons_of_mem _ hv))]
        congr 1
        unfold AffineForOp.tripCount
        rw [ha1.1, h.1, ha1.2]
        exact htrip1 u (hp u (List.mem_cons_self _ _))
  refine ⟨{ loop := AffineForOp.ofConstants 0 ups.prod first.step fresh, users := [] }, ?_, ?_⟩
  · simp only [combineToOneDim, hlb, hb, mapOrAbort]
  · rw [hprod _ ups hall hups hpos, hfirst.2]
    have : (AffineForOp.ofConstants 0 ups.prod 1 fresh).tripCount = tripCount 0 ups.prod 1 := rfl
    rw [this, htrip1 _ (prod_pos_of_forall_pos ups hpos)]

/-- C22 (trip count of combineToOneDim, failing input). Two nested loops
`[0, 4)` with step 2 have 2 iterations each, 4 together; they pass the check of
`combineToOneDim` (same lower bound, same step), and the returned loop is
`[0, 16)` with step 2, which has 8 iterations. Likewise two loops `[1, 3)` with
step 1 (2 iterations each) give the loop `[1, 9)` with 8 iterations. In the
first case the new loop runs at `d = 4`, where the replacement expressions give
the outer index 1, a value the outer loop `0, 2` never took. -/
theorem combineToOneDim_trip_count_mismatch :
    (combineToOneDim [AffineForOp.ofConstants 0 4 2 1, AffineForOp.ofConstants 0 4 2 2] [] 9).map
        (fun c => (c.loop, c.loop.tripCount))
      = some (AffineForOp.ofConstants 0 16 2 9, 8) ∧
    ([AffineForOp.ofConstants 0 4 2 1, AffineForOp.ofConstants 0 4 2 2].map
        AffineForOp.tripCount).prod = 4 ∧
    (combineToOneDim [AffineForOp.ofConstants 1 3 1 1, AffineForOp.ofConstants 1 3 1 2] [] 9).map
        (fun c => (c.loop, c.loop.tripCount))
      = some (AffineForOp.ofConstants 1 9 1 9, 8) ∧
    ([AffineForOp.ofConstants 1 3 1 1, AffineForOp.ofConstants 1 3 1 2].map
        AffineForOp.tripCount).prod = 4 ∧
    (4 : Int) ∈ iterationValues 0 16 2 ∧
    (combineExprsFrom 0 0 [4, 4]).map (AffineExpr.value [4] []) = [1, 0] ∧
    (1 : Int) ∉ iterationValues 0 4 2 := by
  decide


/-! ### The factor search of `combineToTowDim` -/

theorem substituteValues_of_not_mem :
    ∀ (pairs : List (Value × Value)) (v : Value), v ∉ pairs.map Prod.fst →
      substituteValues pairs v = v := by
  intro pairs
  induction pairs with
  | nil => intro v _; rfl
  | cons p rest ih =>
    intro v hv
    obtain ⟨old, new⟩ := p
    simp only [List.map_cons, List.mem_cons, not_or] at hv
    simp only [substituteValues, if_neg hv.1]
    exact ih v hv.2

theorem substituteValues_range :
    ∀ (pairs : List (Value × Value)) (v : Value),
      substituteValues pairs v = v ∨ substituteValues pairs v ∈ pairs.map Prod.snd := by
  intro pairs
  induction pairs with
  | nil => intro v; exact Or.inl rfl
  | cons p rest ih =>
    intro v
    obtain ⟨old, new⟩ := p
    simp only [substituteValues, List.map_cons, List.mem_cons]
    by_cases hv : v = old
    · simp [hv]
    · simp only [if_neg hv]
      rcases ih v with h | h
      · exact Or.inl h
      · exact Or.inr (Or.inr h)

theorem replaceLoopIvs_eq :
    ∀ (pairs : List (Value × Value)) (body : List ScopeOp),
      (pairs.map Prod.fst).Nodup → (∀ n ∈ pairs.map Prod.snd, n ∉ pairs.map Prod.fst) →
      replaceLoopIvs pairs body = body.map (ScopeOp.mapUses (substituteValues pairs)) := by
  intro pairs
  induction pairs with
  | nil =>
    intro body _ _
    have hid : ScopeOp.mapUses (substituteValues []) = id :=
      funext fun o => ScopeOp.mapUses_of_fixed _ o (fun _ _ => rfl)
    simp [replaceLoopIvs, hid]
  | cons p rest ih =>
    intro body hnd hnew
    obtain ⟨old, new⟩ := p
    simp only [List.map_cons, List.nodup_cons] at hnd
    have hnew1 : ∀ n ∈ rest.map Prod.snd, n ∉ rest.map Prod.fst := by
      intro n hn hmem
      exact hnew n (by simp only [List.map_cons]; exact List.mem_cons_of_mem _ hn)
        (by simp only [List.map_cons]; exact List.mem_cons_of_mem _ hmem)
    have hkey : (fun v => if substituteValues rest v = old then new else substituteValues rest v)
        = substituteValues ((old, new) :: rest) := by
      funext v
      simp only [substituteValues]
      by_cases hv : v = old
      · rw [hv, substituteValues_of_not_mem rest old hnd.1]
      · rw [if_neg hv]
        rcases substituteValues_range rest v with h | h
        · rw [h, if_neg hv]
        · rw [if_neg]
          intro heq
          exact hnew _ (by simp only [List.map_cons]; exact List.mem_cons_of_mem _ h)
            (by rw [heq]; simp)
    rw [replaceLoopIvs, ih body hnd.2 hnew1]
    unfold replaceAllUsesWith
    rw [List.map_map]
    apply List.map_congr_left
    intro o _
    simp only [Function.comp, ScopeOp.mapUses_mapUses]
    rw [hkey]

theorem normalizeIvs_eq :
    ∀ (forOps : List AffineForOp) (iv r : Value) (applies body : List ScopeOp),
      iv + forOps.length ≤ r →
      (∀ a ∈ applies, ∀ v ∈ a.uses, v < iv) →
      normalizeIvs
          ((forOps.map AffineForOp.lowerBoundMap).zip
            ((forOps.map AffineForOp.step).zip
              ((List.range forOps.length).map fun k => iv + k))) applies body r
        = (applies ++ parallelApplies forOps iv r,
            body.map (ScopeOp.mapUses (substituteValues (parallelApplyPairs forOps iv r)))) := by
  intro forOps
  induction forOps with
  | nil =>
    intro iv r applies body _ _
    have hid : ScopeOp.mapUses (substituteValues []) = id :=
      funext fun o => ScopeOp.mapUses_of_fixed _ o (fun _ _ => rfl)
    simp [normalizeIvs, parallelApplies, parallelApplyPairs, hid]
  | cons l rest ih =>
    intro iv r applies body hr happ
    have hrange : (List.range (l :: rest).length).map (fun k => iv + k)
        = iv :: (List.range rest.length).map (fun k => (iv + 1) + k) := by
      simp only [List.length_cons, List.range_succ_eq_map, List.map_cons, List.map_map,
        Nat.add_zero]
      congr 1
      apply List.map_congr_left
      intro k _
      simp only [Function.comp]
      (unfold Value at *; omega)
    simp only [List.length_cons] at hr
    have happ0 : replaceAllUsesWith iv r applies = applies := by
      unfold replaceAllUsesWith
      conv_rhs => rw [← List.map_id applies]
      apply List.map_congr_left
      intro a ha
      apply ScopeOp.mapUses_of_fixed
      intro v hv
      have := happ a ha v hv
      rw [if_neg (by (unfold Value at *; omega))]
    have happ1 : ∀ a ∈ applies ++ [createIvApply l.lowerBoundMap l.step iv r],
        ∀ v ∈ a.uses, v < iv + 1 := by
      intro a ha v hv
      rcases List.mem_append.mp ha with h | h
      · exact Nat.lt_succ_of_lt (happ a h v hv)
      · simp only [List.mem_singleton] at h
        subst h
        simp only [ScopeOp.uses, createIvApply, OpKind.hasStoredValue, OpKind.hasMemref,
          Bool.false_eq_true, if_false, List.nil_append, List.mem_singleton] at hv
        (unfold Value at *; omega)
    have hkey : (fun v => substituteValues (parallelApplyPairs rest (iv + 1) (r + 1))
          (if v = iv then r else v))
        = substituteValues (parallelApplyPairs (l :: rest) iv r) := by
      funext v
      simp only [parallelApplyPairs, substituteValues]
      by_cases hv : v = iv
      · simp only [hv, if_true]
        apply substituteValues_of_not_mem
        intro hmem
        have hlt : ∀ (fs : List AffineForOp) (a b : Value),
            ∀ x ∈ (parallelApplyPairs fs a b).map Prod.fst, x < a + fs.length := by
          intro fs
          induction fs with
          | nil => intro a b x hx; simp [parallelApplyPairs] at hx
          | cons f fs ihf =>
            intro a b x hx
            simp only [parallelApplyPairs, List.map_cons, List.mem_cons] at hx
            simp only [List.length_cons]
            rcases hx with hx | hx
            · (unfold Value at *; omega)
            · have := ihf (a + 1) (b + 1) x hx
              (unfold Value at *; omega)
        have := hlt rest (iv + 1) (r + 1) r hmem
        (unfold Value at *; omega)
      · simp only [hv, if_false]
    rw [List.map_cons, List.map_cons, hrange, List.zip_cons_cons, List.zip_cons_cons,
      normalizeIvs, happ0, ih (iv + 1) (r + 1) _ _ (by (unfold Value at *; omega)) happ1]
    simp only [parallelApplies, List.append_assoc, List.singleton_append, Prod.mk.injEq,
      true_and]
    unfold replaceAllUsesWith
    rw [List.map_map]
    apply List.map_congr_left
    intro o _
    simp only [Function.comp, ScopeOp.mapUses_mapUses]
    rw [hkey]

theorem parallelIvPairs_eq_zip :
    ∀ (forOps : List AffineForOp) (iv : Nat),
      (forOps.map AffineForOp.inductionVar).zip ((List.range forOps.length).map fun k => iv + k)
        = parallelIvPairs forOps iv := by
  intro forOps
  induction forOps with
  | nil => intro _; rfl
  | cons l rest ih =>
    intro iv
    have hrange : (List.range (l :: rest).length).map (fun k => iv + k)
        = iv :: (List.range rest.length).map (fun k => (iv + 1) + k) := by
      simp only [List.length_cons, List.range_succ_eq_map, List.map_cons, List.map_map,
        Nat.add_zero]
      congr 1
      apply List.map_congr_left
      intro k _
      simp only [Function.comp]
      omega
    rw [List.map_cons, hrange, List.zip_cons_cons, ih (iv + 1)]
    rfl

theorem parallelIvPairs_fst :
    ∀ (forOps : List AffineForOp) (iv : Nat),
      (parallelIvPairs forOps iv).map Prod.fst = forOps.map AffineForOp.inductionVar := by
  intro forOps
  induction forOps with
  | nil => intro _; rfl
  | cons l rest ih => intro iv; simp [parallelIvPairs, ih]

theorem parallelIvPairs_snd :
    ∀ (forOps : List AffineForOp) (iv : Nat),
      ∀ n ∈ (parallelIvPairs forOps iv).map Prod.snd, iv ≤ n := by
  intro forOps
  induction forOps with
  | nil => intro _ n hn; simp [parallelIvPairs] at hn
  | cons l rest ih =>
    intro iv n hn
    simp only [parallelIvPairs, List.map_cons, List.mem_cons] at hn
    rcases hn with hn | hn
    · exact Nat.le_of_eq hn.symm
    · exact Nat.le_of_succ_le (ih (iv + 1) n hn)

theorem parallelIvPairs_at :
    ∀ (forOps : List AffineForOp) (iv k : Nat) (l : AffineForOp),
      (forOps.map AffineForOp.inductionVar).Nodup → forOps[k]? = some l →
      substituteValues (parallelIvPairs forOps iv) l.inductionVar = iv + k := by
  intro forOps
  induction forOps with
  | nil => intro iv k l _ h; simp at h
  | cons f rest ih =>
    intro iv k l hnd h
    simp only [List.map_cons, List.nodup_cons] at hnd
    cases k with
    | zero =>
      simp only [List.getElem?_cons_zero, Option.some.injEq] at h
      subst h
      simp [parallelIvPairs, substituteValues]
    | succ k =>
      simp only [List.getElem?_cons_succ] at h
      have hmem : l ∈ rest := List.getElem?_mem h
      have hne : l.inductionVar ≠ f.inductionVar := by
        intro heq
        exact hnd.1 (heq ▸ List.mem_map_of_mem _ hmem)
      simp only [parallelIvPairs, substituteValues, if_neg hne]
      rw [ih (iv + 1) k l hnd.2 h]
      (unfold Value at *; omega)

theorem parallelApplyPairs_at :
    ∀ (forOps : List AffineForOp) (iv r k : Nat), k < forOps.length →
      substituteValues (parallelApplyPairs forOps iv r) (iv + k) = r + k := by
  intro forOps
  induction forOps with
  | nil => intro iv r k h; simp at h
  | cons f rest ih =>
    intro iv r k h
    cases k with
    | zero => simp [parallelApplyPairs, substituteValues]
    | succ k =>
      simp only [List.length_cons] at h
      have hne : iv + (k + 1) ≠ iv := by omega
      simp only [parallelApplyPairs, substituteValues, if_neg hne]
      have h1 : iv + (k + 1) = iv + 1 + k := by omega
      rw [h1, ih (iv + 1) (r + 1) k (by omega)]
      (unfold Value at *; omega)

theorem parallelApplies_at :
    ∀ (forOps : List AffineForOp) (iv r k : Nat) (l : AffineForOp), forOps[k]? = some l →
      (parallelApplies forOps iv r)[k]?
        = some (createIvApply l.lowerBoundMap l.step (iv + k) (r + k)) := by
  intro forOps
  induction forOps with
  | nil => intro iv r k l h; simp at h
  | cons f rest ih =>
    intro iv r k l h
    cases k with
    | zero =>
      simp only [List.getElem?_cons_zero, Option.some.injEq] at h
      subst h
      simp [parallelApplies]
    | succ k =>
      simp only [List.getElem?_cons_succ] at h
      simp only [parallelApplies, List.getElem?_cons_succ]
      rw [ih (iv + 1) (r + 1) k l h]
      have h1 : iv + 1 + k = iv + (k + 1) := by omega
      have h2 : r + 1 + k = r + (k + 1) := by omega
      rw [h1, h2]

/-- C21 (parallel, counterexample). One loop `[0, 256)` with step 128 and
induction variable `%1`, whose body loads `A[%1]`: the parallel operation has
one induction variable `%10`, but the normalization at the end of `parallel`
gives it the step 1 and puts `%11 = affine.apply (0 + d0 * 128)(%10)` at the
start of the body; the load uses `%11`, not the parallel induction variable,
and the body is not the body of the loop. -/
theorem parallel_normalizes_induction_variables :
    parallel [AffineForOp.ofConstants 0 256 128 1]
        [⟨⟨.AffineLoadOp, 5, 0, AffineMap.mk 1 0 [.dim 0], [1]⟩, 2⟩] 10
      = some
          { lowerBoundsMaps := [AffineMap.constant 0],
            upperBoundsMaps :=
              [AffineMap.mk 0 0 [.binary .CeilDiv
                (.binary .Add (.const 256) (.binary .Mul (.const 0) (.const (-1))))
                (.const 128)]],
            steps := [1],
            ivs := [10],
            body :=
              [⟨⟨.AffineApplyOp, 0, 0,
                  AffineMap.mk 1 0 [.binary .Add (.const 0) (.binary .Mul (.dim 0) (.const 128))],
                  [10]⟩, 11⟩,
               ⟨⟨.AffineLoadOp, 5, 0, AffineMap.mk 1 0 [.dim 0], [11]⟩, 2⟩] } ∧
    parallel [] [] 10 = none := by
  decide

/-- C21 (parallel, amended). More than three loops fail the check, and so does
the empty list. One to three loops with distinct induction variables below
`fresh` give one parallel operation with as many induction variables
`fresh, fresh + 1, ...`. When every loop has step 1 and lower bound 0, the
operation has the bounds and steps of the loops and its body is the body of the
innermost loop with the induction variable of the loop at position `k` replaced
by the parallel induction variable `fresh + k`. When the bounds are single
expressions and some loop has another step or lower bound, the operation is
normalized (lower bounds 0, steps 1), its body starts with one `affine.apply`
of `lb_k + d * step_k` to `fresh + k` per loop, and the induction variable of
the loop at position `k` is replaced by the result of that apply. -/
theorem parallel_builds_node (forOps : List AffineForOp) (body : List ScopeOp) (fresh : Value)
    (hfresh : ∀ l ∈ forOps, l.inductionVar < fresh)
    (hnodup : (forOps.map AffineForOp.inductionVar).Nodup) :
    (3 < forOps.length → parallel forOps body fresh = none) ∧
    (forOps = [] → parallel forOps body fresh = none) ∧
    (forOps ≠ [] → forOps.length ≤ 3 →
      ∃ p, parallel forOps body fresh = some p ∧
        p.ivs = (List.range forOps.length).map (fun k => fresh + k) ∧
        ((∀ l ∈ forOps, l.step = 1 ∧ l.lowerBoundMap.results = [.const 0]) →
          p.lowerBoundsMaps = forOps.map AffineForOp.lowerBoundMap ∧
          p.upperBoundsMaps = forOps.map AffineForOp.upperBoundMap ∧
          p.steps = forOps.map AffineForOp.step ∧
          p.body = body.map (ScopeOp.mapUses (substituteValues (parallelIvPairs forOps fresh)))) ∧
        ((∀ l ∈ forOps, l.lowerBoundMap.results.length = 1 ∧
            l.upperBoundMap.results.length = 1) →
          (∃ l ∈ forOps, l.step ≠ 1 ∨ l.lowerBoundMap.results ≠ [.const 0]) →
          p.lowerBoundsMaps = forOps.map (fun _ => AffineMap.constant 0) ∧
          p.steps = forOps.map (fun _ => 1) ∧
          p.body = parallelApplies forOps fresh (fresh + forOps.length)
            ++ body.map (ScopeOp.mapUses fun v =>
                substituteValues (parallelApplyPairs forOps fresh (fresh + forOps.length))
                  (substituteValues (parallelIvPairs forOps fresh) v))) ∧
        ∀ k l, forOps[k]? = some l →
          substituteValues (parallelIvPairs forOps fresh) l.inductionVar = fresh + k ∧
          substituteValues (parallelApplyPairs forOps fresh (fresh + forOps.length)) (fresh + k)
            = fresh + forOps.length + k ∧
          (parallelApplies forOps fresh (fresh + forOps.length))[k]?
            = some (createIvApply l.lowerBoundMap l.step (fresh + k)
                (fresh + forOps.length + k))) := by
  refine ⟨?_, ?_, ?_⟩
  · intro h
    unfold parallel
    rw [if_neg (by omega)]
  · intro h
    subst h
    rfl
  · intro hne hlen
    have hbody : replaceLoopIvs
        ((forOps.map AffineForOp.inductionVar).zip
          ((List.range forOps.length).map fun k => fresh + k)) body
        = body.map (ScopeOp.mapUses (substituteValues (parallelIvPairs forOps fresh))) := by
      rw [parallelIvPairs_eq_zip]
      apply replaceLoopIvs_eq
      · rw [parallelIvPairs_fst]
        exact hnodup
      · intro n hn hmem
        rw [parallelIvPairs_fst] at hmem
        obtain ⟨l, hl, rfl⟩ := List.mem_map.mp hmem
        have h1 := parallelIvPairs_snd forOps fresh _ hn
        have h2 := hfresh l hl
        exact absurd h2 (Nat.not_lt.mpr h1)
    have hpar : parallel forOps body fresh
        = some (normalizeAffineParallel
            { lowerBoundsMaps := forOps.map AffineForOp.lowerBoundMap,
              upperBoundsMaps := forOps.map AffineForOp.upperBoundMap,
              steps := forOps.map AffineForOp.step,
              ivs := (List.range forOps.length).map fun k => fresh + k,
              body := body.map
                (ScopeOp.mapUses (substituteValues (parallelIvPairs forOps fresh))) }
            (fresh + forOps.length)) := by
      unfold parallel
      rw [if_pos hlen]
      cases forOps with
      | nil => exact absurd rfl hne
      | cons l rest =>
        simp only
        rw [hbody]
    generalize hbuilt : AffineParallelOp.mk (forOps.map AffineForOp.lowerBoundMap)
        (forOps.map AffineForOp.upperBoundMap) (forOps.map AffineForOp.step)
        ((List.range forOps.length).map fun k => fresh + k)
        (body.map (ScopeOp.mapUses (substituteValues (parallelIvPairs forOps fresh))))
      = built at hpar
    have hb1 : built.lowerBoundsMaps = forOps.map AffineForOp.lowerBoundMap := by rw [← hbuilt]
    have hb2 : built.upperBoundsMaps = forOps.map AffineForOp.upperBoundMap := by rw [← hbuilt]
    have hb3 : built.steps = forOps.map AffineForOp.step := by rw [← hbuilt]
    have hb4 : built.ivs = (List.range forOps.length).map fun k => fresh + k := by rw [← hbuilt]
    have hb5 : built.body
        = body.map (ScopeOp.mapUses (substituteValues (parallelIvPairs forOps fresh))) := by
      rw [← hbuilt]
    refine ⟨_, hpar, ?_, ?_, ?_, ?_⟩
    · unfold normalizeAffineParallel
      by_cases hmm : built.hasMinMaxBounds = true
      · rw [if_pos hmm, hb4]
      · rw [if_neg hmm]
        by_cases hn : built.isAlreadyNormalized = true
        · rw [if_pos hn, hb4]
        · rw [if_neg hn]
          exact hb4
    · intro hnorm
      have hn : built.isAlreadyNormalized = true := by
        simp only [AffineParallelOp.isAlreadyNormalized, hb1, hb3, Bool.and_eq_true,
          List.all_eq_true, List.mem_map, decide_eq_true_eq]
        constructor
        · rintro s ⟨l, hl, rfl⟩
          exact (hnorm l hl).1
        · rintro m ⟨l, hl, rfl⟩ e he
          rw [(hnorm l hl).2] at he
          simpa using he
      have hsame : normalizeAffineParallel built (fresh + forOps.length) = built := by
        unfold normalizeAffineParallel
        by_cases hmm : built.hasMinMaxBounds = true
        · rw [if_pos hmm]
        · rw [if_neg hmm, if_pos hn]
      rw [hsame]
      exact ⟨hb1, hb2, hb3, hb5⟩
    · intro hsingle hsome
      have hmm : built.hasMinMaxBounds = false := by
        simp only [AffineParallelOp.hasMinMaxBounds, hb1, hb2, List.any_eq_false,
          List.mem_append, List.mem_map, decide_eq_true_eq, not_not]
        rintro m (⟨l, hl, rfl⟩ | ⟨l, hl, rfl⟩)
        · exact (hsingle l hl).1
        · exact (hsingle l hl).2
      have hn : built.isAlreadyNormalized = false := by
        obtain ⟨l, hl, hcase⟩ := hsome
        rw [Bool.eq_false_iff]
        intro hall
        simp only [AffineParallelOp.isAlreadyNormalized, hb1, hb3, Bool.and_eq_true,
          List.all_eq_true, List.mem_map, decide_eq_true_eq] at hall
        rcases hcase with hs | hlb
        · exact hs (hall.1 l.step ⟨l, hl, rfl⟩)
        · have h1 := (hsingle l hl).1
          have h2 := hall.2 l.lowerBoundMap ⟨l, hl, rfl⟩
          cases hres : l.lowerBoundMap.results with
          | nil => rw [hres] at h1; simp at h1
          | cons e t =>
            rw [hres] at h1 h2 hlb
            cases t with
            | nil =>
              have := h2 e (List.mem_singleton_self e)
              exact hlb (by rw [this])
            | cons e2 t2 => simp at h1
      have hiv := normalizeIvs_eq forOps fresh (fresh + forOps.length) []
        (body.map (ScopeOp.mapUses (substituteValues (parallelIvPairs forOps fresh))))
        (Nat.le_refl _) (fun a ha => absurd ha (List.not_mem_nil a))
      unfold normalizeAffineParallel
      rw [hmm, hn]
      simp only [Bool.false_eq_true, if_false, hb1, hb3, hb4, hb5, hiv, List.nil_append,
        List.map_map]
      refine ⟨rfl, rfl, ?_⟩
      congr 1
      apply List.map_congr_left
      intro o _
      simp only [Function.comp, ScopeOp.mapUses_mapUses]
    · intro k l hk
      have hklen : k < forOps.length := (List.getElem?_eq_some.mp hk).1
      exact ⟨parallelIvPairs_at forOps fresh k l hnodup hk,
        parallelApplyPairs_at forOps fresh (fresh + forOps.length) k hklen,
        parallelApplies_at forOps fresh (fresh + forOps.length) k l hk⟩

/-- Witness of `parallel_builds_node`: two loops `[0, 4)` and `[0, 8)` with step
1 and the induction variables `%1`, `%2`, whose innermost body loads
`A[%1, %2]`; the parallel operation has the induction variables `%10`, `%11`
and its body loads `A[%10, %11]`. -/
theorem parallel_builds_node_witness :
    (∀ l ∈ [AffineForOp.ofConstants 0 4 1 1, AffineForOp.ofConstants 0 8 1 2],
      l.inductionVar < 10) ∧
    ([AffineForOp.ofConstants 0 4 1 1, AffineForOp.ofConstants 0 8 1 2].map
      AffineForOp.inductionVar).Nodup ∧
    ∃ p, parallel [AffineForOp.ofConstants 0 4 1 1, AffineForOp.ofConstants 0 8 1 2]
          [⟨⟨.AffineLoadOp, 5, 0, AffineMap.mk 2 0 [.dim 0, .dim 1], [1, 2]⟩, 3⟩] 10 = some p ∧
      p.ivs = [10, 11] ∧
      p.body = [⟨⟨.AffineLoadOp, 5, 0, AffineMap.mk 2 0 [.dim 0, .dim 1], [10, 11]⟩, 3⟩] := by
  have hf : ∀ l ∈ [AffineForOp.ofConstants 0 4 1 1, AffineForOp.ofConstants 0 8 1 2],
      l.inductionVar < 10 := by decide
  have hn : ([AffineForOp.ofConstants 0 4 1 1, AffineForOp.ofConstants 0 8 1 2].map
      AffineForOp.inductionVar).Nodup := by decide
  obtain ⟨p, hp, hivs, hnorm, _, _⟩ :=
    (parallel_builds_node [AffineForOp.ofConstants 0 4 1 1, AffineForOp.ofConstants 0 8 1 2]
      [⟨⟨.AffineLoadOp, 5, 0, AffineMap.mk 2 0 [.dim 0, .dim 1], [1, 2]⟩, 3⟩] 10 hf hn).2.2
      (by decide) (by decide)
  exact ⟨hf, hn, p, hp, hivs.trans (by decide), (hnorm (by decide)).2.2.2.trans (by decide)⟩


/-! ### `Rewriter::unroll` -/

theorem iterationValues_of_ge {lb ub s : Int} (h : ub ≤ lb) : iterationValues lb ub s = [] := by
  simp [iterationValues, tripCount, h]

theorem iterationValues_cons {lb ub s : Int} (hs : 0 < s) (h : lb < ub) :
    iterationValues lb ub s = lb :: iterationValues (lb + s) ub s := by
  have hcount : (tripCount lb ub s).toNat = (tripCount (lb + s) ub s).toNat + 1 := by
    unfold tripCount
    rw [if_neg (not_le.mpr h)]
    have h1 : ub - lb + s - 1 = (ub - (lb + s) + s - 1) + s := by ring
    by_cases h2 : ub ≤ lb + s
    · rw [if_pos h2]
      have h3 : (ub - lb + s - 1) / s = 1 := by
        rw [h1, Int.add_ediv_of_dvd_right (dvd_refl s), Int.ediv_self (ne_of_gt hs)]
        have : (ub - (lb + s) + s - 1) / s = 0 := Int.ediv_eq_zero_of_lt (by omega) (by omega)
        rw [this]
        rfl
      rw [h3]
      rfl
    · rw [if_neg h2, h1, Int.add_ediv_of_dvd_right (dvd_refl s), Int.ediv_self (ne_of_gt hs)]
      have h4 : 0 ≤ (ub - (lb + s) + s - 1) / s := Int.ediv_nonneg (by omega) (le_of_lt hs)
      omega
  unfold iterationValues
  rw [hcount, List.range_succ_eq_map, List.map_cons, List.map_map]
  congr 1
  · simp
  · apply List.map_congr_left
    intro k _
    simp only [Function.comp, Nat.cast_succ]
    ring

theorem iterationValues_nodup {lb ub s : Int} (hs : 0 < s) : (iterationValues lb ub s).Nodup := by
  unfold iterationValues
  apply List.Nodup.map_on _ (List.nodup_range _)
  intro a _ b _ hab
  have h1 : (a : Int) * s = (b : Int) * s := by omega
  have h2 : (a : Int) = (b : Int) := Int.eq_of_mul_eq_mul_right (ne_of_gt hs) h1
  exact_mod_cast h2

theorem unrollFrom_eq_foldl (iv : Value) (body : List ScopeOp) (ub step : Int) (hs : 0 < step) :
    ∀ (fuel : Nat) (index : Int) (s : UnrollState), (ub - index).toNat ≤ fuel →
      unrollFrom iv body ub step fuel index s
        = (iterationValues index ub step).foldl (unrollIteration iv body) s := by
  intro fuel
  induction fuel with
  | zero =>
    intro index s h
    have hge : ub ≤ index := by omega
    rw [iterationValues_of_ge hge]
    rfl
  | succ fuel ih =>
    intro index s h
    unfold unrollFrom
    by_cases hlt : index < ub
    · rw [if_pos hlt, iterationValues_cons hs hlt, List.foldl_cons]
      exact ih _ _ (by omega)
    · rw [if_neg hlt, iterationValues_of_ge (not_lt.mp hlt)]
      rfl

theorem findConstValue_mem :
    ∀ (block : List RootOp) (value : Int) (c : Value),
      findConstValue block value = some c → RootOp.constantIndex c value ∈ block := by
  intro block
  induction block with
  | nil => intro value c h; simp [findConstValue] at h
  | cons op rest ih =>
    intro value c h
    cases op with
    | other => simp [findConstValue] at h
    | constantIndex r v =>
      unfold findConstValue at h
      by_cases hv : value = v
      · rw [if_pos hv] at h
        cases h
        rw [hv]
        exact List.mem_cons_self _ _
      · rw [if_neg hv] at h
        exact List.mem_cons_of_mem _ (ih value c h)

/-- The constants `unroll` creates for the induction values `vs`, the block being
`block` on entry: one for every value that `findConstValue` does not find, the
results counted from `fresh`; the last one created comes first. -/
theorem unroll_foldl (iv : Value) (body : List ScopeOp) :
    ∀ (vs : List Int) (s : UnrollState), vs.Nodup →
      ∃ created : List (Value × Int),
        ((vs.foldl (unrollIteration iv body) s).block
          = (created.map fun p => RootOp.constantIndex p.1 p.2).reverse ++ s.block) ∧
        created.map Prod.snd = vs.filter (fun v => (findConstValue s.block v).isNone) ∧
        created.map Prod.fst = (List.range created.length).map (fun k => s.fresh + k) ∧
        (vs.foldl (unrollIteration iv body) s).fresh = s.fresh + created.length ∧
        (∀ v, v ∉ vs → findConstValue (vs.foldl (unrollIteration iv body) s).block v
          = findConstValue s.block v) ∧
        (∀ v c, findConstValue s.block v = some c →
          findConstValue (vs.foldl (unrollIteration iv body) s).block v = some c) ∧
        ∃ cs : List Value,
          vs.map (findConstValue (vs.foldl (unrollIteration iv body) s).block) = cs.map some ∧
          (vs.foldl (unrollIteration iv body) s).copies
            = s.copies ++ cs.map fun c => replaceAllUsesWith iv c body := by
  intro vs
  induction vs with
  | nil =>
    intro s _
    exact ⟨[], by simp, rfl, rfl, rfl, fun _ _ => rfl, fun _ _ h => h, [], rfl, by simp⟩
  | cons v rest ih =>
    intro s hnd
    rw [List.nodup_cons] at hnd
    rw [List.foldl_cons]
    obtain ⟨created, h1, h2, h3, h4, h5, h6, cs, h7, h8⟩ := ih (unrollIteration iv body s v) hnd.2
    cases hfind : findConstValue s.block v with
    | some c =>
      have hstep : unrollIteration iv body s v
          = { s with copies := s.copies ++ [replaceAllUsesWith iv c body] } := by
        simp only [unrollIteration, hfind]
      rw [hstep] at h1 h2 h3 h4 h5 h6 h7 h8 ⊢
      simp only at h1 h2 h3 h4 h5 h6 h7 h8
      refine ⟨created, h1, ?_, h3, h4, ?_, h6, c :: cs, ?_, ?_⟩
      · rw [h2, List.filter_cons_of_neg (by simp [hfind])]
      · intro w hw
        exact h5 w (fun hm => hw (List.mem_cons_of_mem _ hm))
      · rw [List.map_cons, List.map_cons, h7, h6 v c hfind]
      · rw [h8, List.map_cons, List.append_assoc, List.singleton_append]
    | none =>
      have hstep : unrollIteration iv body s v
          = { block := .constantIndex s.fresh v :: s.block,
              copies := s.copies ++ [replaceAllUsesWith iv s.fresh body],
              fresh := s.fresh + 1 } := by
        simp only [unrollIteration, hfind]
      rw [hstep] at h1 h2 h3 h4 h5 h6 h7 h8 ⊢
      simp only at h1 h2 h3 h4 h5 h6 h7 h8
      have hfilter : rest.filter (fun w =>
            (findConstValue (RootOp.constantIndex s.fresh v :: s.block) w).isNone)
          = rest.filter (fun w => (findConstValue s.block w).isNone) := by
        apply List.filter_congr
        intro w hw
        have hne : w ≠ v := fun e => hnd.1 (e ▸ hw)
        simp only [findConstValue, if_neg hne]
      refine ⟨(s.fresh, v) :: created, ?_, ?_, ?_, ?_, ?_, ?_, s.fresh :: cs, ?_, ?_⟩
      · rw [h1]
        simp
      · rw [List.map_cons, h2, hfilter, List.filter_cons_of_pos (by simp [hfind])]
      · rw [List.map_cons, h3, List.length_cons, List.range_succ_eq_map, List.map_cons,
          List.map_map]
        congr 1
        apply List.map_congr_left
        intro k _
        simp only [Function.comp]
        (unfold Value at *; omega)
      · rw [h4, List.length_cons]
        (unfold Value at *; omega)
      · intro w hw
        have hne : w ≠ v := fun e => hw (e ▸ List.mem_cons_self _ _)
        rw [h5 w (fun hm => hw (List.mem_cons_of_mem _ hm))]
        simp only [findConstValue, if_neg hne]
      · intro w c hc
        have hne : w ≠ v := by
          intro e
          rw [e, hfind] at hc
          cases hc
        apply h6
        simp only [findConstValue, if_neg hne]
        exact hc
      · rw [List.map_cons, List.map_cons, h7, h5 v hnd.1]
        simp [findConstValue]
      · rw [h8, List.map_cons, List.append_assoc, List.singleton_append]

theorem unroll_ofConstants (block : List RootOp) (lb ub step : Int) (iv : Value)
    (body : List ScopeOp) (fresh : Value) (hs : 0 < step) :
    unroll block (AffineForOp.ofConstants lb ub step iv) body fresh
      = some ((iterationValues lb ub step).foldl (unrollIteration iv body)
          { block := block, copies := [], fresh := fresh }) := by
  have h1 : (AffineForOp.ofConstants lb ub step iv).getConstantLowerBound = some lb := rfl
  have h2 : (AffineForOp.ofConstants lb ub step iv).getConstantUpperBound = some ub := rfl
  unfold unroll
  rw [h1, h2]
  show some (unrollFrom iv body ub step (ub - lb).toNat lb
    { block := block, copies := [], fresh := fresh }) = _
  rw [unrollFrom_eq_foldl _ _ _ _ hs _ _ _ (Nat.le_refl _)]

theorem iterationValues_getElem? (lb ub s : Int) (k : Nat)
    (hk : k < (tripCount lb ub s).toNat) :
    (iterationValues lb ub s)[k]? = some (lb + (k : Int) * s) := by
  unfold iterationValues
  rw [List.getElem?_map, List.getElem?_range hk]
  rfl

/-- The copies `unroll` makes of the body of a loop `[lb, ub)` with step `s > 0`
are as many as the loop has iterations, `ceil((ub - lb) / s)` for `lb < ub`, in
the order of the iterations; in copy `k` every use of the induction variable is
a use of the result of an index constant of value `lb + k * s`, found in the
block of the root loop, and the operations are otherwise those of the body. -/
theorem unroll_copies (block : List RootOp) (lb ub step : Int) (iv : Value)
    (body : List ScopeOp) (fresh : Value) (hs : 0 < step) :
    ∃ s, unroll block (AffineForOp.ofConstants lb ub step iv) body fresh = some s ∧
      s.copies.length = (tripCount lb ub step).toNat ∧
      ∀ k : Nat, k < (tripCount lb ub step).toNat →
        ∃ c, RootOp.constantIndex c (lb + (k : Int) * step) ∈ s.block ∧
          s.copies[k]? = some (body.map (ScopeOp.mapUses fun v => if v = iv then c else v)) := by
  refine ⟨_, unroll_ofConstants block lb ub step iv body fresh hs, ?_⟩
  obtain ⟨created, -, -, -, -, -, -, cs, h7, h8⟩ :=
    unroll_foldl iv body (iterationValues lb ub step)
      { block := block, copies := [], fresh := fresh } (iterationValues_nodup hs)
  have hlen : cs.length = (tripCount lb ub step).toNat := by
    have := congrArg List.length h7
    simp only [List.length_map] at this
    rw [← this]
    simp [iterationValues]
  rw [h8]
  simp only [List.nil_append, List.length_map]
  refine ⟨hlen, ?_⟩
  intro k hk
  have hget := congrArg (fun l => l[k]?) h7
  simp only [List.getElem?_map, iterationValues_getElem? lb ub step k hk, Option.map_some'] at hget
  cases hc : cs[k]? with
  | none => rw [hc] at hget; simp at hget
  | some c =>
    rw [hc] at hget
    simp only [Option.map_some', Option.some.injEq] at hget
    exact ⟨c, findConstValue_mem _ _ _ hget, by rw [List.getElem?_map, hc]; rfl⟩

/-- C24 (unroll, counterexample). The selected loop `[0, 2)` carries the value
`%21` and its body holds an operation that uses `%21`: the first copy of the
body still uses `%21` when the clone it came from is erased, and the callback
does not complete. -/
theorem unrollLoop_aborts_on_carried_value :
    unrollLoop [] ⟨2, AffineForOp.ofConstants 0 2 1 1, [21], [30], [40], [50]⟩
        [⟨⟨.Other, 0, 0, AffineMap.mk 0 0 [], [1, 21]⟩, 40⟩] [] [] 10 = none ∧
    (tripCount 0 2 1).toNat = 2 := by
  decide

/-- C24 (unroll, amended). A selected loop `[lb, ub)` with step `s > 0` and
without loop-carried values, standing between the operations `before` and
`after` of its block, is replaced by as many copies of its body as it has
iterations, `ceil((ub - lb) / s)` for `lb < ub`, in the order of the
iterations: the block holds `before`, the copies and `after`, and the loop is
erased. In copy `k` every use of the induction variable is a use of the result
of an index constant of value `lb + k * s`, found in the block of the root loop,
and the operations are otherwise those of the body. -/
theorem unrollLoop_replaces_loop (block : List RootOp) (loop : ChainLoop) (lb ub step : Int)
    (iv : Value) (body before after : List ScopeOp) (fresh : Value) (hs : 0 < step)
    (hfor : loop.forOp = AffineForOp.ofConstants lb ub step iv)
    (hargs : loop.regionIterArgs = []) (hres : loop.results = []) :
    ∃ (r : UnrollResult) (copies : List (List ScopeOp)),
      unrollLoop block loop body before after fresh = some r ∧
      r.parent = before ++ copies.flatten ++ after ∧ r.erased = [loop.handle] ∧
      copies.length = (tripCount lb ub step).toNat ∧
      ∀ k : Nat, k < (tripCount lb ub step).toNat →
        ∃ c, RootOp.constantIndex c (lb + (k : Int) * step) ∈ r.block ∧
          copies[k]? = some (body.map (ScopeOp.mapUses fun v => if v = iv then c else v)) := by
  obtain ⟨s, h1, h2, h3⟩ := unroll_copies block lb ub step iv body fresh hs
  refine ⟨{ block := s.block, parent := before ++ s.copies.flatten ++ after,
            erased := [loop.handle], fresh := s.fresh }, s.copies, ?_, rfl, rfl, h2, h3⟩
  unfold unrollLoop
  rw [hfor, h1]
  simp [hargs, hres]

/-- Witness of `unrollLoop_replaces_loop`: the loop `[2, 7)` with step 2 between
two operations, over a root block that starts with the constant `%5 = 4`; the
three copies use a new constant 2, the constant `%5` and a new constant 6. -/
theorem unrollLoop_replaces_loop_witness :
    unrollLoop [.constantIndex 5 4, .other] ⟨2, AffineForOp.ofConstants 2 7 2 1, [], [], [], []⟩
        [⟨⟨.AffineLoadOp, 9, 0, AffineMap.mk 1 0 [.dim 0], [1]⟩, 3⟩]
        [⟨⟨.Other, 0, 0, AffineMap.mk 0 0 [], []⟩, 60⟩]
        [⟨⟨.Other, 0, 0, AffineMap.mk 0 0 [], [60]⟩, 61⟩] 10
      = some
          { block := [.constantIndex 11 6, .constantIndex 10 2, .constantIndex 5 4, .other],
            parent :=
              [⟨⟨.Other, 0, 0, AffineMap.mk 0 0 [], []⟩, 60⟩,
               ⟨⟨.AffineLoadOp, 9, 0, AffineMap.mk 1 0 [.dim 0], [10]⟩, 3⟩,
               ⟨⟨.AffineLoadOp, 9, 0, AffineMap.mk 1 0 [.dim 0], [5]⟩, 3⟩,
               ⟨⟨.AffineLoadOp, 9, 0, AffineMap.mk 1 0 [.dim 0], [11]⟩, 3⟩,
               ⟨⟨.Other, 0, 0, AffineMap.mk 0 0 [], [60]⟩, 61⟩],
            erased := [2], fresh := 12 } ∧
    ∃ (r : UnrollResult) (copies : List (List ScopeOp)),
      unrollLoop [.constantIndex 5 4, .other]
          ⟨2, AffineForOp.ofConstants 2 7 2 1, [], [], [], []⟩
          [⟨⟨.AffineLoadOp, 9, 0, AffineMap.mk 1 0 [.dim 0], [1]⟩, 3⟩]
          [⟨⟨.Other, 0, 0, AffineMap.mk 0 0 [], []⟩, 60⟩]
          [⟨⟨.Other, 0, 0, AffineMap.mk 0 0 [], [60]⟩, 61⟩] 10 = some r ∧
      r.parent = [⟨⟨.Other, 0, 0, AffineMap.mk 0 0 [], []⟩, 60⟩] ++ copies.flatten
          ++ [⟨⟨.Other, 0, 0, AffineMap.mk 0 0 [], [60]⟩, 61⟩] ∧
      r.erased = [2] ∧ copies.length = (tripCount 2 7 2).toNat :=
  ⟨by decide,
    (unrollLoop_replaces_loop [.constantIndex 5 4, .other]
      ⟨2, AffineForOp.ofConstants 2 7 2 1, [], [], [], []⟩ 2 7 2 1
      [⟨⟨.AffineLoadOp, 9, 0, AffineMap.mk 1 0 [.dim 0], [1]⟩, 3⟩]
      [⟨⟨.Other, 0, 0, AffineMap.mk 0 0 [], []⟩, 60⟩]
      [⟨⟨.Other, 0, 0, AffineMap.mk 0 0 [], [60]⟩, 61⟩] 10 (by decide) rfl rfl rfl).imp
      fun _ h => h.imp fun _ h => ⟨h.1, h.2.1, h.2.2.1, h.2.2.2.1⟩⟩

/-- C25 (unroll, counterexample). The block of the root loop holds an allocation
and then the index constant `%5 = 0`. Unrolling the loop `[0, 1)` creates a new
constant `%10 = 0` at the front of the block and uses it: `findConstValue` stops
at the allocation and never reaches `%5`. -/
theorem unroll_misses_constant_behind_other_operation :
    unroll [.other, .constantIndex 5 0] (AffineForOp.ofConstants 0 1 1 1)
        [⟨⟨.AffineLoadOp, 9, 0, AffineMap.mk 1 0 [.dim 0], [1]⟩, 3⟩] 10
      = some
          { block := [.constantIndex 10 0, .other, .constantIndex 5 0],
            copies := [[⟨⟨.AffineLoadOp, 9, 0, AffineMap.mk 1 0 [.dim 0], [10]⟩, 3⟩]],
            fresh := 11 } := by
  decide

/-- C25 (unroll, amended). For a step `s > 0` the constants `unroll` creates,
each moved to the front of the block of the root loop, are one for every
induction value that `findConstValue` does not find among the index constants
the block starts with, so no two of them have the same value; and an induction
value `lb + k * s` that `findConstValue` finds on entry gets no new constant:
copy `k` uses the constant found. -/
theorem unroll_reuses_leading_constants (block : List RootOp) (lb ub step : Int) (iv : Value)
    (body : List ScopeOp) (fresh : Value) (hs : 0 < step) :
    ∃ (s : UnrollState) (created : List (Value × Int)), unroll block (AffineForOp.ofConstants lb ub step iv) body fresh = some s ∧
      s.block = (created.map fun p : Value × Int => RootOp.constantIndex p.1 p.2).reverse
        ++ block ∧
      created.map Prod.snd
        = (iterationValues lb ub step).filter (fun v => (findConstValue block v).isNone) ∧
      (created.map Prod.snd).Nodup ∧
      ∀ (k : Nat) (c : Value), k < (tripCount lb ub step).toNat →
        findConstValue block (lb + (k : Int) * step) = some c →
        lb + (k : Int) * step ∉ created.map Prod.snd ∧
        s.copies[k]? = some (body.map (ScopeOp.mapUses fun v => if v = iv then c else v)) := by
  obtain ⟨created, h1, h2, -, -, -, h6, cs, h7, h8⟩ :=
    unroll_foldl iv body (iterationValues lb ub step)
      { block := block, copies := [], fresh := fresh } (iterationValues_nodup hs)
  refine ⟨_, created, unroll_ofConstants block lb ub step iv body fresh hs, h1, h2, ?_, ?_⟩
  · rw [h2]
    exact List.Nodup.filter _ (iterationValues_nodup hs)
  · intro k c hk hfind
    constructor
    · rw [h2]
      intro hmem
      have := (List.mem_filter.mp hmem).2
      simp [hfind] at this
    · have hget := congrArg (fun l => l[k]?) h7
      simp only [List.getElem?_map, iterationValues_getElem? lb ub step k hk,
        Option.map_some'] at hget
      rw [h6 _ c hfind] at hget
      rw [h8]
      simp only [List.nil_append, List.getElem?_map]
      cases hc : cs[k]? with
      | none => rw [hc] at hget; simp at hget
      | some c1 =>
        rw [hc] at hget
        simp only [Option.map_some', Option.some.injEq] at hget
        rw [hget]
        rfl

/-- Witness of `unroll_reuses_leading_constants`: the loop `[2, 7)` with step 2
over a block that starts with the constant `%5 = 4`; the copy of the iteration
4 uses `%5`, and the constants created are 2 and 6. -/
theorem unroll_reuses_leading_constants_witness :
    (0 : Int) < 2 ∧
    ∃ (s : UnrollState) (created : List (Value × Int)), unroll [.constantIndex 5 4, .other] (AffineForOp.ofConstants 2 7 2 1)
        [⟨⟨.AffineLoadOp, 9, 0, AffineMap.mk 1 0 [.dim 0], [1]⟩, 3⟩] 10 = some s ∧
      created.map Prod.snd
        = (iterationValues 2 7 2).filter
            (fun v => (findConstValue [.constantIndex 5 4, .other] v).isNone) ∧
      (created.map Prod.snd).Nodup :=
  ⟨by decide,
    (unroll_reuses_leading_constants [.constantIndex 5 4, .other] 2 7 2 1
      [⟨⟨.AffineLoadOp, 9, 0, AffineMap.mk 1 0 [.dim 0], [1]⟩, 3⟩] 10 (by decide)).imp
      fun _ h => h.imp fun _ h1 => ⟨h1.1, h1.2.2.1, h1.2.2.2.1⟩⟩


/-! ### `Rewriter::bufferizeLoopCarryVar` -/

mutual
theorem replaceOperands_complete (src dst : Value) (hne : dst ≠ src) :
    ∀ op : RegionOp, op.singleRegion = true →
      src ∉ (replaceOperands src dst op).allOperands
  | .mk name operands regions, h => by
    simp only [RegionOp.singleRegion, Bool.and_eq_true, decide_eq_true_eq] at h
    have hops : src ∉ operands.map (fun operand => if operand = src then dst else operand) := by
      intro hmem
      obtain ⟨v, _, hv⟩ := List.mem_map.mp hmem
      by_cases hvs : v = src
      · rw [if_pos hvs] at hv
        exact hne hv
      · rw [if_neg hvs] at hv
        exact hvs hv
    cases regions with
    | nil =>
      simp only [replaceOperands, RegionOp.allOperands, allOperandsOfRegions, List.append_nil]
      exact hops
    | cons front others =>
      cases others with
      | nil =>
        simp only [singleRegionRegions, Bool.and_true] at h
        simp only [replaceOperands, RegionOp.allOperands, allOperandsOfRegions, List.append_nil,
          List.mem_append, not_or]
        exact ⟨hops, replaceOperandsInBlock_complete src dst hne front h.2⟩
      | cons second rest =>
        simp only [List.length_cons] at h
        omega
theorem replaceOperandsInBlock_complete (src dst : Value) (hne : dst ≠ src) :
    ∀ block : List RegionOp, singleRegionBlock block = true →
      src ∉ allOperandsOfBlock (replaceOperandsInBlock src dst block)
  | [], _ => by simp [replaceOperandsInBlock, allOperandsOfBlock]
  | op :: rest, h => by
    simp only [singleRegionBlock, Bool.and_eq_true] at h
    simp only [replaceOperandsInBlock, allOperandsOfBlock, List.mem_append, not_or]
    exact ⟨replaceOperands_complete src dst hne op h.1,
      replaceOperandsInBlock_complete src dst hne rest h.2⟩
end

/-! ### `Rewriter::extract_loop` -/

/-- C27 (extract_loop, failing input). The operation is a conditional with two
regions, each holding one operation that uses the induction variable `%1` of
the loop `[0, 8)` with step 2. For iteration 3 the constant `%10 = 6` is
created and the use in the first region is replaced, but the use in the second
region still is `%1`: `replaceOperands` only descends into the first region of
an operation. -/
theorem extract_loop_misses_second_region :
    (extract_loop [.other] (.mk 0 [] [[.mk 1 [1] []], [.mk 2 [1] []]])
        (AffineForOp.ofConstants 0 8 2 1) 3 10).map
        (fun r => (r.block, r.inserted.allOperands))
      = some ([.constantIndex 10 6, .other], [10, 1]) ∧
    (1 : Value) ∈ (replaceOperands 1 10 (.mk 0 [] [[.mk 1 [1] []], [.mk 2 [1] []]])).allOperands := by
  decide


/-! ### The pairwise interchange `swap` -/

theorem findIdx_isLoop (inner : LoopId) (body rest : List BodyOp) :
    ∀ pre : List BodyOp, (∀ o ∈ pre, o.isLoop inner = false) →
      (pre ++ BodyOp.forOp inner body :: rest).findIdx (BodyOp.isLoop inner) = pre.length := by
  intro pre
  induction pre with
  | nil => intro _; simp [List.findIdx_cons, BodyOp.isLoop]
  | cons o pre ih =>
    intro h
    rw [List.cons_append, List.findIdx_cons, h o (List.mem_cons_self _ _)]
    simp only [cond_false, List.length_cons]
    rw [ih (fun p hp => h p (List.mem_cons_of_mem _ hp))]

theorem eraseIdx_append_cons {α : Type} (x : α) (c : List α) :
    ∀ a : List α, (a ++ x :: c).eraseIdx a.length = a ++ c := by
  intro a
  induction a with
  | nil => rfl
  | cons y a ih => simp [List.eraseIdx, ih]

theorem eraseBackward_run (a c : List BodyOp) :
    ∀ b : List BodyOp,
      eraseBackward b.length (((a.length + b.length : Nat) : Int) - 1) (a ++ b ++ c)
        = some (a ++ c) := by
  intro b
  induction b using List.reverseRecOn with
  | nil => simp [eraseBackward]
  | append_singleton b x ih =>
    have hlen : (b ++ [x]).length = b.length + 1 := by simp
    have hiter : (((a.length + (b.length + 1) : Nat) : Int) - 1)
        = ((a.length + b.length : Nat) : Int) := by
      push_cast
      ring
    have hlist : a ++ (b ++ [x]) ++ c = (a ++ b) ++ x :: c := by simp
    rw [hlen, eraseBackward, hiter, hlist]
    have hvalid : (0 : Int) ≤ ((a.length + b.length : Nat) : Int) ∧
        ((a.length + b.length : Nat) : Int) < (((a ++ b) ++ x :: c).length : Int) := by
      constructor
      · exact Int.ofNat_nonneg _
      · simp only [List.length_append, List.length_cons]
        push_cast
        omega
    rw [if_pos hvalid, Int.toNat_ofNat]
    have h1 : ((a ++ b) ++ x :: c).eraseIdx (a.length + b.length) = a ++ b ++ c := by
      have := eraseIdx_append_cons x c (a ++ b)
      rw [List.length_append] at this
      exact this
    rw [h1]
    exact ih

theorem clearOuter_keep (number position : Int) (count : Nat) (i iter : Int)
    (ops : List BodyOp) (h : i = number - 1 - position ∨ i = 0) :
    clearOuter number position (count + 1) i iter ops
      = clearOuter number position count (i + 1) (iter - 1) ops := by
  rw [clearOuter, if_pos h]

theorem clearOuter_run (number position : Int) (a c : List BodyOp) (m : Nat) :
    ∀ (b : List BodyOp) (i : Int),
      (∀ t : Nat, t < b.length → ¬ (i + t = number - 1 - position ∨ i + t = 0)) →
      clearOuter number position (b.length + m) i (((a.length + b.length : Nat) : Int) - 1)
          (a ++ b ++ c)
        = clearOuter number position m (i + b.length) (((a.length : Nat) : Int) - 1) (a ++ c) := by
  intro b
  induction b using List.reverseRecOn with
  | nil => intro i _; simp
  | append_singleton b x ih =>
    intro i h
    have hlen : (b ++ [x]).length = b.length + 1 := by simp
    have hiter : (((a.length + (b.length + 1) : Nat) : Int) - 1)
        = ((a.length + b.length : Nat) : Int) := by
      push_cast
      ring
    have hlist : a ++ (b ++ [x]) ++ c = (a ++ b) ++ x :: c := by simp
    have hcount : b.length + 1 + m = (b.length + m) + 1 := by omega
    have h0 : ¬ (i = number - 1 - position ∨ i = 0) := by
      have := h 0 (by rw [hlen]; omega)
      simpa using this
    have hvalid : (0 : Int) ≤ ((a.length + b.length : Nat) : Int) ∧
        ((a.length + b.length : Nat) : Int) < (((a ++ b) ++ x :: c).length : Int) := by
      constructor
      · exact Int.ofNat_nonneg _
      · simp only [List.length_append, List.length_cons]
        push_cast
        omega
    have h1 : ((a ++ b) ++ x :: c).eraseIdx (a.length + b.length) = a ++ b ++ c := by
      have := eraseIdx_append_cons x c (a ++ b)
      rw [List.length_append] at this
      exact this
    rw [hlen, hcount, clearOuter, if_neg h0, hiter, hlist, if_pos hvalid, Int.toNat_ofNat, h1]
    have hih := ih (i + 1) (fun t ht => by
      have := h (t + 1) (by rw [hlen]; omega)
      have e : i + 1 + (t : Int) = i + ((t + 1 : Nat) : Int) := by push_cast; ring
      rw [e]
      exact this)
    have e2 : i + ((b.length + 1 : Nat) : Int) = i + 1 + (b.length : Int) := by
      push_cast
      ring
    rw [e2]
    exact hih

theorem clearOuter_all (inner : LoopId) (pre post body : List BodyOp) :
    clearOuter ((pre ++ BodyOp.forOp inner body :: (post ++ [BodyOp.yield])).length : Int)
        (pre.length : Int)
        (pre ++ BodyOp.forOp inner body :: (post ++ [BodyOp.yield])).length 0
        (((pre ++ BodyOp.forOp inner body :: (post ++ [BodyOp.yield])).length : Int) - 1)
        (pre ++ BodyOp.forOp inner body :: (post ++ [BodyOp.yield]))
      = some [BodyOp.forOp inner body, BodyOp.yield] := by
  have hlen : (pre ++ BodyOp.forOp inner body :: (post ++ [BodyOp.yield])).length
      = post.length + ((pre.length + 0) + 1) + 1 := by
    simp only [List.length_append, List.length_cons, List.length_nil]
    omega
  have hnum : ((post.length + ((pre.length + 0) + 1) + 1 : Nat) : Int) - 1 - (pre.length : Int)
      = (post.length : Int) + 1 := by
    push_cast
    ring
  rw [hlen, clearOuter_keep _ _ _ _ _ _ (Or.inr rfl)]
  have h1 := clearOuter_run ((post.length + ((pre.length + 0) + 1) + 1 : Nat) : Int)
    (pre.length : Int) (pre ++ [BodyOp.forOp inner body]) [BodyOp.yield] ((pre.length + 0) + 1)
    post (0 + 1) (fun t ht => by
      rw [hnum]
      omega)
  have e1 : (((post.length + ((pre.length + 0) + 1) + 1 : Nat) : Int) - 1 - 1)
      = (((pre ++ [BodyOp.forOp inner body]).length + post.length : Nat) : Int) - 1 := by
    simp only [List.length_append, List.length_cons, List.length_nil]
    push_cast
    ring
  have e2 : pre ++ BodyOp.forOp inner body :: (post ++ [BodyOp.yield])
      = pre ++ [BodyOp.forOp inner body] ++ post ++ [BodyOp.yield] := by simp
  rw [e1, e2, h1]
  have e3 : pre ++ [BodyOp.forOp inner body] ++ [BodyOp.yield]
      = [] ++ pre ++ [BodyOp.forOp inner body, BodyOp.yield] := by simp
  have e4 : (((pre ++ [BodyOp.forOp inner body]).length : Nat) : Int) - 1
      = ((([] : List BodyOp).length + pre.length : Nat) : Int) - 1 + 1 := by
    simp only [List.length_append, List.length_cons, List.length_nil]
    push_cast
    ring
  rw [clearOuter_keep _ _ _ _ _ _ (Or.inl (by rw [hnum]; push_cast; ring))]
  have h2 := clearOuter_run ((post.length + ((pre.length + 0) + 1) + 1 : Nat) : Int)
    (pre.length : Int) [] [BodyOp.forOp inner body, BodyOp.yield] 0
    pre (0 + 1 + (post.length : Int) + 1) (fun t ht => by
      rw [hnum]
      omega)
  rw [e3, e4]
  simp only [add_sub_cancel_right, Nat.add_zero] at h2 ⊢
  rw [h2]
  simp [clearOuter]

/-- C28 (swap). For an outer loop whose body holds the statements `pre`, the
loop `inner` (with the body `body` and its terminator), the statements `post`
and the terminator, `swap` leaves, in this order: a clone of the outer loop
holding exactly `pre`, when `pre` is not empty; the loop `inner` holding the
outer loop, which holds exactly `body`; and a clone of the outer loop holding
exactly `post`, when `post` is not empty. -/
theorem swap_interchange (outer inner fresh : LoopId) (pre post body : List BodyOp)
    (hpre : ∀ o ∈ pre, o.isLoop inner = false) :
    swap outer (pre ++ BodyOp.forOp inner (body ++ [.yield]) :: (post ++ [.yield])) inner fresh
      = some (cloneWith fresh pre
          ++ [.forOp inner [.forOp outer (body ++ [.yield]), .yield]]
          ++ cloneWith (fresh + 1) post) := by
  have hpos := findIdx_isLoop inner (body ++ [.yield]) (post ++ [.yield]) pre hpre
  have hlen : (pre ++ BodyOp.forOp inner (body ++ [.yield]) :: (post ++ [.yield])).length
      = pre.length + post.length + 2 := by
    simp only [List.length_append, List.length_cons, List.length_nil]
    omega
  have hbefore : eraseBackward (pre.length + post.length + 2 - pre.length - 1)
      (((pre.length + post.length + 2 : Nat) : Int) - 2)
      (pre ++ BodyOp.forOp inner (body ++ [.yield]) :: (post ++ [.yield]))
      = some (pre ++ [.yield]) := by
    have h := eraseBackward_run pre [BodyOp.yield] (BodyOp.forOp inner (body ++ [.yield]) :: post)
    have e1 : pre.length + post.length + 2 - pre.length - 1
        = (BodyOp.forOp inner (body ++ [.yield]) :: post).length := by
      simp only [List.length_cons]
      omega
    have e2 : (((pre.length + post.length + 2 : Nat) : Int) - 2)
        = ((pre.length + (BodyOp.forOp inner (body ++ [.yield]) :: post).length : Nat) : Int)
          - 1 := by
      simp only [List.length_cons]
      push_cast
      ring
    have e3 : pre ++ BodyOp.forOp inner (body ++ [.yield]) :: (post ++ [.yield])
        = pre ++ (BodyOp.forOp inner (body ++ [.yield]) :: post) ++ [.yield] := by simp
    rw [e1, e2, e3]
    exact h
  have hafter : eraseBackward (pre.length + 1) (pre.length : Int)
      (pre ++ BodyOp.forOp inner (body ++ [.yield]) :: (post ++ [.yield]))
      = some (post ++ [.yield]) := by
    have h := eraseBackward_run [] (post ++ [BodyOp.yield])
      (pre ++ [BodyOp.forOp inner (body ++ [.yield])])
    have e1 : pre.length + 1 = (pre ++ [BodyOp.forOp inner (body ++ [.yield])]).length := by simp
    have e2 : (pre.length : Int)
        = (((([] : List BodyOp).length
            + (pre ++ [BodyOp.forOp inner (body ++ [.yield])]).length : Nat)) : Int) - 1 := by
      simp only [List.length_append, List.length_cons, List.length_nil]
      push_cast
      ring
    have e3 : pre ++ BodyOp.forOp inner (body ++ [.yield]) :: (post ++ [.yield])
        = [] ++ (pre ++ [BodyOp.forOp inner (body ++ [.yield])]) ++ (post ++ [.yield]) := by simp
    rw [e1, e3]
    rw [e2] at *
    exact h
  have hclear := clearOuter_all inner pre post (body ++ [.yield])
  rw [hlen] at hclear
  have hfinal : ∀ before after : List BodyOp,
      (match ([BodyOp.forOp inner (body ++ [.yield]), BodyOp.yield]).findIdx (BodyOp.isLoop inner),
          ([BodyOp.forOp inner (body ++ [.yield]), BodyOp.yield]).find? (BodyOp.isLoop inner) with
        | at_, some (.forOp _ innerBody) =>
          if innerBody.isEmpty then none
          else
            some (before ++ [BodyOp.forOp inner [BodyOp.forOp outer
              (([BodyOp.forOp inner (body ++ [.yield]), BodyOp.yield]).take at_
                ++ innerBody.dropLast
                ++ ([BodyOp.forOp inner (body ++ [.yield]), BodyOp.yield]).drop (at_ + 1)),
              .yield]] ++ after)
        | _, _ => none)
      = some (before ++ [.forOp inner [.forOp outer (body ++ [.yield]), .yield]] ++ after) := by
    intro before after
    simp [List.findIdx_cons, BodyOp.isLoop, List.find?]
  have hq : (↑pre.length ≠ ((pre.length + post.length + 2 : Nat) : Int) - 2) ↔ post ≠ [] := by
    constructor
    · intro h hnil
      apply h
      rw [hnil]
      simp
    · intro h heq
      apply h
      apply List.length_eq_zero.mp
      push_cast at heq
      omega
  have hB : (if decide (pre.length ≠ 0) = true then
        Option.map (fun ops_ => [BodyOp.forOp fresh ops_])
          (eraseBackward (pre.length + post.length + 2 - pre.length - 1)
            (((pre.length + post.length + 2 : Nat) : Int) - 2)
            (pre ++ BodyOp.forOp inner (body ++ [.yield]) :: (post ++ [.yield])))
      else some []) = some (cloneWith fresh pre) := by
    rw [hbefore]
    cases pre with
    | nil => simp [cloneWith]
    | cons o t => simp [cloneWith]
  have hA : (if decide (↑pre.length ≠ ((pre.length + post.length + 2 : Nat) : Int) - 2) = true then
        Option.map (fun ops_ => [BodyOp.forOp (fresh + 1) ops_])
          (eraseBackward (pre.length + 1) (↑pre.length)
            (pre ++ BodyOp.forOp inner (body ++ [.yield]) :: (post ++ [.yield])))
      else some []) = some (cloneWith (fresh + 1) post) := by
    rw [hafter]
    by_cases hnil : post = []
    · have : ¬ (↑pre.length ≠ ((pre.length + post.length + 2 : Nat) : Int) - 2) :=
        fun h => hq.mp h hnil
      rw [if_neg (by simpa using this)]
      simp [cloneWith, hnil]
    · rw [if_pos (by simpa using hq.mpr hnil)]
      cases post with
      | nil => exact absurd rfl hnil
      | cons o t => simp [cloneWith]
  have hC : (if (decide (pre.length ≠ 0)
          || decide (↑pre.length ≠ ((pre.length + post.length + 2 : Nat) : Int) - 2)) = true then
        clearOuter (((pre.length + post.length + 2 : Nat) : Int)) (↑pre.length)
          (pre.length + post.length + 2) 0 (((pre.length + post.length + 2 : Nat) : Int) - 1)
          (pre ++ BodyOp.forOp inner (body ++ [.yield]) :: (post ++ [.yield]))
      else some (pre ++ BodyOp.forOp inner (body ++ [.yield]) :: (post ++ [.yield])))
      = some [BodyOp.forOp inner (body ++ [.yield]), BodyOp.yield] := by
    rw [hclear]
    by_cases hcond : (decide (pre.length ≠ 0)
        || decide (↑pre.length ≠ ((pre.length + post.length + 2 : Nat) : Int) - 2)) = true
    · rw [if_pos hcond]
    · rw [if_neg hcond]
      simp only [Bool.or_eq_true, decide_eq_true_eq, not_or, not_not] at hcond
      have h1 : pre = [] := List.length_eq_zero.mp hcond.1
      have h2 : post = [] := by
        by_contra hne
        exact hq.mpr hne hcond.2
      rw [h1, h2]
      rfl
  unfold swap
  simp only [hpos, hlen]
  rw [if_pos (by omega), hB, hA, hC]
  exact hfinal _ _

/-- Witness of `swap_interchange`: the outer loop `1` holds the statement 10,
the loop `2` with the statement 20, and the statement 11. -/
theorem swap_interchange_witness :
    (∀ o ∈ [BodyOp.stmt 10], o.isLoop 2 = false) ∧
    swap 1 [.stmt 10, .forOp 2 [.stmt 20, .yield], .stmt 11, .yield] 2 100
      = some [.forOp 100 [.stmt 10, .yield],
              .forOp 2 [.forOp 1 [.stmt 20, .yield], .yield],
              .forOp 101 [.stmt 11, .yield]] :=
  ⟨by decide, swap_interchange 1 2 100 [.stmt 10] [.stmt 11] [.stmt 20] (by decide)⟩

/-! ### `Rewriter::blockLevelOneToTwo` -/

/-- C38 (blockLevelOneToTwo). For a parallel operation with a first induction
variable `threadIdx0` and `oneDimLen > 0`, `blockLevelOneToTwo` puts two applies
of `threadIdx0` at the start of the body and returns their results; for every
value `t` of `threadIdx0` (in particular every `t >= 0`) the first one computes
`y`, the second one `x`, with `y * oneDimLen + x = t` and `0 <= x < oneDimLen`. -/
theorem blockLevelOneToTwo_indices (pal : AffineParallelOp) (oneDimLen : Int) (fresh : Value)
    (env : Value → Int) (threadIdx0 : Value) (rest : List Value)
    (hivs : pal.ivs = threadIdx0 :: rest) (hlen : 0 < oneDimLen) :
    ∃ (threadIdxY threadIdxX : ScopeOp) (y x : Int),
      blockLevelOneToTwo pal oneDimLen fresh
        = some ({ pal with body := threadIdxY :: threadIdxX :: pal.body },
            [threadIdxY.result, threadIdxX.result]) ∧
      threadIdxY.op.kind = .AffineApplyOp ∧ threadIdxX.op.kind = .AffineApplyOp ∧
      threadIdxY.op.mapOperands = [threadIdx0] ∧ threadIdxX.op.mapOperands = [threadIdx0] ∧
      threadIdxY.op.map.valueAt env threadIdxY.op.mapOperands = [y] ∧
      threadIdxX.op.map.valueAt env threadIdxX.op.mapOperands = [x] ∧
      y * oneDimLen + x = env threadIdx0 ∧ 0 ≤ x ∧ x < oneDimLen := by
  refine ⟨⟨⟨.AffineApplyOp, 0, 0, ⟨1, 0, [.binary .FloorDiv (.dim 0) (.const oneDimLen)]⟩,
      [threadIdx0]⟩, fresh⟩,
    ⟨⟨.AffineApplyOp, 0, 0, ⟨1, 0, [.binary .Mod (.dim 0) (.const oneDimLen)]⟩,
      [threadIdx0]⟩, fresh + 1⟩,
    Int.fdiv (env threadIdx0) oneDimLen, Int.fmod (env threadIdx0) oneDimLen, ?_, ?_⟩
  · unfold blockLevelOneToTwo
    rw [hivs]
  · refine ⟨rfl, rfl, rfl, rfl, ?_, ?_, ?_, ?_, ?_⟩
    · simp [AffineMap.valueAt, AffineExpr.value, AffineExprKind.apply]
    · simp [AffineMap.valueAt, AffineExpr.value, AffineExprKind.apply]
    · rw [Int.fdiv_eq_ediv _ (le_of_lt hlen), Int.fmod_eq_emod _ (le_of_lt hlen)]
      have := Int.ediv_add_emod (env threadIdx0) oneDimLen
      linarith [mul_comm (env threadIdx0 / oneDimLen) oneDimLen]
    · rw [Int.fmod_eq_emod _ (le_of_lt hlen)]
      exact Int.emod_nonneg _ (ne_of_gt hlen)
    · rw [Int.fmod_eq_emod _ (le_of_lt hlen)]
      exact Int.emod_lt_of_pos _ hlen

/-- Witness of `blockLevelOneToTwo_indices`: thread index `13` with
`oneDimLen = 4` gives `y = 3` and `x = 1`. -/
theorem blockLevelOneToTwo_indices_witness :
    ∃ (threadIdxY threadIdxX : ScopeOp) (y x : Int),
      blockLevelOneToTwo ⟨[AffineMap.constant 0], [AffineMap.constant 64], [1], [5], []⟩ 4 20
        = some ({ (⟨[AffineMap.constant 0], [AffineMap.constant 64], [1], [5], []⟩ :
              AffineParallelOp) with
              body := threadIdxY :: threadIdxX :: [] },
            [threadIdxY.result, threadIdxX.result]) ∧
      threadIdxY.op.kind = .AffineApplyOp ∧ threadIdxX.op.kind = .AffineApplyOp ∧
      threadIdxY.op.mapOperands = [5] ∧ threadIdxX.op.mapOperands = [5] ∧
      threadIdxY.op.map.valueAt (fun _ => 13) threadIdxY.op.mapOperands = [y] ∧
      threadIdxX.op.map.valueAt (fun _ => 13) threadIdxX.op.mapOperands = [x] ∧
      y * 4 + x = 13 ∧ 0 ≤ x ∧ x < 4 :=
  blockLevelOneToTwo_indices ⟨[AffineMap.constant 0], [AffineMap.constant 64], [1], [5], []⟩ 4 20
    (fun _ => 13) 5 [] rfl (by decide)

/-! ### `Rewriter::change_double_buffer` -/

/-- The callback of `change_double_buffer` leaves alone whatever is not a vector
load of the buffer. -/
theorem changeDoubleBufferOp_other (buffer : Value) (op : Operation)
    (h : ¬ (op.kind = .AffineVectorLoadOp ∧ op.memref = buffer)) :
    changeDoubleBufferOp buffer op = some op := by
  unfold changeDoubleBufferOp
  rw [if_neg h]

/-- The callback of `change_double_buffer` on a vector load of the buffer whose
first index is `e mod 2`. -/
theorem changeDoubleBufferOp_load (buffer : Value) (op : Operation) (e : AffineExpr)
    (rest : List AffineExpr) (h : op.kind = .AffineVectorLoadOp ∧ op.memref = buffer)
    (hres : op.map.results = .binary .Mod e (.const 2) :: rest) :
    changeDoubleBufferOp buffer op
      = some { op with
          map := { numDims := op.map.numDims, numSymbols := 0,
                   results := .binary .Mod (.binary .Add e (.const 1)) (.const 2) :: rest } } := by
  unfold changeDoubleBufferOp
  rw [if_pos h, hres]
  simp

/-- The slot `(e + 1) mod 2` is the other one of the two slots, and
`((e + 1) + 1) mod 2` is the slot `e mod 2` again. -/
theorem slot_flip_value (dims : List Int) (e : AffineExpr) :
    (AffineExpr.binary .Mod (.binary .Add e (.const 1)) (.const 2)).value dims []
        = 1 - (AffineExpr.binary .Mod e (.const 2)).value dims [] ∧
      (AffineExpr.binary .Mod (.binary .Add (.binary .Add e (.const 1)) (.const 1))
          (.const 2)).value dims []
        = (AffineExpr.binary .Mod e (.const 2)).value dims [] := by
  simp only [AffineExpr.value, AffineExprKind.apply]
  rw [Int.fmod_eq_emod _ (by norm_num), Int.fmod_eq_emod _ (by norm_num),
    Int.fmod_eq_emod _ (by norm_num)]
  omega

theorem mapOrAbort_twice {α : Type} (f : α → Option α) (R1 R2 : α → α → Prop) :
    ∀ l : List α, (∀ a ∈ l, ∃ b c, f a = some b ∧ f b = some c ∧ R1 a b ∧ R2 a c) →
      ∃ bs cs, mapOrAbort f l = some bs ∧ mapOrAbort f bs = some cs ∧
        List.Forall₂ R1 l bs ∧ List.Forall₂ R2 l cs := by
  intro l
  induction l with
  | nil => intro _; exact ⟨[], [], rfl, rfl, List.Forall₂.nil, List.Forall₂.nil⟩
  | cons a rest ih =>
    intro h
    obtain ⟨b, c, hb, hc, h1, h2⟩ := h a (List.mem_cons_self _ _)
    obtain ⟨bs, cs, hbs, hcs, hs1, hs2⟩ := ih (fun x hx => h x (List.mem_cons_of_mem _ hx))
    exact ⟨b :: bs, c :: cs, by simp [mapOrAbort, hb, hbs], by simp [mapOrAbort, hc, hcs],
      List.Forall₂.cons h1 hs1, List.Forall₂.cons h2 hs2⟩

/-- C39 (change_double_buffer). On a scope in which every vector load of the
buffer has a first index of the form `e mod 2`, `change_double_buffer` returns,
and so does a second run. One run leaves every other operation as it is and
gives a vector load of the buffer the first index `(e + 1) mod 2`, the other
slot, with the other indices, the dimension count, the memref and the operands
kept. After two runs every operation has its kind, memref, operands and
dimension count, and every index has the value it had at first, whatever the
values of the dimensions. -/
theorem change_double_buffer_flips (scope : List Operation) (buffer : Value)
    (hled : ∀ op ∈ scope, op.kind = .AffineVectorLoadOp → op.memref = buffer →
      ∃ e rest, op.map.results = .binary .Mod e (.const 2) :: rest) :
    ∃ once twice, change_double_buffer scope buffer = some once ∧
      change_double_buffer once buffer = some twice ∧
      List.Forall₂ (fun (op op1 : Operation) =>
        op1.kind = op.kind ∧ op1.memref = op.memref ∧ op1.storedValue = op.storedValue ∧
        op1.mapOperands = op.mapOperands ∧ op1.map.numDims = op.map.numDims ∧
        (¬ (op.kind = .AffineVectorLoadOp ∧ op.memref = buffer) → op1 = op) ∧
        (op.kind = .AffineVectorLoadOp ∧ op.memref = buffer →
          ∃ e rest, op.map.results = .binary .Mod e (.const 2) :: rest ∧
            op1.map.results = .binary .Mod (.binary .Add e (.const 1)) (.const 2) :: rest ∧
            ∀ dims : List Int,
              (AffineExpr.binary .Mod (.binary .Add e (.const 1)) (.const 2)).value dims []
                = 1 - (AffineExpr.binary .Mod e (.const 2)).value dims [])) scope once ∧
      List.Forall₂ (fun (op op2 : Operation) =>
        op2.kind = op.kind ∧ op2.memref = op.memref ∧ op2.storedValue = op.storedValue ∧
        op2.mapOperands = op.mapOperands ∧ op2.map.numDims = op.map.numDims ∧
        ∀ dims : List Int, op2.map.results.map (AffineExpr.value dims [])
          = op.map.results.map (AffineExpr.value dims [])) scope twice := by
  unfold change_double_buffer
  apply mapOrAbort_twice
  intro op hop
  by_cases h : op.kind = .AffineVectorLoadOp ∧ op.memref = buffer
  · obtain ⟨e, rest, hres⟩ := hled op hop h.1 h.2
    have h1 := changeDoubleBufferOp_load buffer op e rest h hres
    have h2 := changeDoubleBufferOp_load buffer
      { op with
        map := { numDims := op.map.numDims, numSymbols := 0,
                 results := .binary .Mod (.binary .Add e (.const 1)) (.const 2) :: rest } }
      (.binary .Add e (.const 1)) rest h rfl
    refine ⟨_, _, h1, h2, ⟨rfl, rfl, rfl, rfl, rfl, fun hn => absurd h hn, fun _ =>
      ⟨e, rest, hres, rfl, fun dims => (slot_flip_value dims e).1⟩⟩,
      ⟨rfl, rfl, rfl, rfl, rfl, fun dims => ?_⟩⟩
    rw [hres]
    simp only [List.map_cons]
    rw [(slot_flip_value dims e).2]
  · have h1 := changeDoubleBufferOp_other buffer op h
    exact ⟨op, op, h1, h1, ⟨rfl, rfl, rfl, rfl, rfl, fun _ => rfl, fun hp => absurd hp h⟩,
      ⟨rfl, rfl, rfl, rfl, rfl, fun _ => rfl⟩⟩

/-- Witness of `change_double_buffer_flips`: a scope with a vector load of the
buffer `%3` at `[(d0 floordiv 8) mod 2, d1]` and a vector load of another
memref. -/
theorem change_double_buffer_flips_witness :
    ∃ once twice,
      change_double_buffer
        ([⟨.AffineVectorLoadOp, 3, 0,
            ⟨2, 0, [.binary .Mod (.binary .FloorDiv (.dim 0) (.const 8)) (.const 2), .dim 1]⟩,
            [7, 9]⟩,
         ⟨.AffineVectorLoadOp, 4, 0, ⟨1, 0, [.dim 0]⟩, [9]⟩] : List Operation) 3 = some once ∧
      change_double_buffer once 3 = some twice ∧
      List.Forall₂ (fun (op op1 : Operation) =>
        op1.kind = op.kind ∧ op1.memref = op.memref ∧ op1.storedValue = op.storedValue ∧
        op1.mapOperands = op.mapOperands ∧ op1.map.numDims = op.map.numDims ∧
        (¬ (op.kind = .AffineVectorLoadOp ∧ op.memref = 3) → op1 = op) ∧
        (op.kind = .AffineVectorLoadOp ∧ op.memref = 3 →
          ∃ e rest, op.map.results = .binary .Mod e (.const 2) :: rest ∧
            op1.map.results = .binary .Mod (.binary .Add e (.const 1)) (.const 2) :: rest ∧
            ∀ dims : List Int,
              (AffineExpr.binary .Mod (.binary .Add e (.const 1)) (.const 2)).value dims []
                = 1 - (AffineExpr.binary .Mod e (.const 2)).value dims []))
        ([⟨.AffineVectorLoadOp, 3, 0,
            ⟨2, 0, [.binary .Mod (.binary .FloorDiv (.dim 0) (.const 8)) (.const 2), .dim 1]⟩,
            [7, 9]⟩,
         ⟨.AffineVectorLoadOp, 4, 0, ⟨1, 0, [.dim 0]⟩, [9]⟩] : List Operation) once ∧
      List.Forall₂ (fun (op op2 : Operation) =>
        op2.kind = op.kind ∧ op2.memref = op.memref ∧ op2.storedValue = op.storedValue ∧
        op2.mapOperands = op.mapOperands ∧ op2.map.numDims = op.map.numDims ∧
        ∀ dims : List Int, op2.map.results.map (AffineExpr.value dims [])
          = op.map.results.map (AffineExpr.value dims []))
        ([⟨.AffineVectorLoadOp, 3, 0,
            ⟨2, 0, [.binary .Mod (.binary .FloorDiv (.dim 0) (.const 8)) (.const 2), .dim 1]⟩,
            [7, 9]⟩,
         ⟨.AffineVectorLoadOp, 4, 0, ⟨1, 0, [.dim 0]⟩, [9]⟩] : List Operation) twice :=
  change_double_buffer_flips _ 3 (by
    intro op hop hk hm
    simp only [List.mem_cons, List.mem_singleton, List.not_mem_nil, or_false] at hop
    rcases hop with rfl | rfl
    · exact ⟨_, _, rfl⟩
    · exact absurd hm (by decide))

/-! ### The helper `eval` -/

/-- On a node with a nonnegative left operand and a positive right operand the
C++ operators of `eval` compute the value of the affine expression. -/
theorem eval_binary_of_nonneg (k : AffineExprKind) (l r : AffineExpr) (values : List Int)
    (lhs rhs : Int) (hl : eval l values = some lhs) (hr : eval r values = some rhs)
    (h0 : 0 ≤ lhs) (h1 : 0 < rhs) :
    eval (.binary k l r) values = some (k.apply lhs rhs) := by
  have hne : rhs ≠ 0 := ne_of_gt h1
  cases k
  · simp [eval, hl, hr, AffineExprKind.apply]
  · simp [eval, hl, hr, AffineExprKind.apply]
  · simp only [eval, hl, hr, AffineExprKind.apply, if_neg hne]
    rw [Int.tmod_eq_emod h0 (le_of_lt h1), Int.fmod_eq_emod _ (le_of_lt h1)]
  · simp only [eval, hl, hr, AffineExprKind.apply, if_neg hne]
    rw [Int.tdiv_eq_ediv h0 (le_of_lt h1), Int.fdiv_eq_ediv _ (le_of_lt h1)]
  · simp only [eval, hl, hr, AffineExprKind.apply, if_neg hne]
    rw [Int.tdiv_eq_ediv (by omega) (le_of_lt h1), Int.fdiv_eq_ediv _ (le_of_lt h1)]
    congr 1
    have e1 := Int.emod_add_ediv (-lhs) rhs
    have e2 := Int.emod_nonneg (-lhs) hne
    have e3 := Int.emod_lt_of_pos (-lhs) h1
    have e4 : lhs + rhs - 1 = (rhs - 1 - (-lhs) % rhs) + rhs * (-((-lhs) / rhs)) := by
      have : rhs * (-((-lhs) / rhs)) = -(rhs * ((-lhs) / rhs)) := by ring
      rw [this]
      omega
    rw [e4, Int.add_mul_ediv_left _ _ hne, Int.ediv_eq_zero_of_lt (by omega) (by omega)]
    ring

/-- C33 (eval, failing inputs). At a negative value of `d0` the helper `eval`
does not return the value of the affine expression: `d0 floordiv 2` at `-1`
gives `0` where the floor is `-1`; `d0 mod 2` at `-1` gives `-1` where the
remainder is `1`; `d0 ceildiv 2` at `-2` gives `0` where the ceiling is `-1`. -/
theorem eval_truncates_toward_zero :
    eval (.binary .FloorDiv (.dim 0) (.const 2)) [-1] = some 0 ∧
    (AffineExpr.binary .FloorDiv (.dim 0) (.const 2)).value [-1] [] = -1 ∧
    eval (.binary .Mod (.dim 0) (.const 2)) [-1] = some (-1) ∧
    (AffineExpr.binary .Mod (.dim 0) (.const 2)).value [-1] [] = 1 ∧
    eval (.binary .CeilDiv (.dim 0) (.const 2)) [-2] = some 0 ∧
    (AffineExpr.binary .CeilDiv (.dim 0) (.const 2)).value [-2] [] = -1 := by
  decide

/-! ### `Rewriter::detach_last_loop` -/

theorem tripCount_of_mul {lb ub s q : Int} (hs : 0 < s) (hq : 0 ≤ q) (h : ub - lb = s * q) :
    tripCount lb ub s = q := by
  unfold tripCount
  split
  · rename_i hle
    have h0 : s * q ≤ 0 := by omega
    rcases eq_or_lt_of_le hq with h2 | h2
    · exact h2
    · have := mul_pos hs h2
      omega
  · have e : ub - lb + s - 1 = (s - 1) + s * q := by omega
    rw [e, Int.add_mul_ediv_left _ _ (ne_of_gt hs),
      Int.ediv_eq_zero_of_lt (by omega) (by omega), zero_add]

/-- When the step divides the extent of a loop with an iteration, the shortened
loop followed by the constant `ub - step` runs through the iterations of the
loop. -/
theorem detach_last_loop_values_of_dvd (lb ub s : Int) (hs : 0 < s) (hlt : lb < ub)
    (hd : s ∣ ub - lb) :
    iterationValues lb (ub - s) s ++ [ub - s] = iterationValues lb ub s := by
  obtain ⟨q, hq⟩ := hd
  have hq1 : 1 ≤ q := by
    by_contra hcon
    have : q ≤ 0 := by omega
    have := mul_nonpos_of_nonneg_of_nonpos (le_of_lt hs) this
    omega
  have t1 : tripCount lb ub s = q := tripCount_of_mul hs (by omega) hq
  have t2 : tripCount lb (ub - s) s = q - 1 :=
    tripCount_of_mul hs (by omega) (by rw [mul_sub, mul_one]; omega)
  unfold iterationValues
  rw [t1, t2]
  obtain ⟨n, rfl⟩ : ∃ n : Nat, q = (n : Int) + 1 := ⟨(q - 1).toNat, by omega⟩
  have e1 : ((n : Int) + 1 - 1).toNat = n := by omega
  have e2 : ((n : Int) + 1).toNat = n + 1 := by omega
  rw [e1, e2, List.range_succ, List.map_append]
  congr 1
  simp only [List.map_cons, List.map_nil, List.cons.injEq, and_true]
  have : s * ((n : Int) + 1) = (n : Int) * s + s := by ring
  omega

/-- C35 (detach_last_loop, failing input). For the loop `[0, 10)` with step `4`
whose body loads `A[iv]`, the body runs at `0, 4, 8`; after `detach_last_loop`
the loop runs at `0, 4` and the copy of the body uses the constant `6`. -/
theorem detach_last_loop_indivisible_extent :
    (detach_last_loop (AffineForOp.ofConstants 0 10 4 7)
        [⟨⟨.AffineLoadOp, 3, 0, ⟨1, 0, [.dim 0]⟩, [7]⟩, 8⟩] 20).map
        (fun r => (r.forOp, r.replaceInducetionVar, r.peeled, r.bodyValues))
      = some (AffineForOp.ofConstants 0 6 4 7, (20, 6),
          [⟨⟨.AffineLoadOp, 3, 0, ⟨1, 0, [.dim 0]⟩, [20]⟩, 8⟩], [0, 4, 6]) ∧
    iterationValues 0 10 4 = [0, 4, 8] := by
  decide

/-! ### `Rewriter::modifyLoopStepToOne` -/

/-- When the step divides both bounds, the new induction values times the step
are the old induction values. -/
theorem modifyLoopStepToOne_values_of_dvd (lb ub s : Int) (hs : 0 < s) (hl : s ∣ lb)
    (hu : s ∣ ub) :
    (iterationValues (Int.tdiv lb s) (Int.tdiv ub s) 1).map (fun i => i * s)
      = iterationValues lb ub s := by
  obtain ⟨a, rfl⟩ := hl
  obtain ⟨b, rfl⟩ := hu
  rw [Int.mul_tdiv_cancel_left _ (ne_of_gt hs), Int.mul_tdiv_cancel_left _ (ne_of_gt hs)]
  have t1 : tripCount a b 1 = tripCount (s * a) (s * b) s := by
    by_cases hab : b ≤ a
    · have h2 : s * b ≤ s * a := mul_le_mul_of_nonneg_left hab (le_of_lt hs)
      simp [tripCount, hab, h2]
    · have h3 : tripCount a b 1 = b - a :=
        tripCount_of_mul (by norm_num) (by omega) (by ring)
      have h4 : tripCount (s * a) (s * b) s = b - a :=
        tripCount_of_mul hs (by omega) (by ring)
      rw [h3, h4]
  unfold iterationValues
  rw [t1, List.map_map]
  apply List.map_congr_left
  intro k _
  simp only [Function.comp]
  ring

/-- C36 (modifyLoopStepToOne, failing inputs). For the loop `[0, 10)` with step
`4` whose body loads `A[iv]` the new loop is `[0, 2)` and the load reads
`A[iv * 4]`, at `0, 4`: the original value `8` is lost. For `[2, 10)` with step
`4` the new loop is `[0, 2)` as well and the load reads `0, 4` where the
original loop gave `2, 6`. -/
theorem modifyLoopStepToOne_indivisible_bounds :
    modifyLoopStepToOne (AffineForOp.ofConstants 0 10 4 7)
        [⟨.AffineLoadOp, 3, 0, ⟨1, 0, [.dim 0]⟩, [7]⟩] 20
      = some ⟨AffineForOp.ofConstants 0 2 1 20,
          [⟨.AffineLoadOp, 3, 0, ⟨1, 0, [.binary .Mul (.dim 0) (.const 4)]⟩, [20]⟩]⟩ ∧
    (iterationValues 0 2 1).map
        (fun i => (AffineMap.mk 1 0 [.binary .Mul (.dim 0) (.const 4)]).valueAt (fun _ => i) [20])
      = [[0], [4]] ∧
    iterationValues 0 10 4 = [0, 4, 8] ∧
    modifyLoopStepToOne (AffineForOp.ofConstants 2 10 4 7)
        [⟨.AffineLoadOp, 3, 0, ⟨1, 0, [.dim 0]⟩, [7]⟩] 20
      = some ⟨AffineForOp.ofConstants 0 2 1 20,
          [⟨.AffineLoadOp, 3, 0, ⟨1, 0, [.binary .Mul (.dim 0) (.const 4)]⟩, [20]⟩]⟩ ∧
    iterationValues 2 10 4 = [2, 6] := by
  decide

/-! ### `Rewriter::bufferizeLoopCarryVar`: the extent of the buffer -/

/-- For an enclosing loop `[0, ub)` with step 1 the extent `(ub - lb) / step` is
`ub` and every induction value is an index within it. -/
theorem bufferShape_valid_of_normalized (ub : Int) :
    ∀ iv ∈ iterationValues 0 ub 1, 0 ≤ iv ∧ iv < Int.tdiv (ub - 0) 1 := by
  intro iv hiv
  unfold iterationValues at hiv
  obtain ⟨k, hk, rfl⟩ := List.mem_map.mp hiv
  rw [List.mem_range] at hk
  have ht : tripCount 0 ub 1 ≤ ub ∨ tripCount 0 ub 1 = 0 := by
    unfold tripCount
    split
    · exact Or.inr rfl
    · left
      rw [Int.ediv_one]
      omega
  rw [Int.tdiv_one]
  omega

/-- C34 (bufferizeLoopCarryVar, failing inputs). The chain holds the carrying
loop `%2` and the loop `%1 = [4, 16)` with step `4` around it. Listed after the
carrying loop, `%1` gives the buffer one dimension of extent `(16 - 4) / 4 = 3`
addressed by its induction variable `%10`, whose values `4, 8, 12` all lie
outside `[0, 3)`. Listed before the carrying loop, `%1` gives the buffer no
dimension at all. -/
theorem bufferizeLoopCarryVar_index_outside_extent :
    (bufferizeLoopCarryVar (fun a b => a == 1 && b == 2) (fun _ => true)
        [⟨2, AffineForOp.ofConstants 0 8 2 20, [21], [30], [40], [50]⟩,
         ⟨1, AffineForOp.ofConstants 4 16 4 10, [], [], [], []⟩] 100).map
        (fun r => (r.bufferShape, r.bufferAdrressOperand))
      = some ([3], [10]) ∧
    iterationValues 4 16 4 = [4, 8, 12] ∧
    (∀ iv ∈ iterationValues 4 16 4, ¬ iv < 3) ∧
    (bufferizeLoopCarryVar (fun a b => a == 1 && b == 2) (fun _ => true)
        [⟨1, AffineForOp.ofConstants 4 16 4 10, [], [], [], []⟩,
         ⟨2, AffineForOp.ofConstants 0 8 2 20, [21], [30], [40], [50]⟩] 100).map
        (fun r => (r.bufferShape, r.bufferAdrressOperand))
      = some ([], []) := by
  decide

/-! ### `pipeline`: the shifted index of the prefetch -/

/-- The index shift of the prefetch for an operation naming the induction
variable of the compute loop exactly once: the rewriting succeeds for a map
without symbols, keeps the dimension count and the operands, and the new map at
the induction value `i` has the results of the old map at `i + step`, the other
operands keeping their values. -/
theorem replaceAffineExprInLoop_value (iv : Value) (step : Int) (pre post : List Value)
    (op : Operation) (hkind : op.kind = .AffineVectorLoadOp ∨ op.kind = .AffineVectorStoreOp)
    (hpre : iv ∉ pre) (hpost : iv ∉ post) (hops : op.mapOperands = pre ++ iv :: post)
    (hfree : ∀ e ∈ op.map.results, e.symbolFree = true) :
    ∃ op1, replaceAffineExprInLoop iv (.binary .Add (.dim 0) (.const step)) 1 op = some op1 ∧
      op1.kind = op.kind ∧ op1.memref = op.memref ∧ op1.storedValue = op.storedValue ∧
      op1.map.numDims = op.map.numDims ∧ op1.mapOperands = op.mapOperands ∧
      ∀ env : Value → Int,
        op1.map.valueAt env op1.mapOperands
          = op.map.valueAt (fun v => if v = iv then env iv + step else env v)
              op.mapOperands := by
  have hcontains : op.mapOperands.contains iv = true := by
    rw [hops]
    simp
  have hidx : op.mapOperands.indexOf iv = pre.length := by
    rw [hops, List.indexOf_append_of_not_mem hpre]
    simp
  have hs1 : shiftAffineExprDim (.binary .Add (.dim 0) (.const step)) pre.length
      = some (.binary .Add (.dim (0 + pre.length)) (.const step)) := rfl
  obtain ⟨exprs, he1, -⟩ := mapOrAbort_of_forall
    (fun e => getModifiedExpr e (.binary .Add (.dim (0 + pre.length)) (.const step))
      pre.length 1) (fun _ => True)
    op.map.results (fun e he => by
      obtain ⟨e1, h1, -⟩ := getModifiedExpr_of_symbolFree
        (.binary .Add (.dim (0 + pre.length)) (.const step)) pre.length 1 rfl e (hfree e he)
      exact ⟨e1, h1, trivial⟩)
  have hrun : replaceAffineExprInLoop iv (.binary .Add (.dim 0) (.const step)) 1 op
      = some { op with
          map := { numDims := op.map.numDims + 1 - 1, numSymbols := 0, results := exprs } } := by
    unfold replaceAffineExprInLoop
    rcases hkind with hk | hk <;> simp only [hk, hcontains, if_true, hidx, hs1, he1]
  refine ⟨_, hrun, rfl, rfl, rfl, by simp, rfl, ?_⟩
  intro env
  have hval : (AffineExpr.binary .Add (.dim (0 + pre.length)) (.const step)).value
      (pre.map env ++ [env iv] ++ post.map env) [] = env iv + step := by
    simp only [AffineExpr.value, AffineExprKind.apply, zero_add, List.append_assoc]
    rw [List.getD_append_right _ _ _ _ (by simp)]
    simp
  have hpre1 : pre.map (fun v => if v = iv then env iv + step else env v) = pre.map env := by
    apply List.map_congr_left
    intro v hv
    rw [if_neg (fun (h : v = iv) => hpre (h ▸ hv))]
  have hpost1 : post.map (fun v => if v = iv then env iv + step else env v) = post.map env := by
    apply List.map_congr_left
    intro v hv
    rw [if_neg (fun (h : v = iv) => hpost (h ▸ hv))]
  unfold AffineMap.valueAt
  simp only [hops, List.map_append, List.map_cons, hpre1, hpost1, if_true]
  have := mapOrAbort_map_eq _ (AffineExpr.value (pre.map env ++ [env iv] ++ post.map env) [])
    (AffineExpr.value (pre.map env ++ (env iv + step) :: post.map env) [])
    (fun a b hab => getModifiedExpr_value (.binary .Add (.dim (0 + pre.length)) (.const step))
      pre.length 1 (pre.map env) [env iv] (post.map env) (env iv + step) (by simp) rfl
      (le_refl 1) hval a b hab) _ _ he1
  simpa using this

/-- C31 (pipeline, failing input). A vector load `A[%7, %7]` (map
`(d0, d1) -> (d0, d1)`, operands `(%7, %7)`) in a read body moved under the
compute loop `%7` of step `2`: the rewriting shifts the dimension of the first
occurrence only, so at the induction value `0` the load reads `A[2, 0]` where
the original map at `0 + 2` reads `A[2, 2]`. -/
theorem pipeline_shifts_first_occurrence_only :
    replaceAffineExprInLoop 7 (.binary .Add (.dim 0) (.const 2)) 1
        ⟨.AffineVectorLoadOp, 3, 0, ⟨2, 0, [.dim 0, .dim 1]⟩, [7, 7]⟩
      = some ⟨.AffineVectorLoadOp, 3, 0,
          ⟨2, 0, [.binary .Add (.dim 0) (.const 2), .dim 1]⟩, [7, 7]⟩ ∧
    (AffineMap.mk 2 0 [.binary .Add (.dim 0) (.const 2), .dim 1]).valueAt (fun _ => 0) [7, 7]
      = [2, 0] ∧
    (AffineMap.mk 2 0 [.dim 0, .dim 1]).valueAt (fun _ => 0 + 2) [7, 7] = [2, 2] := by
  decide

/-! ### `split`: the nest enumerates the old iterations -/

theorem range_flatMap_block (f : Nat) :
    ∀ q : Nat, (List.range q).flatMap (fun k => (List.range f).map fun j => k * f + j)
      = List.range (q * f) := by
  intro q
  induction q with
  | zero => simp
  | succ q ih =>
    rw [List.range_succ, List.flatMap_append, ih, Nat.succ_mul, List.range_add]
    simp

theorem nestIterations_cons_ofConstants (lb ub s : Int) (iv : Value) (rest : List AffineForOp) :
    nestIterations (AffineForOp.ofConstants lb ub s iv :: rest)
      = (iterationValues lb ub s).flatMap fun v => (nestIterations rest).map fun t => v :: t := by
  rfl

theorem nestIterations_length :
    ∀ (ls : List AffineForOp) (t : List Int), t ∈ nestIterations ls → t.length = ls.length := by
  intro ls
  induction ls with
  | nil =>
    intro t ht
    simp only [nestIterations, List.mem_singleton] at ht
    subst ht
    rfl
  | cons l rest ih =>
    intro t ht
    unfold nestIterations at ht
    split at ht
    · rw [List.mem_flatMap] at ht
      obtain ⟨v, -, hv⟩ := ht
      obtain ⟨t1, ht1, rfl⟩ := List.mem_map.mp hv
      simp [ih t1 ht1]
    · cases ht

theorem map_sum_flatMap_cons (vs : List Int) (inner : List (List Int)) :
    (vs.flatMap fun v => inner.map fun t => v :: t).map List.sum
      = vs.flatMap fun v => (inner.map List.sum).map fun x => v + x := by
  induction vs with
  | nil => rfl
  | cons v rest ih =>
    simp only [List.flatMap_cons, List.map_append, ih, List.map_map]
    congr 1

theorem iterationValues_zero_of_mul (f : Int) (n : Nat) (hf : 0 < f) :
    iterationValues 0 (f * (n : Int)) f = (List.range n).map fun (k : Nat) => (k : Int) * f := by
  unfold iterationValues
  rw [tripCount_of_mul hf (Int.natCast_nonneg n) (sub_zero _)]
  simp

theorem nestIterations_buildAffineLoopNest (g : List Int) :
    ∀ (top : Int) (fresh : Value), (∀ f ∈ g, 0 < f) →
      List.Chain' (fun a b => b ∣ a) (top :: g) →
      (nestIterations (buildAffineLoopNest (List.replicate (g.length + 1) 0) (top :: g)
          (g ++ [1]) fresh)).map List.sum
        = (List.range top.toNat).map fun (k : Nat) => (k : Int) := by
  induction g with
  | nil =>
    intro top fresh _ _
    have hb : buildAffineLoopNest (List.replicate ([] : List Int).length.succ 0) [top]
        ([] ++ [1]) fresh = [AffineForOp.ofConstants 0 top 1 fresh] := rfl
    rw [hb, nestIterations_cons_ofConstants, map_sum_flatMap_cons]
    have hv : iterationValues 0 top 1 = (List.range top.toNat).map fun (k : Nat) => (k : Int) := by
      have := iterationValues_zero_of_mul 1 top.toNat (by norm_num)
      rcases le_or_lt top 0 with h | h
      · have h0 : top.toNat = 0 := by omega
        rw [h0]
        simp [iterationValues, tripCount, h]
      · have h1 : (1 : Int) * (top.toNat : Int) = top := by omega
        rw [h1] at this
        rw [this]
        simp
    rw [hv]
    generalize List.range top.toNat = ks
    induction ks with
    | nil => rfl
    | cons k ks ihk =>
      simp only [List.map_cons, List.flatMap_cons, ihk]
      simp [nestIterations]
  | cons f g ih =>
    intro top fresh hpos hch
    have hf : 0 < f := hpos f (List.mem_cons_self _ _)
    rw [List.chain'_cons] at hch
    obtain ⟨c, hc⟩ := hch.1
    have hrec := ih f (fresh + 1) (fun x hx => hpos x (List.mem_cons_of_mem _ hx)) hch.2
    have hb : buildAffineLoopNest (List.replicate ((f :: g).length + 1) 0) (top :: f :: g)
        ((f :: g) ++ [1]) fresh
        = AffineForOp.ofConstants 0 top f fresh ::
          buildAffineLoopNest (List.replicate (g.length + 1) 0) (f :: g) (g ++ [1])
            (fresh + 1) := rfl
    rw [hb, nestIterations_cons_ofConstants, map_sum_flatMap_cons, hrec]
    rcases le_or_lt c 0 with h | h
    · have htop : top ≤ 0 := by
        rw [hc]
        exact mul_nonpos_of_nonneg_of_nonpos (le_of_lt hf) h
      have h0 : top.toNat = 0 := by omega
      have hv : iterationValues 0 top f = [] := by
        simp [iterationValues, tripCount, htop]
      rw [h0, hv]
      rfl
    · obtain ⟨n, rfl⟩ : ∃ n : Nat, c = (n : Int) := ⟨c.toNat, by omega⟩
      obtain ⟨F, rfl⟩ : ∃ F : Nat, f = (F : Int) := ⟨f.toNat, by omega⟩
      have htop : top.toNat = n * F := by
        rw [hc]
        have : ((F : Int) * (n : Int)) = ((n * F : Nat) : Int) := by push_cast; ring
        rw [this, Int.toNat_natCast]
      rw [hc, iterationValues_zero_of_mul _ n hf, ← hc, htop, ← range_flatMap_block F n,
        Int.toNat_natCast]
      simp only [List.flatMap, List.map_map, List.map_flatten]
      congr 1
      apply List.map_congr_left
      intro k _
      simp only [Function.comp, List.map_map]
      apply List.map_congr_left
      intro j _
      simp only [Function.comp]
      push_cast
      ring

theorem sumExpr_value_tuple (t : List Int) (h : t ≠ []) :
    (sumExpr t.length).value t [] = t.sum := by
  obtain ⟨m, hm⟩ : ∃ m, t.length = m + 1 :=
    Nat.exists_eq_succ_of_ne_zero (fun h0 => h (List.length_eq_zero.mp h0))
  rw [hm, sumExpr_value, ← hm]
  have := map_getD_range_append t []
  rw [List.append_nil] at this
  rw [this]

/-- C32 (split, the nest). For a loop `[0, N)` and positive factors
`f_1 .. f_m` with `f_1 | f_2 | .. | f_m | N`, the nest `split` builds (upper
bounds `N, f_m, .., f_1`, steps `f_m, .., f_1, 1`, lower bounds `0`) runs its
innermost body at tuples of induction values whose sums, the values of the
expression `d0 + d1 + ..` put in place of the old induction variable, are
`0, 1, .., N - 1` in this order, each once. -/
theorem split_nest_enumerates (N : Int) (iv fresh : Value) (factors : List Int)
    (hpos : ∀ f ∈ factors, 0 < f)
    (hch : List.Chain' (fun a b => a ∣ b) (factors ++ [N])) :
    ∃ ls, splitLoops (AffineForOp.ofConstants 0 N 1 iv) (factors.length + 1) factors fresh
        = some ls ∧
      (∀ l ∈ ls, l.getConstantLowerBound = some 0) ∧
      ls.map AffineForOp.getConstantUpperBound = ((factors ++ [N]).reverse).map some ∧
      ls.map AffineForOp.step = (1 :: factors).reverse ∧
      (nestIterations ls).map (fun t => (sumExpr ls.length).value t [])
        = (List.range N.toNat).map fun (k : Nat) => (k : Int) := by
  have hlenU : ((factors ++ [N]).reverse).length = factors.length + 1 := by simp
  have hlenS : ((1 :: factors).reverse).length = ((factors ++ [N]).reverse).length := by simp
  obtain ⟨h1, h2, h3, h4, -⟩ :=
    buildAffineLoopNest_shape ((factors ++ [N]).reverse) ((1 :: factors).reverse) fresh hlenS
  rw [hlenU] at h1 h2 h3 h4
  refine ⟨_, splitLoops_ofConstants N iv fresh factors, h2, h4, h3, ?_⟩
  have hsum : (nestIterations (buildAffineLoopNest (List.replicate (factors.length + 1) 0)
      ((factors ++ [N]).reverse) ((1 :: factors).reverse) fresh)).map
        (fun t => (sumExpr (buildAffineLoopNest (List.replicate (factors.length + 1) 0)
          ((factors ++ [N]).reverse) ((1 :: factors).reverse) fresh).length).value t [])
      = (nestIterations (buildAffineLoopNest (List.replicate (factors.length + 1) 0)
          ((factors ++ [N]).reverse) ((1 :: factors).reverse) fresh)).map List.sum := by
    apply List.map_congr_left
    intro t ht
    have hl := nestIterations_length _ t ht
    rw [← hl]
    apply sumExpr_value_tuple
    intro h0
    rw [h0, h1] at hl
    cases hl
  rw [hsum]
  have e1 : (factors ++ [N]).reverse = N :: factors.reverse := by simp
  have e2 : (1 :: factors).reverse = factors.reverse ++ [1] := by simp
  have e3 : factors.length = factors.reverse.length := by simp
  rw [e1, e2, e3]
  apply nestIterations_buildAffineLoopNest factors.reverse N fresh
  · intro f hf
    exact hpos f (List.mem_reverse.mp hf)
  · have : List.Chain' (fun a b => a ∣ b) (N :: factors.reverse).reverse := by
      simpa using hch
    rw [List.chain'_reverse] at this
    exact this

/-- Witness of `split_nest_enumerates`: `[0, 8)` split with the factors `2, 4`
(loops `[0, 8)` step 4, `[0, 4)` step 2, `[0, 2)` step 1). -/
theorem split_nest_enumerates_witness :
    ∃ ls, splitLoops (AffineForOp.ofConstants 0 8 1 7) (([2, 4] : List Int).length + 1) [2, 4] 20
        = some ls ∧
      (∀ l ∈ ls, l.getConstantLowerBound = some 0) ∧
      ls.map AffineForOp.getConstantUpperBound = ((([2, 4] : List Int) ++ [8]).reverse).map some ∧
      ls.map AffineForOp.step = (1 :: ([2, 4] : List Int)).reverse ∧
      (nestIterations ls).map (fun t => (sumExpr ls.length).value t [])
        = (List.range (8 : Int).toNat).map fun (k : Nat) => (k : Int) :=
  split_nest_enumerates 8 7 20 [2, 4] (by decide)
    (by simp only [List.cons_append, List.nil_append, List.chain'_cons, List.chain'_singleton,
      and_true]; decide)

/-! ### `reorder`: the bubble sort stops -/

theorem misordered_swap (pri : LoopId → Option Int) (p s : LoopId) (below : List LoopId)
    (h : priorityOf pri p < priorityOf pri s) :
    ∀ above : List LoopId,
      misordered pri (above ++ p :: s :: below)
        = misordered pri (above ++ s :: p :: below) + 1 := by
  intro above
  induction above with
  | nil =>
    have h2 : ¬ priorityOf pri s < priorityOf pri p := not_lt_of_lt h
    simp only [List.nil_append, misordered, List.countP_cons, h, h2, decide_True, decide_False,
      if_true]
    simp only [Bool.false_eq_true, if_false]
    omega
  | cons x above ih =>
    have e1 : x :: above ++ p :: s :: below = x :: (above ++ p :: s :: below) := rfl
    have e2 : x :: above ++ s :: p :: below = x :: (above ++ s :: p :: below) := rfl
    rw [e1, e2]
    simp only [misordered]
    rw [ih]
    simp only [List.countP_append, List.countP_cons]
    omega

theorem misordered_le_sq (pri : LoopId → Option Int) :
    ∀ chain : List LoopId, misordered pri chain ≤ chain.length ^ 2 := by
  intro chain
  induction chain with
  | nil => simp [misordered]
  | cons l rest ih =>
    have h1 := List.countP_le_length (fun son => decide (priorityOf pri l < priorityOf pri son))
      (l := rest)
    simp only [misordered, List.length_cons]
    nlinarith

theorem bubblePass_spec (pri : LoopId → Option Int) :
    ∀ (below above : List LoopId) (p : LoopId) (sw : Bool),
      (bubblePass pri above p below sw).1.Perm (above ++ p :: below) ∧
      misordered pri (bubblePass pri above p below sw).1
        ≤ misordered pri (above ++ p :: below) ∧
      (sw = true → (bubblePass pri above p below sw).2 = true) ∧
      ((bubblePass pri above p below sw).2 = true → sw = true ∨
        misordered pri (bubblePass pri above p below sw).1
          < misordered pri (above ++ p :: below)) ∧
      ((bubblePass pri above p below sw).2 = false →
        (bubblePass pri above p below sw).1 = above ++ p :: below ∧
        List.Chain' (fun a b => priorityOf pri b ≤ priorityOf pri a)
          (p :: below.takeWhile fun l => (pri l).isSome)) := by
  intro below
  induction below with
  | nil =>
    intro above p sw
    have hb : bubblePass pri above p [] sw = (above ++ [p], sw) := by
      simp only [bubblePass]
    rw [hb]
    exact ⟨List.Perm.refl _, le_refl _, fun h => h, fun h => Or.inl h,
      fun _ => ⟨rfl, List.chain'_singleton _⟩⟩
  | cons son below ih =>
    intro above p sw
    by_cases hson : (pri son).isSome = true
    · by_cases hlt : priorityOf pri p < priorityOf pri son
      · have hb : bubblePass pri above p (son :: below) sw
            = bubblePass pri (above ++ [son]) p below true := by
          simp only [bubblePass, hson, hlt, if_true]
        obtain ⟨i1, i2, i3, -, -⟩ := ih (above ++ [son]) p true
        have hsw := misordered_swap pri p son below hlt above
        have e : above ++ [son] ++ p :: below = above ++ son :: p :: below := by simp
        rw [hb]
        rw [e] at i1 i2
        refine ⟨?_, by omega, fun _ => i3 rfl, fun _ => Or.inr (by omega), ?_⟩
        · refine i1.trans (List.Perm.append_left _ (List.Perm.swap _ _ _))
        · intro hf
          rw [i3 rfl] at hf
          cases hf
      · have hb : bubblePass pri above p (son :: below) sw
            = bubblePass pri (above ++ [p]) son below sw := by
          simp only [bubblePass, hson, hlt, if_true, if_false]
        obtain ⟨i1, i2, i3, i4, i5⟩ := ih (above ++ [p]) son sw
        have e : above ++ [p] ++ son :: below = above ++ p :: son :: below := by simp
        rw [hb]
        rw [e] at i1 i2 i4 i5
        refine ⟨i1, i2, i3, i4, ?_⟩
        intro hf
        obtain ⟨j1, j2⟩ := i5 hf
        refine ⟨j1, ?_⟩
        rw [List.takeWhile_cons_of_pos (p := fun l => (pri l).isSome) hson, List.chain'_cons]
        exact ⟨not_lt.mp hlt, j2⟩
    · have hb : bubblePass pri above p (son :: below) sw
          = (above ++ p :: son :: below, sw) := by
        simp only [bubblePass, hson]
        rfl
      rw [hb]
      refine ⟨List.Perm.refl _, le_refl _, fun h => h, fun h => Or.inl h, fun _ => ⟨rfl, ?_⟩⟩
      rw [List.takeWhile_cons_of_neg (p := fun l => (pri l).isSome) hson]
      exact List.chain'_singleton _

theorem dropWhile_ne_of_mem (p : LoopId) :
    ∀ chain : List LoopId, p ∈ chain →
      chain = (chain.takeWhile fun l => l != p) ++
        p :: (chain.dropWhile fun l => l != p).tail := by
  intro chain
  induction chain with
  | nil => intro h; cases h
  | cons x rest ih =>
    intro h
    by_cases hx : x = p
    · subst hx
      simp
    · have hrest : p ∈ rest := by
        rcases List.mem_cons.mp h with h1 | h1
        · exact absurd h1.symm hx
        · exact h1
      have hne : (x != p) = true := by simpa using hx
      rw [List.takeWhile_cons_of_pos (p := fun l => l != p) hne,
        List.dropWhile_cons_of_pos (p := fun l => l != p) hne, List.cons_append, ← ih hrest]

theorem bubbleSort_terminates (pri : LoopId → Option Int) (p : LoopId) :
    ∀ (n : Nat) (chain : List LoopId), p ∈ chain → misordered pri chain ≤ n →
      ∃ result, (∀ fuel, n < fuel → bubbleSort pri p fuel chain = some result) ∧
        result.Perm chain ∧
        List.Chain' (fun a b => priorityOf pri b ≤ priorityOf pri a)
          (p :: ((result.dropWhile fun l => l != p).tail.takeWhile fun l => (pri l).isSome)) := by
  intro n
  induction n with
  | zero =>
    intro chain hp hn
    have hdec := dropWhile_ne_of_mem p chain hp
    obtain ⟨-, -, -, i4, i5⟩ := bubblePass_spec pri (chain.dropWhile fun l => l != p).tail
      (chain.takeWhile fun l => l != p) p false
    rw [← hdec] at i4 i5
    cases hpass : (bubblePass pri (chain.takeWhile fun l => l != p) p
        (chain.dropWhile fun l => l != p).tail false).2 with
    | true =>
      rcases i4 hpass with h | h
      · cases h
      · omega
    | false =>
      obtain ⟨j1, j2⟩ := i5 hpass
      refine ⟨chain, ?_, List.Perm.refl _, j2⟩
      intro fuel hfuel
      obtain ⟨k, rfl⟩ : ∃ k, fuel = k + 1 := ⟨fuel - 1, by omega⟩
      simp only [bubbleSort, hpass, j1]
      rfl
  | succ m ih =>
    intro chain hp hn
    have hdec := dropWhile_ne_of_mem p chain hp
    obtain ⟨i1, -, -, i4, i5⟩ := bubblePass_spec pri (chain.dropWhile fun l => l != p).tail
      (chain.takeWhile fun l => l != p) p false
    rw [← hdec] at i1 i4 i5
    cases hpass : (bubblePass pri (chain.takeWhile fun l => l != p) p
        (chain.dropWhile fun l => l != p).tail false).2 with
    | true =>
      have hlt : misordered pri (bubblePass pri (chain.takeWhile fun l => l != p) p
          (chain.dropWhile fun l => l != p).tail false).1 < misordered pri chain := by
        rcases i4 hpass with h | h
        · cases h
        · exact h
      obtain ⟨result, r1, r2, r3⟩ := ih _ (i1.symm.subset hp) (by omega)
      refine ⟨result, ?_, r2.trans i1, r3⟩
      intro fuel hfuel
      obtain ⟨k, rfl⟩ : ∃ k, fuel = k + 1 := ⟨fuel - 1, by omega⟩
      simp only [bubbleSort, hpass, if_true]
      exact r1 k (by omega)
    | false =>
      obtain ⟨j1, j2⟩ := i5 hpass
      refine ⟨chain, ?_, List.Perm.refl _, j2⟩
      intro fuel hfuel
      obtain ⟨k, rfl⟩ : ∃ k, fuel = k + 1 := ⟨fuel - 1, by omega⟩
      simp only [bubbleSort, hpass, j1]
      rfl

theorem assignPriority_isSome (x : LoopId) :
    ∀ (ls : List LoopId) (p : Int) (m : LoopId → Option Int),
      (assignPriority ls p m x).isSome = true ↔ x ∈ ls ∨ (m x).isSome = true := by
  intro ls
  induction ls with
  | nil => intro p m; simp [assignPriority]
  | cons l ls ih =>
    intro p m
    simp only [assignPriority, ih, List.mem_cons]
    by_cases hx : x = l
    · simp [hx]
    · simp [hx]

/-- C37 (reorder, the bubble sort). On a perfectly nested chain, for every list
of target loops: either no loop of the chain is a target and `reorder` stops at
`assert(found)`, or the `do ... while (swapped)` loop stops (any fuel above the
square of the chain length gives the same final chain, a permutation of the
chain) and in the final chain, from the loop `parentLoop_` where the sort
started downwards through the target loops nested directly in one another, no
loop has a higher priority than its parent. When every loop of the chain is a
target, that is the whole sub-chain rooted at `parentLoop_`. -/
theorem reorder_bubble_sort_terminates (chain loops : List LoopId) :
    (findFirstTargetLoop (loopPriority loops) chain = none ∧
      ∀ fuel, reorder fuel chain loops = none) ∨
    ∃ parentLoop_ result,
      findFirstTargetLoop (loopPriority loops) chain = some parentLoop_ ∧
      (∀ fuel, chain.length ^ 2 < fuel → reorder fuel chain loops = some result) ∧
      result.Perm chain ∧
      List.Chain' (fun a b => priorityOf (loopPriority loops) b ≤ priorityOf (loopPriority loops) a)
        (parentLoop_ :: ((result.dropWhile fun l => l != parentLoop_).tail.takeWhile
          fun l => (loopPriority loops l).isSome)) ∧
      ((∀ l ∈ chain, l ∈ loops) →
        List.Chain'
          (fun a b => priorityOf (loopPriority loops) b ≤ priorityOf (loopPriority loops) a)
          (parentLoop_ :: (result.dropWhile fun l => l != parentLoop_).tail)) := by
  cases hfind : findFirstTargetLoop (loopPriority loops) chain with
  | none =>
    left
    refine ⟨rfl, fun fuel => ?_⟩
    simp only [reorder, hfind]
  | some p =>
    right
    have hp : p ∈ chain := by
      unfold findFirstTargetLoop at hfind
      exact List.mem_of_find?_eq_some hfind
    obtain ⟨result, r1, r2, r3⟩ := bubbleSort_terminates (loopPriority loops) p
      (chain.length ^ 2) chain hp (misordered_le_sq _ chain)
    refine ⟨p, result, rfl, ?_, r2, r3, ?_⟩
    · intro fuel hfuel
      simp only [reorder, hfind]
      exact r1 fuel hfuel
    · intro hall
      have hsome : ∀ l ∈ (result.dropWhile fun l => l != p).tail,
          (loopPriority loops l).isSome = true := by
        intro l hl
        have h1 : l ∈ result :=
          (List.dropWhile_sublist _).subset (List.mem_of_mem_tail hl)
        have h2 : l ∈ loops := hall l (r2.subset h1)
        unfold loopPriority
        rw [assignPriority_isSome]
        exact Or.inl h2
      have htw : ((result.dropWhile fun l => l != p).tail.takeWhile
          fun l => (loopPriority loops l).isSome)
          = (result.dropWhile fun l => l != p).tail := by
        rw [List.takeWhile_eq_self_iff]
        exact hsome
      rw [htw] at r3
      exact r3

end KernelCodeGen
